import Mathlib

/-!
Verification of the gomoku-ai MCTS engine and pipeline against its
natural-language specification.

The development is a shallow embedding of the TypeScript sources:
`src/ai.ts` (board kernel, threat detector, tactical solver, MCTS),
`src/rules_swap2.ts` (arena gate), `src/status.ts` (status deep merge).
Pure functions are translated to Lean functions over lists; imperative
loops become folds or structural recursions; the stateful MCTS tree is
modelled by an explicit step relation on rose trees; the in-place board
mutation of the tactical helpers is modelled by explicit state passing.
Machine time (Date.now deadlines) and the node-counter callback are not
representable in a pure embedding; the solver functions are embedded
without them, which corresponds to runs in which neither the soft
deadline nor the node cap fires (the case singled out by the claims).
-/

set_option maxHeartbeats 1000000

namespace Gomoku


/-- Stone colour, `type Player = 'black' | 'white'` in `src/ai.ts`. -/
inductive Player where
  | black
  | white
deriving DecidableEq, Repr

/-- `getOpponent` (src/ai.ts): the opponent relation on colours. -/
def getOpponent : Player → Player
  | .black => .white
  | .white => .black

/-- A board is a list of rows, each cell `null | 'black' | 'white'`.
The TypeScript representation is `(Player | null)[][]`. -/
abbrev Board := List (List (Option Player))

/-- A move is a pair of row/column coordinates. -/
abbrev Move := ℕ × ℕ

/-- `getBoardSize` (src/ai.ts): size is derived from the row count. -/
def getBoardSize (b : Board) : ℕ := b.length

/-- Well-formedness: the board is square (every row has length `b.length`).
The TypeScript code indexes columns up to `board.length` and therefore
assumes exactly this shape. -/
def Wf (b : Board) : Prop := ∀ row ∈ b, row.length = b.length

instance : DecidablePred Wf := fun b =>
  decidable_of_iff (∀ row ∈ b, row.length = b.length) Iff.rfl

/-- Cell lookup at natural coordinates; `none` both for an empty cell and
for out-of-range access (the two are separated by `cellAt` below, which
is what the forbidden-move scanner uses). -/
def getCell (b : Board) (r c : ℕ) : Option Player :=
  match b.get? r with
  | none => none
  | some row =>
    match row.get? c with
    | none => none
    | some cell => cell

/-- Writing one cell: `board[r][c] = v`.  Out-of-range writes are no-ops,
matching the fact that the source never performs them. -/
def setCell (b : Board) (r c : ℕ) (v : Option Player) : Board :=
  b.set r (((b.get? r).getD []).set c v)

/-- Place a stone of `p` at `m` (the `board[r][c] = player` mutation). -/
def place (b : Board) (p : Player) (m : Move) : Board :=
  setCell b m.1 m.2 (some p)

/-- Remove the stone at `m` (the `board[r][c] = null` mutation). -/
def unplace (b : Board) (m : Move) : Board :=
  setCell b m.1 m.2 none

/-- The cell value seen by the forbidden-move scanner `cellAt` in
src/ai.ts: a stone, an empty cell, or out-of-bounds. -/
inductive CellV where
  | occ (p : Player)
  | emp
  | oob
deriving DecidableEq, Repr

/-- `cellAt` (src/ai.ts): bounds-checked read at integer coordinates,
returning `'OOB'` outside the square `[0,n) × [0,n)`. -/
def cellAt (b : Board) (r c : ℤ) : CellV :=
  let n : ℤ := (getBoardSize b : ℤ)
  if r < 0 ∨ c < 0 ∨ n ≤ r ∨ n ≤ c then .oob
  else
    match getCell b r.toNat c.toNat with
    | some p => .occ p
    | none => .emp

/-- Length of the run of consecutive `p` stones starting one step from
`(r,c)` in direction `(dr,dc)`, scanning at most `k` cells.  This is the
inner `for i = 1..4` loop of `checkWin`. -/
def runLen (b : Board) (p : Player) (r c dr dc : ℤ) : ℕ → ℕ
  | 0 => 0
  | k + 1 =>
    if cellAt b (r + dr) (c + dc) = .occ p then
      1 + runLen b p (r + dr) (c + dc) dr dc k
    else 0

/-- The four direction pairs scanned by `checkWin` (src/ai.ts). -/
def winDirs : List ((ℤ × ℤ) × (ℤ × ℤ)) :=
  [((0, 1), (0, -1)), ((1, 0), (-1, 0)), ((1, 1), (-1, -1)), ((-1, 1), (1, -1))]

/-- `checkWin` (src/ai.ts): after `p` occupies `move`, some line through
`move` holds ≥ 5 consecutive `p` stones.  The `(-1,-1)` sentinel guard of
the source is unrepresentable at type `ℕ × ℕ` and is dropped. -/
def checkWin (b : Board) (p : Player) (move : Move) : Bool :=
  let r : ℤ := (move.1 : ℤ)
  let c : ℤ := (move.2 : ℤ)
  winDirs.any fun d =>
    decide (5 ≤ 1 + runLen b p r c d.1.1 d.1.2 4 + runLen b p r c d.2.1 d.2.2 4)

/-- Placing `m` for `p` yields a five (the pattern `board[r][c] = player;
checkWin(board, player, move)` used throughout the tactical layer). -/
def fiveAfter (b : Board) (p : Player) (m : Move) : Bool :=
  checkWin (place b p m) p m

/-! ### Candidate generation: `getPossibleMoves` -/

/-- Row-major traversal order of the `for r … for c` double loop. -/
def allCoords (n : ℕ) : List Move :=
  (List.range n).flatMap fun r => (List.range n).map fun c => (r, c)

/-- JavaScript `Set.add`: append if not already present (insertion order
is preserved, duplicates are dropped on insertion). -/
def insertNew (l : List Move) (m : Move) : List Move :=
  if m ∈ l then l else l ++ [m]

/-- Neighbour cells generated for one stone at `(r,c)`: the
`for i in [-radius,radius], j in [-radius,radius]` loops of
`getPossibleMoves`, keeping in-bounds empty cells. -/
def stoneNbrs (b : Board) (radius r c : ℕ) : List Move :=
  let n := getBoardSize b
  (List.range (2 * radius + 1)).flatMap fun (di : ℕ) =>
    (List.range (2 * radius + 1)).filterMap fun (dj : ℕ) =>
      let nr : ℤ := (r : ℤ) + ((di : ℤ) - (radius : ℤ))
      let nc : ℤ := (c : ℤ) + ((dj : ℤ) - (radius : ℤ))
      if 0 ≤ nr ∧ nr < n ∧ 0 ≤ nc ∧ nc < n ∧
          getCell b nr.toNat nc.toNat = none then
        some (nr.toNat, nc.toNat)
      else none

/-- `getPossibleMoves` (src/ai.ts): the empty cells within Chebyshev
distance `radius` of some stone, in `Set` insertion order; the single
centre cell `(⌊n/2⌋, ⌊n/2⌋)` when the board has no stones. -/
def getPossibleMoves (b : Board) (radius : ℕ) : List Move :=
  let n := getBoardSize b
  let hasStones := (allCoords n).any fun m => (getCell b m.1 m.2).isSome
  if hasStones then
    (allCoords n).foldl
      (fun acc m =>
        if (getCell b m.1 m.2).isSome then
          (stoneNbrs b radius m.1 m.2).foldl insertNew acc
        else acc)
      []
  else [(n / 2, n / 2)]

/-! ### The eight symmetry transforms -/

/-- Transform identifiers 0..7: identity, R90, R180, R270, flipH, flipV,
transpose, anti-transpose (src/ai.ts `TransformId`). -/
abbrev TransformId := Fin 8

/-- `transformRC` (src/ai.ts): apply transform `t` to coordinates on an
`n × n` grid. -/
def transformRC (t : TransformId) (n : ℕ) (m : Move) : Move :=
  match t.val, m with
  | 0, (r, c) => (r, c)
  | 1, (r, c) => (c, n - 1 - r)
  | 2, (r, c) => (n - 1 - r, n - 1 - c)
  | 3, (r, c) => (n - 1 - c, r)
  | 4, (r, c) => (r, n - 1 - c)
  | 5, (r, c) => (n - 1 - r, c)
  | 6, (r, c) => (c, r)
  | _, (r, c) => (n - 1 - c, n - 1 - r)

/-- Inverse transform: rotations R90 and R270 swap, the others are
involutions. -/
def invT : TransformId → TransformId
  | 1 => 3
  | 3 => 1
  | t => t

/-- Composition of transforms, looked up by probing the (asymmetric)
point `(0,1)` on a 5×5 grid; `transformRC_comp` below proves that the
resulting table is the composition law on every grid. -/
def mulT (t s : TransformId) : TransformId :=
  ((List.finRange 8).find? fun u =>
    transformRC u 5 (0, 1) = transformRC t 5 (transformRC s 5 (0, 1))).getD 0

/-- `transformBoard` (src/ai.ts) writes `out[t(r,c)] = board[r][c]` for
every cell; functionally, cell `x` of the output is cell `t⁻¹(x)` of the
input, which is how we render it. -/
def transformBoard (b : Board) (t : TransformId) : Board :=
  let n := getBoardSize b
  (List.range n).map fun r =>
    (List.range n).map fun c =>
      let m := transformRC (invT t) n (r, c)
      getCell b m.1 m.2

/-! ### Forbidden-move (3-3 / 4-4) detection -/

/-- The four line directions used by the forbidden detector, the threat
detector and the boost helpers. -/
def lineDirs : List (ℤ × ℤ) := [(0, 1), (1, 0), (1, 1), (1, -1)]

/-- The 6-cell (or 5-cell) window starting at offset `s` from `(r,c)`
along `(dr,dc)`: cell `i` of the window is `(r + (s+i)·dr, c + (s+i)·dc)`. -/
def segCells (b : Board) (r c dr dc s : ℤ) (len : ℕ) : List CellV :=
  (List.range len).map fun (i : ℕ) =>
    cellAt b (r + (s + (i : ℤ)) * dr) (c + (s + (i : ℤ)) * dc)

/-- Count of `p` stones in a window slice. -/
def segStones (p : Player) (seg : List CellV) : ℕ :=
  seg.countP fun v => v = .occ p

/-- Count of empty cells in a window slice. -/
def segEmpties (seg : List CellV) : ℕ :=
  seg.countP fun v => v = .emp

/-- The window conditions tested for one offset `s` by
`hasOpenThreeInDirection`: all six cells on the board, both ends empty,
and the inner four cells hold exactly three `p` stones and one empty with
no opponent stone. -/
def openThreeWindowAt (b : Board) (p : Player) (r c dr dc s : ℤ) : Bool :=
  let seg := segCells b r c dr dc s 6
  decide (CellV.oob ∉ seg) &&
  decide (seg.get? 0 = some .emp) && decide (seg.get? 5 = some .emp) &&
  (let inner := (seg.drop 1).take 4
   decide (CellV.occ (getOpponent p) ∉ inner) &&
   decide (segStones p inner = 3) && decide (segEmpties inner = 1))

/-- `hasOpenThreeInDirection` (src/ai.ts): scan the six 6-cell windows
containing `(r,c)`; the source restricts the placed stone to window
positions 1..4 (`idxMove`). -/
def hasOpenThreeInDirection (b : Board) (p : Player) (r c dr dc : ℤ) : Bool :=
  (List.range 6).any fun (k : ℕ) =>
    let s : ℤ := (k : ℤ) - 5
    decide (1 ≤ -s ∧ -s ≤ 4) && openThreeWindowAt b p r c dr dc s

/-- The window condition tested for one offset `s` by
`hasFourInDirection`: five on-board cells with exactly four `p` stones
and one empty, no opponent stone. -/
def fourWindowAt (b : Board) (p : Player) (r c dr dc s : ℤ) : Bool :=
  let seg := segCells b r c dr dc s 5
  decide (CellV.oob ∉ seg) &&
  decide (CellV.occ (getOpponent p) ∉ seg) &&
  decide (segStones p seg = 4) && decide (segEmpties seg = 1)

/-- `hasFourInDirection` (src/ai.ts): scan the five 5-cell windows
containing `(r,c)` (the source's `idxMove` guard `0 ≤ -s ≤ 4` always
holds on this range). -/
def hasFourInDirection (b : Board) (p : Player) (r c dr dc : ℤ) : Bool :=
  (List.range 5).any fun (k : ℕ) =>
    let s : ℤ := (k : ℤ) - 4
    fourWindowAt b p r c dr dc s

/-- `createsDoubleOpenThree` (src/ai.ts): open threes in at least two of
the four line directions (the source counts with an early exit at 2;
extensionally this is a count). -/
def createsDoubleOpenThree (b : Board) (p : Player) (r c : ℤ) : Bool :=
  decide (2 ≤ lineDirs.countP fun d => hasOpenThreeInDirection b p r c d.1 d.2)

/-- `createsDoubleFour` (src/ai.ts): fours in at least two of the four
line directions. -/
def createsDoubleFour (b : Board) (p : Player) (r c : ℤ) : Bool :=
  decide (2 ≤ lineDirs.countP fun d => hasFourInDirection b p r c d.1 d.2)

/-- `isForbiddenMove` (src/ai.ts): Renju-style forbidden test, black
only; a five overrides; otherwise 3-3 or 4-4 after placement. -/
def isForbiddenMove (b : Board) (p : Player) (m : Move) : Bool :=
  if p ≠ .black then false
  else if (getCell b m.1 m.2).isSome then false
  else if checkWin (place b p m) p m then false
  else createsDoubleOpenThree (place b p m) p m.1 m.2 ||
    createsDoubleFour (place b p m) p m.1 m.2

/-! ### Threat detector -/

/-- One 5-cell scan window of `findThreats`, starting at `(rs,cs)` in
direction `(dr,dc)`: if the window lies on the board and contains exactly
four `p` stones and one empty cell (no opponent), return that empty cell. -/
def threatWindowGap (b : Board) (p : Player) (rs cs : ℕ) (dr dc : ℤ) :
    Option Move :=
  let seg := segCells b rs cs dr dc 0 5
  if CellV.oob ∉ seg ∧ CellV.occ (getOpponent p) ∉ seg ∧
      segStones p seg = 4 ∧ segEmpties seg = 1 then
    (List.range 5).findSome? fun (i : ℕ) =>
      let rr : ℤ := (rs : ℤ) + (i : ℤ) * dr
      let cc : ℤ := (cs : ℤ) + (i : ℤ) * dc
      if cellAt b rr cc = .emp then some (rr.toNat, cc.toNat) else none
  else none

/-- Both extension cells beyond the window ends are empty (the open-four
test of `findThreats`). -/
def threatWindowOpen (b : Board) (rs cs : ℕ) (dr dc : ℤ) : Bool :=
  cellAt b ((rs : ℤ) - dr) ((cs : ℤ) - dc) = .emp &&
  cellAt b ((rs : ℤ) + 5 * dr) ((cs : ℤ) + 5 * dc) = .emp

/-- `findThreats` (src/ai.ts): scan every window start row-major, inner
loop over the four directions; `four` collects every gap cell, while
`openFour` additionally requires both window extensions empty.  `open4`
selects between the two. -/
def findThreats (b : Board) (p : Player) (open4 : Bool) : List Move :=
  (allCoords (getBoardSize b)).flatMap fun rc =>
    lineDirs.filterMap fun d =>
      match threatWindowGap b p rc.1 rc.2 d.1 d.2 with
      | none => none
      | some gap =>
        if open4 then
          if threatWindowOpen b rc.1 rc.2 d.1 d.2 then some gap else none
        else some gap

/-- `listOpenThreeMakers` (src/ai.ts): candidate cells whose placement
produces an open four right away. -/
def listOpenThreeMakers (b : Board) (p : Player) (candidates : List Move) :
    List Move :=
  candidates.filter fun m =>
    (getCell b m.1 m.2).isNone && !(findThreats (place b p m) p true).isEmpty

/-! ### Tactical solver (VCF-light / VCT) -/

/-- `winningMovesFor` (src/ai.ts): the legal cells whose placement wins
immediately.  `listLegalMoves` in the source is `getPossibleMoves` at
radius 1. -/
def winningMovesFor (b : Board) (p : Player) : List Move :=
  (getPossibleMoves b 1).filter fun m => fiveAfter b p m

/-- Build a JavaScript `Set` from several move lists in insertion order
(first occurrence wins). -/
def dedupUnion (ls : List (List Move)) : List Move :=
  ls.foldl (fun acc l => l.foldl insertNew acc) []

/-- The centre-distance key `|r − mid| + |c − mid|` of the solver's
fallback sort. -/
def centerKey (n : ℕ) (m : Move) : ℕ :=
  ((m.1 : ℤ) - ((n / 2 : ℕ) : ℤ)).natAbs + ((m.2 : ℤ) - ((n / 2 : ℕ) : ℤ)).natAbs

/-- Stable insertion of `m` after every element of no-greater key. -/
def insertByKey (key : Move → ℕ) (m : Move) : List Move → List Move
  | [] => [m]
  | x :: xs => if key x ≤ key m then x :: insertByKey key m xs else m :: x :: xs

/-- Stable ascending sort by key; stable sorts are unique, so this is the
sort the JavaScript runtime performs. -/
def stableSortByKey (key : Move → ℕ) (l : List Move) : List Move :=
  l.foldl (fun acc m => insertByKey key m acc) []

/-- The solver's fallback candidate list: legal moves sorted by distance
to the centre, first `k` of them. -/
def centerTake (b : Board) (legal : List Move) (k : ℕ) : List Move :=
  (stableSortByKey (centerKey (getBoardSize b)) legal).take k

/-- Candidate first moves of `findForcedWinFirstMove` / `forcedWinDFS`:
open-four gap cells, then open-three makers, then immediate wins, in
`Set` insertion order; centre-sorted fallback when that set is empty. -/
def solverCandidates (b : Board) (p : Player) (fallbackN : ℕ) : List Move :=
  let legal := getPossibleMoves b 1
  let cset := dedupUnion
    [findThreats b p true, listOpenThreeMakers b p legal, winningMovesFor b p]
  if cset.isEmpty then centerTake b legal fallbackN else cset

/-- `forcedWinDFS` (src/ai.ts): depth-bounded forcing search.  A
candidate succeeds if it wins at once, creates a double threat, or
creates a single winning square whose forced block leaves a forcing win
one level deeper.  The time deadline and node-cap callback of the source
are omitted (the claims concern runs where neither fires). -/
def forcedWinDFS : ℕ → Board → Player → Bool
  | 0, _, _ => false
  | d + 1, b, p =>
    (solverCandidates b p 24).any fun m =>
      if (getCell b m.1 m.2).isSome then false
      else if p = .black && isForbiddenMove b p m then false
      else if checkWin (place b p m) p m then true
      else if 2 ≤ (winningMovesFor (place b p m) p).length then true
      else
        match winningMovesFor (place b p m) p with
        | [w] => forcedWinDFS d (place (place b p m) (getOpponent p) w) p
        | _ => false

/-- The per-candidate test of `findForcedWinFirstMove`. -/
def ffwMoveOk (b : Board) (p : Player) (maxDepth : ℕ) (m : Move) : Bool :=
  if (getCell b m.1 m.2).isSome then false
  else if p = .black && isForbiddenMove b p m then false
  else if checkWin (place b p m) p m then true
  else if 2 ≤ (winningMovesFor (place b p m) p).length then true
  else
    match maxDepth, winningMovesFor (place b p m) p with
    | d + 1, [w] => forcedWinDFS d (place (place b p m) (getOpponent p) w) p
    | _, _ => false

/-- `findForcedWinFirstMove` (src/ai.ts): first candidate whose forcing
line succeeds. -/
def findForcedWinFirstMove (b : Board) (p : Player) (maxDepth : ℕ) :
    Option Move :=
  (solverCandidates b p 32).find? (ffwMoveOk b p maxDepth)

/-- `listThreatCandidates` (src/ai.ts): wins, open-four gaps, four gaps
and open-three makers, deduplicated in insertion order, restricted to
on-board empty cells. -/
def listThreatCandidates (b : Board) (p : Player) : List Move :=
  let n := getBoardSize b
  (dedupUnion
    [winningMovesFor b p, findThreats b p true, findThreats b p false,
     listOpenThreeMakers b p (getPossibleMoves b 1)]).filter
    fun m => decide (m.1 < n) && decide (m.2 < n) && (getCell b m.1 m.2).isNone

/-- `vctDFS` (src/ai.ts): the threat-space analogue of `forcedWinDFS`
over the wider candidate set. -/
def vctDFS : ℕ → Board → Player → Bool
  | 0, _, _ => false
  | d + 1, b, p =>
    (listThreatCandidates b p).any fun m =>
      if (getCell b m.1 m.2).isSome then false
      else if p = .black && isForbiddenMove b p m then false
      else if checkWin (place b p m) p m then true
      else if 2 ≤ (winningMovesFor (place b p m) p).length then true
      else
        match winningMovesFor (place b p m) p with
        | [w] => vctDFS d (place (place b p m) (getOpponent p) w) p
        | _ => false

/-- The per-candidate test of `findVCTWinFirstMove`. -/
def vctMoveOk (b : Board) (p : Player) (maxDepth : ℕ) (m : Move) : Bool :=
  if (getCell b m.1 m.2).isSome then false
  else if p = .black && isForbiddenMove b p m then false
  else if checkWin (place b p m) p m then true
  else if 2 ≤ (winningMovesFor (place b p m) p).length then true
  else
    match maxDepth, winningMovesFor (place b p m) p with
    | d + 1, [w] => vctDFS d (place (place b p m) (getOpponent p) w) p
    | _, _ => false

/-- `findVCTWinFirstMove` (src/ai.ts). -/
def findVCTWinFirstMove (b : Board) (p : Player) (maxDepth : ℕ) :
    Option Move :=
  (listThreatCandidates b p).find? (vctMoveOk b p maxDepth)

/-- `findDefenseMoveAgainstOpponentForced` (src/ai.ts): if the opponent
(to move next) has a forcing win, return the first blocking candidate
that refutes it. -/
def findDefenseMoveAgainstOpponentForced (b : Board) (p : Player)
    (maxDepth : ℕ) : Option Move :=
  let opponent := getOpponent p
  let probeDepth := max 2 (maxDepth - 1)
  if (findForcedWinFirstMove b opponent probeDepth).isNone then none
  else
    let legal := getPossibleMoves b 1
    let cset := dedupUnion
      [findThreats b opponent true, listOpenThreeMakers b opponent legal,
       winningMovesFor b opponent]
    let candidates := if cset.isEmpty then centerTake b legal 32 else cset
    candidates.find? fun m =>
      if (getCell b m.1 m.2).isSome then false
      else if p = .black && isForbiddenMove b p m then false
      else (findForcedWinFirstMove (place b p m) opponent probeDepth).isNone

/-! ### `findBestMoveNN`: the phase before the PUCT loop -/

/-- The decision chain of `findBestMoveNN` up to (and excluding) the
NN-guided PUCT loop: VCT, then VCF, then the defensive solver, then the
immediate-win scan, then the block-win scan over the adjacency-limited
legal moves.  `vctDepth` is the adapted VCT depth (`VCT_ADAPT`); the VCF
and defense depths are the literal 3 of the source.  `some m` means the
function returns `m` without ever entering the search loop. -/
def findBestMoveNNPre (b : Board) (p : Player) (vctDepth : ℕ) : Option Move :=
  match findVCTWinFirstMove b p vctDepth with
  | some m => some m
  | none =>
  match findForcedWinFirstMove b p 3 with
  | some m => some m
  | none =>
  match findDefenseMoveAgainstOpponentForced b p 3 with
  | some m => some m
  | none =>
    let n := getBoardSize b
    let stones := (allCoords n).countP fun m => (getCell b m.1 m.2).isSome
    let rootRadius := if stones ≤ max 6 (n / 3) then 2 else 1
    let legal := getPossibleMoves b rootRadius
    match legal.find? (fun m => (getCell b m.1 m.2).isNone && fiveAfter b p m)
    with
    | some m => some m
    | none =>
      let opp := getOpponent p
      legal.find? fun m =>
        (getCell b m.1 m.2).isNone && fiveAfter b opp m &&
        !(decide (p = .black) && isForbiddenMove b p m)

/-! ### Game semantics for solver soundness (C5)

`legalFor` is legality in the game the engine plays: an on-board empty
cell, not forbidden (the forbidden test is the engine's own
`isForbiddenMove`, which is identically false for white and false for a
five-completing black move). -/

def legalFor (b : Board) (p : Player) (m : Move) : Prop :=
  m.1 < getBoardSize b ∧ m.2 < getBoardSize b ∧
  getCell b m.1 m.2 = none ∧ isForbiddenMove b p m = false

instance (b : Board) (p : Player) (m : Move) : Decidable (legalFor b p m) :=
  inferInstanceAs (Decidable (_ ∧ _))

/-- Modelled from the spec: "`player` can force a five within the stated
depth against any defense" (§8.7).  `CanForce k b p` holds when `p`, to
move on `b`, has a legal move that either completes a five at once or
such that after every legal reply `e` the reply does not complete an
opponent five and `p` can force within `k − 1` further own moves. -/
def CanForce : ℕ → Board → Player → Prop
  | 0, _, _ => False
  | k + 1, b, p => ∃ m, legalFor b p m ∧
      (fiveAfter b p m = true ∨
        ∀ e, legalFor (place b p m) (getOpponent p) e →
          fiveAfter (place b p m) (getOpponent p) e = false ∧
          CanForce k (place (place b p m) (getOpponent p) e) p)

/-- Modelled from the spec (first move made explicit): move `m` starts a
continuation in which `p` forces a five within `k` further own moves
against any legal defense. -/
def MoveForces (k : ℕ) (b : Board) (p : Player) (m : Move) : Prop :=
  legalFor b p m ∧
  (fiveAfter b p m = true ∨
    ∀ e, legalFor (place b p m) (getOpponent p) e →
      fiveAfter (place b p m) (getOpponent p) e = false ∧
      CanForce k (place (place b p m) (getOpponent p) e) p)

/-- The weakened forcing notion actually implemented: a defending reply
that itself completes a five ends the line in the opponent's favour and
is counted as resolved (the solver ignores opponent counter-fives). -/
def CanForceW : ℕ → Board → Player → Prop
  | 0, _, _ => False
  | k + 1, b, p => ∃ m, legalFor b p m ∧
      (fiveAfter b p m = true ∨
        ∀ e, legalFor (place b p m) (getOpponent p) e →
          fiveAfter (place b p m) (getOpponent p) e = true ∨
          CanForceW k (place (place b p m) (getOpponent p) e) p)

/-- `m` starts a `CanForceW` continuation. -/
def MoveForcesW (k : ℕ) (b : Board) (p : Player) (m : Move) : Prop :=
  legalFor b p m ∧
  (fiveAfter b p m = true ∨
    ∀ e, legalFor (place b p m) (getOpponent p) e →
      fiveAfter (place b p m) (getOpponent p) e = true ∨
      CanForceW k (place (place b p m) (getOpponent p) e) p)

/-! ### The MCTS tree model (C4)

`MCTSNodeNN` keeps a visit counter and a children map; `backpropagate`
increments every node from the selected leaf up to the root, and
`expand` attaches fresh children with zero visits.  A search-loop
simulation is therefore: descend from the root along children to a
childless node, optionally attach fresh children there (expansion, which
in the source happens exactly at a leaf's first evaluation), and
increment every node on the path.  `SimStep` is that step relation;
`bootstrapChildrenFromTT` visit injections and duplicate in-batch
evaluations of one leaf are *not* part of this relation (the amended
claim excludes them). -/

inductive MTree where
  | node (visits : ℕ) (children : List MTree)
deriving Repr

def MTree.visits : MTree → ℕ
  | .node v _ => v

def MTree.children : MTree → List MTree
  | .node _ cs => cs

/-- One simulation of the PUCT loop of `findBestMoveNN`, with no TT
bootstrap and a single evaluation per selected leaf. -/
inductive SimStep : MTree → MTree → Prop
  | leafTerm (v : ℕ) : SimStep (.node v []) (.node (v + 1) [])
  | leafExpand (k : ℕ) :
      SimStep (.node 0 []) (.node 1 (List.replicate k (.node 0 [])))
  | descend (v : ℕ) (pre post : List MTree) (c c' : MTree) :
      SimStep c c' →
      SimStep (.node v (pre ++ c :: post)) (.node (v + 1) (pre ++ c' :: post))

/-- The root right after `root.expand`: zero visits, `k` fresh children. -/
def rootInit (k : ℕ) : MTree := .node 0 (List.replicate k (.node 0 []))

/-- Search states reachable by running simulations from the expanded root. -/
def Reach (k : ℕ) (t : MTree) : Prop :=
  Relation.ReflTransGen SimStep (rootInit k) t

/-- The invariant claimed for every non-leaf node (claim C4 applies it to
the root as well): `visits = 1 + Σ children.visits`, recursively. -/
def balancedSub : MTree → Prop
  | .node v cs =>
    (cs ≠ [] → v = 1 + (cs.map MTree.visits).sum) ∧
    ∀ c ∈ cs.attach, balancedSub c.val
termination_by t => sizeOf t
decreasing_by
  simp only [MTree.node.sizeOf_spec]
  have := List.sizeOf_lt_of_mem c.property
  omega

/-! ### The early-stop trigger of the PUCT loop (C1) -/

/-- One child of the early-stop scan in `findBestMoveNN`
(src/ai.ts, lines 1134-1141): `total += v; if (v >= best) { second :=
best; best := v } else if (v > second) second := v`. -/
def t2step (acc : ℕ × ℕ × ℕ) (v : ℕ) : ℕ × ℕ × ℕ :=
  if acc.1 ≤ v then (v, acc.1, acc.2.2 + v)
  else if acc.2.1 < v then (acc.1, v, acc.2.2 + v)
  else (acc.1, acc.2.1, acc.2.2 + v)

/-- Running best, second-best and total visit counts over the root's
children. -/
def topTwoTotal (l : List ℕ) : ℕ × ℕ × ℕ :=
  l.foldl t2step (0, 0, 0)

/-- The early-stop condition as coded: more than one root child, and
`total ≥ MINV && best ≥ RATIO * max(1, second)`. -/
def earlyStopTrigger (minv : ℕ) (ratioQ : ℚ) (l : List ℕ) : Bool :=
  if 1 < l.length then
    let t := topTwoTotal l
    decide (minv ≤ t.2.2) && decide (ratioQ * max 1 (t.2.1 : ℚ) ≤ (t.1 : ℚ))
  else false

/-- Largest child visit count (0 when there are no children). -/
def bestVisits (l : List ℕ) : ℕ := l.foldl max 0

/-- Second-largest child visit count: the largest after removing one copy
of the maximum. -/
def secondVisits (l : List ℕ) : ℕ := (l.erase (bestVisits l)).foldl max 0

/-- Modelled from the spec: the claim's trigger — "the root's best child
has at least `EARLY_STOP_MIN_VISITS` visits and its visit count is at
least `EARLY_STOP_RATIO` times the visit count of the second-best root
child". -/
def specEarlyStop (minv : ℕ) (ratioQ : ℚ) (l : List ℕ) : Bool :=
  decide (minv ≤ bestVisits l) &&
  decide (ratioQ * (secondVisits l : ℚ) ≤ (bestVisits l : ℚ))

/-! ### The arena gate (C2) -/

/-- Result of one arena game, from the candidate's point of view
(colour alternation is already folded in by the caller in
src/rules_swap2.ts, lines 166-173). -/
inductive GRes where
  | candWin
  | prodWin
  | drawRes
deriving DecidableEq, Repr

/-- Arena tallies. -/
structure ArenaSt where
  candW : ℕ
  prodW : ℕ
  draws : ℕ
  played : ℕ
deriving DecidableEq, Repr

def tallyGame (st : ArenaSt) : GRes → ArenaSt
  | .candWin => { st with candW := st.candW + 1, played := st.played + 1 }
  | .prodWin => { st with prodW := st.prodW + 1, played := st.played + 1 }
  | .drawRes => { st with draws := st.draws + 1, played := st.played + 1 }

/-- The arena loop of src/rules_swap2.ts (lines 166-198) with
`ARENA_EARLY_STOP` enabled: play scheduled games while fewer than `g`
games are done; after each game stop with success when the guaranteed
winrate `candWins / GAMES` reaches the threshold, with failure when the
best-case winrate `(candWins + remaining) / GAMES` is below it.
`none` means the loop ended without an early stop. -/
def arenaGo (thr : ℚ) (g : ℕ) : List GRes → ArenaSt → ArenaSt × Option Bool
  | [], st => (st, none)
  | o :: rest, st =>
    if g ≤ st.played then (st, none)
    else
      let st1 := tallyGame st o
      if thr ≤ (st1.candW : ℚ) / g then (st1, some true)
      else if ((st1.candW : ℚ) + ((g - st1.played : ℕ) : ℚ)) / g < thr then
        (st1, some false)
      else arenaGo thr g rest st1

/-- The promotion decision (src/rules_swap2.ts, lines 200-218):
`winrate = candWins / (candWins + prodWins + draws)` (0 if no games), and
promotion requires `winrate ≥ threshold` and the `PROMOTE_ON_PASS` flag. -/
def promotedDecision (thr : ℚ) (st : ArenaSt) (promoteOnPass : Bool) : Bool :=
  let total := st.candW + st.prodW + st.draws
  let winrate : ℚ := if 0 < total then (st.candW : ℚ) / (total : ℚ) else 0
  decide (thr ≤ winrate) && promoteOnPass

/-! ### The status-file deep merge (C9) -/

/-- JSON values as held by the status document.  JavaScript numbers are
modelled by integers; nothing in the claim depends on numeric values. -/
inductive JVal where
  | jnull
  | jbool (b : Bool)
  | jnum (n : ℤ)
  | jstr (s : String)
  | jarr (xs : List JVal)
  | jobj (kvs : List (String × JVal))

/-- Property read `kvs[k]`: the binding of key `k` (bindings are unique
in a JavaScript object). -/
def getKeyKvs : List (String × JVal) → String → Option JVal
  | [], _ => none
  | e :: tl, k => if e.1 == k then some e.2 else getKeyKvs tl k

/-- JavaScript `out[k] = v` on an object: update the binding in place if
present, else append it. -/
def setKeyKvs : List (String × JVal) → String → JVal → List (String × JVal)
  | [], k, v => [(k, v)]
  | e :: tl, k, v => if e.1 == k then (k, v) :: tl else e :: setKeyKvs tl k v

/-- JavaScript object spread of a string: `{...s}` for a string `s`
yields its index-character properties `{0: s[0], 1: s[1], …}` (for the
falsy empty string `s || {}` is `{}`, which coincides with the empty
property list produced here). -/
def strSpread (s : String) : List (String × JVal) :=
  s.toList.enum.map fun e => (toString e.1, JVal.jstr (String.singleton e.2))

/-- The spread base of `merge` (src/status.ts line 58):
`Array.isArray(a) ? [...a] : {...(a || {})}` — an array copies to an
array, an object copies shallowly, a string spreads to its
index-character properties, and the remaining primitives (`null`,
booleans, numbers — the falsy ones via `a || {}`, the truthy ones
because their wrappers have no own enumerable properties) spread
to `{}`. -/
def baseOfJ : JVal → JVal
  | .jobj kvs => .jobj kvs
  | .jarr xs => .jarr xs
  | .jstr s => .jobj (strSpread s)
  | _ => .jobj []

def getKeyJ (v : JVal) (k : String) : Option JVal :=
  match v with
  | .jobj kvs => getKeyKvs kvs k
  | _ => none

/-- Property write on the merge accumulator.  The accumulator is an
object except when the previous value was an array; a named-property
write on an array is outside the JSON data model (`JSON.stringify` drops
it), so it is modelled as a no-op. -/
def setKeyJ (v : JVal) (k : String) (w : JVal) : JVal :=
  match v with
  | .jobj kvs => .jobj (setKeyKvs kvs k w)
  | other => other

/-- The key loop of `merge` (src/status.ts lines 59-62): for each patch
binding, recurse when the patch value is a non-array object, otherwise
overwrite.  `merge(out[k], b[k])` with `out[k]` absent merges into `{}`. -/
def mergePatch : JVal → List (String × JVal) → JVal
  | out, [] => out
  | out, (k, .jobj inner) :: rest =>
    mergePatch
      (setKeyJ out k (mergePatch (baseOfJ ((getKeyJ out k).getD .jnull)) inner))
      rest
  | out, (k, v) :: rest => mergePatch (setKeyJ out k v) rest
termination_by _ kvs => sizeOf kvs
decreasing_by
  · simp only [List.cons.sizeOf_spec, Prod.mk.sizeOf_spec, JVal.jobj.sizeOf_spec]
    omega
  · simp only [List.cons.sizeOf_spec]
    omega
  · simp only [List.cons.sizeOf_spec]
    omega

/-- `merge` (src/status.ts): iterate the patch's keys over the spread
base of the previous value.  The patch side is always an object at every
call site (the top-level patch is a `Status` object and recursion is
guarded); for a non-object patch `Object.keys` yields nothing and the
base copy is returned. -/
def jsonMerge (a b : JVal) : JVal :=
  match b with
  | .jobj kvs => mergePatch (baseOfJ a) kvs
  | _ => baseOfJ a

/-- Key-path lookup, descending through plain objects only. -/
def lookupPath : JVal → List String → Option JVal
  | v, [] => some v
  | v, k :: rest =>
    match getKeyJ v k with
    | some w => lookupPath w rest
    | none => none

/-- The patch does not mention key path `p`: descending through the
patch's nested objects along `p`, some key is absent before the path
ends or leaves the object layer.  (The empty path, the whole document,
is always mentioned.) -/
def pathUntouched : JVal → List String → Bool
  | _, [] => false
  | .jobj kvs, k :: rest =>
    match getKeyKvs kvs k with
    | none => true
    | some v => pathUntouched v rest
  | _, _ :: _ => false

/-- Every object layer of the value has pairwise-distinct keys — true of
every value produced by `JSON.parse` and of every JavaScript object. -/
def jvalUniq : JVal → Prop
  | .jobj kvs =>
    (kvs.map Prod.fst).Nodup ∧ ∀ e ∈ kvs.attach, jvalUniq e.val.2
  | .jarr xs => ∀ x ∈ xs.attach, jvalUniq x.val
  | _ => True
termination_by v => sizeOf v
decreasing_by
  · have h1 := List.sizeOf_lt_of_mem e.property
    simp only [JVal.jobj.sizeOf_spec]
    cases hv : e.val with
    | mk a bv =>
      have : sizeOf e.val = 1 + sizeOf a + sizeOf bv := by rw [hv]; rfl
      simp only [hv] at h1 this ⊢
      omega
  · have h1 := List.sizeOf_lt_of_mem x.property
    simp only [JVal.jarr.sizeOf_spec]
    omega

/-- The patch object actually written by `updateStatus`
(src/status.ts line 75): `{ ts: …, ...patch }` — the fresh timestamp,
overridden by the patch's own `ts` binding when present. -/
def topPatch (ts : String) (kvs : List (String × JVal)) :
    List (String × JVal) :=
  if (getKeyKvs kvs "ts").isSome then kvs
  else ("ts", .jstr ts) :: kvs

/-- `updateStatus` (src/status.ts): read the previous document, deep
merge the timestamped patch into it, write the result. -/
def updateStatusDoc (prev : JVal) (kvs : List (String × JVal)) (ts : String) :
    JVal :=
  jsonMerge prev (.jobj (topPatch ts kvs))

/-! ### The canonical transposition key (C7) -/

/-- Cell encoding of `boardStrKey`: `'b'`, `'w'`, `'-'`. -/
def cellChar : Option Player → Char
  | some .black => 'b'
  | some .white => 'w'
  | none => '-'

/-- `boardStrKey` (src/ai.ts): rows encoded cell-wise and joined by
`'/'`.  A JavaScript string is its list of characters. -/
def boardStrKey (b : Board) : List Char :=
  List.intercalate ['/'] (b.map fun row => row.map cellChar)

/-- JavaScript string `<`: lexicographic by character code, a proper
prefix is smaller. -/
def lexLt : List Char → List Char → Bool
  | [], [] => false
  | [], _ :: _ => true
  | _ :: _, [] => false
  | a :: as, b :: bs => if a < b then true else if b < a then false else lexLt as bs

def allTransforms : List TransformId := List.finRange 8

/-- The `first || h < best` fold of `canonicalKey`: minimum of a
non-empty list of strings, first achiever retained. -/
def minKeyFold : List (List Char) → List Char
  | [] => []
  | h :: rest => rest.foldl (fun best x => if lexLt x best then x else best) h

/-- The symmetry-minimal board string (`t = 0` skips the transform, as in
the source). -/
def canonicalMin (b : Board) : List Char :=
  minKeyFold (allTransforms.map fun t =>
    boardStrKey (if t = 0 then b else transformBoard b t))

def playerKeyChars : Player → List Char
  | .black => ['b', 'l', 'a', 'c', 'k']
  | .white => ['w', 'h', 'i', 't', 'e']

/-- `canonicalKey` (src/ai.ts): `` `${player}|${best}` ``. -/
def canonicalKey (b : Board) (p : Player) : List Char :=
  playerKeyChars p ++ '|' :: canonicalMin b

/-- The element discarded by one `t2step`. -/
def t2drop (acc : ℕ × ℕ × ℕ) (v : ℕ) : ℕ :=
  if acc.1 ≤ v then acc.2.1 else if acc.2.1 < v then acc.2.1 else v

/-! ## Proofs for C9: the status deep merge -/

/-- The value stored for one patch binding. -/
def patchVal (out : JVal) (k : String) : JVal → JVal
  | .jobj inner => mergePatch (baseOfJ ((getKeyJ out k).getD .jnull)) inner
  | v => v

/-- The invariant actually maintained at the root: its own evaluation is
never counted, so its visits equal the sum of its children's. -/
def rootBalanced (t : MTree) : Prop :=
  t.visits = (t.children.map MTree.visits).sum ∧
  ∀ c ∈ t.children, balancedSub c

/-! ## Membership in `getPossibleMoves` -/

/-- The `hasStones` scan of `getPossibleMoves`. -/
def hasStonesB (b : Board) : Bool :=
  (allCoords (getBoardSize b)).any fun m => (getCell b m.1 m.2).isSome

def sE : Option Player := none

def sB : Option Player := some .black

def sW : Option Player := some .white

/-- Black has an open three on row 1; White has a four on row 3 with the
gap at `(3,4)`: Black's open-three extension is *not* a strict forcing
win because White answers with an immediate counter-five. -/
def b6 : Board :=
  [[sE, sE, sE, sE, sE, sE],
   [sE, sB, sB, sB, sE, sE],
   [sE, sE, sE, sE, sE, sE],
   [sW, sW, sW, sW, sE, sE],
   [sE, sE, sE, sE, sE, sE],
   [sE, sE, sE, sE, sE, sE]]

/-- Black four on row 0, `(0,4)` completes a five. -/
def bW5 : Board :=
  [[sB, sB, sB, sB, sE],
   [sE, sE, sE, sE, sE],
   [sE, sE, sE, sE, sE],
   [sE, sE, sE, sE, sE],
   [sE, sE, sE, sE, sE]]

/-! ## The forbidden-move characterization (C3) -/

/-- The claim's notion of a created open three in a direction: some
6-cell window of the line through the placed cell has two empty ends
framing exactly three black stones and one empty inner cell with no
white stone — with no position restriction on the placed stone (the
source's `idxMove` guard). -/
def specOpenThreeDir (b : Board) (r c dr dc : ℤ) : Bool :=
  (List.range 6).any fun (k : ℕ) =>
    openThreeWindowAt b .black r c dr dc ((k : ℤ) - 5)

/-- 9×9 board on which Black's `(4,4)` makes two open threes at once
(the 3-3 pattern). -/
def b9 : Board :=
  [[sE, sE, sE, sE, sE, sE, sE, sE, sE],
   [sE, sE, sE, sE, sE, sE, sE, sE, sE],
   [sE, sE, sE, sE, sB, sE, sE, sE, sE],
   [sE, sE, sE, sE, sB, sE, sE, sE, sE],
   [sE, sE, sB, sB, sE, sE, sE, sE, sE],
   [sE, sE, sE, sE, sE, sE, sE, sE, sE],
   [sE, sE, sE, sE, sE, sE, sE, sE, sE],
   [sE, sE, sE, sE, sE, sE, sE, sE, sE],
   [sE, sE, sE, sE, sE, sE, sE, sE, sE]]

/-! ## Stateful renderings of the mutating helpers (C10)

The TypeScript helpers mutate the caller's board (`board[r][c] = player`
… `board[r][c] = null`) and are expected to restore it before returning.
The `…St` definitions below render those mutation sequences explicitly:
each returns its result *together with* the board as left behind.  The
C10 theorem proves each returns the entry board unchanged and computes
the same result as the pure rendering used elsewhere in this file. -/

def isForbiddenMoveSt (b : Board) (p : Player) (m : Move) : Bool × Board :=
  if p ≠ .black then (false, b)
  else if (getCell b m.1 m.2).isSome then (false, b)
  else
    let b1 := place b p m
    if checkWin b1 p m then (false, unplace b1 m)
    else (createsDoubleOpenThree b1 p m.1 m.2 ||
      createsDoubleFour b1 p m.1 m.2, unplace b1 m)

/-- Loop body of `winningMovesFor`. -/
def winStepSt (p : Player) (acc : List Move × Board) (m : Move) :
    List Move × Board :=
  let b1 := place acc.2 p m
  let ok := checkWin b1 p m
  let b2 := unplace b1 m
  (if ok then acc.1 ++ [m] else acc.1, b2)

def winningMovesForSt (b : Board) (p : Player) : List Move × Board :=
  (getPossibleMoves b 1).foldl (winStepSt p) ([], b)

/-- Loop body of `listOpenThreeMakers`. -/
def otmStepSt (p : Player) (acc : List Move × Board) (m : Move) :
    List Move × Board :=
  if (getCell acc.2 m.1 m.2).isSome then acc
  else
    let b1 := place acc.2 p m
    let of4 := findThreats b1 p true
    let b2 := unplace b1 m
    (if 0 < of4.length then acc.1 ++ [m] else acc.1, b2)

def listOpenThreeMakersSt (b : Board) (p : Player) (candidates : List Move) :
    List Move × Board :=
  candidates.foldl (otmStepSt p) ([], b)

/-- Candidate-set construction shared by `findForcedWinFirstMove` and
`forcedWinDFS` (threads the boards of its two mutating subcalls). -/
def solverCandidatesSt (b : Board) (p : Player) (fallbackN : ℕ) :
    List Move × Board :=
  let legal := getPossibleMoves b 1
  let thr := findThreats b p true
  let otm := listOpenThreeMakersSt b p legal
  let wins := winningMovesForSt otm.2 p
  let cset := dedupUnion [thr, otm.1, wins.1]
  (if cset.isEmpty then centerTake wins.2 legal fallbackN else cset, wins.2)

/-- Candidate loop body shared by `forcedWinDFS` and `vctDFS`, with the
recursive call abstracted as `next`; the board `bd` is the loop's
current board. -/
def solverBodySt (p : Player) (next : Board → Bool × Board)
    (bd : Board) (m : Move) : Bool × Board :=
  if (getCell bd m.1 m.2).isSome then (false, bd)
  else
    let fb := if p = .black then isForbiddenMoveSt bd p m else (false, bd)
    if fb.1 then (false, fb.2)
    else
      let b1 := place fb.2 p m
      if checkWin b1 p m then (true, unplace b1 m)
      else
        let wmr := winningMovesForSt b1 p
        if 2 ≤ wmr.1.length then (true, unplace wmr.2 m)
        else
          match wmr.1 with
          | [w] =>
            let b2 := place wmr.2 (getOpponent p) w
            let res := next b2
            (res.1, unplace (unplace res.2 w) m)
          | _ => (false, unplace wmr.2 m)

def solverStepSt (p : Player) (next : Board → Bool × Board)
    (acc : Bool × Board) (m : Move) : Bool × Board :=
  if acc.1 then acc
  else solverBodySt p next acc.2 m

def forcedWinDFSSt : ℕ → Board → Player → Bool × Board
  | 0, b, _ => (false, b)
  | d + 1, b, p =>
    let cands := solverCandidatesSt b p 24
    cands.1.foldl (solverStepSt p fun b2 => forcedWinDFSSt d b2 p)
      (false, cands.2)

/-- Candidate loop body shared by `findForcedWinFirstMove` and
`findVCTWinFirstMove`, with the depth-guarded recursion abstracted. -/
def firstBodySt (p : Player) (maxDepth : ℕ) (next : ℕ → Board → Bool × Board)
    (bd : Board) (m : Move) : Option Move × Board :=
  if (getCell bd m.1 m.2).isSome then (none, bd)
  else
    let fb := if p = .black then isForbiddenMoveSt bd p m else (false, bd)
    if fb.1 then (none, fb.2)
    else
      let b1 := place fb.2 p m
      if checkWin b1 p m then (some m, unplace b1 m)
      else
        let wmr := winningMovesForSt b1 p
        if 2 ≤ wmr.1.length then (some m, unplace wmr.2 m)
        else
          match maxDepth, wmr.1 with
          | dd + 1, [w] =>
            let b2 := place wmr.2 (getOpponent p) w
            let res := next dd b2
            (if res.1 then some m else none, unplace (unplace res.2 w) m)
          | _, _ => (none, unplace wmr.2 m)

def firstStepSt (p : Player) (maxDepth : ℕ) (next : ℕ → Board → Bool × Board)
    (acc : Option Move × Board) (m : Move) : Option Move × Board :=
  match acc.1 with
  | some _ => acc
  | none => firstBodySt p maxDepth next acc.2 m

def findForcedWinFirstMoveSt (b : Board) (p : Player) (maxDepth : ℕ) :
    Option Move × Board :=
  let cands := solverCandidatesSt b p 32
  cands.1.foldl (firstStepSt p maxDepth fun dd b2 => forcedWinDFSSt dd b2 p)
    (none, cands.2)

/-- `listThreatCandidates` with its two mutating subcalls threaded. -/
def listThreatCandidatesSt (b : Board) (p : Player) : List Move × Board :=
  let n := getBoardSize b
  let wins := winningMovesForSt b p
  let t1 := findThreats wins.2 p true
  let t2 := findThreats wins.2 p false
  let otm := listOpenThreeMakersSt wins.2 p (getPossibleMoves wins.2 1)
  ((dedupUnion [wins.1, t1, t2, otm.1]).filter
    (fun m => decide (m.1 < n) && decide (m.2 < n) &&
      (getCell otm.2 m.1 m.2).isNone), otm.2)

def vctDFSSt : ℕ → Board → Player → Bool × Board
  | 0, b, _ => (false, b)
  | d + 1, b, p =>
    let cands := listThreatCandidatesSt b p
    cands.1.foldl (solverStepSt p fun b2 => vctDFSSt d b2 p) (false, cands.2)

def findVCTWinFirstMoveSt (b : Board) (p : Player) (maxDepth : ℕ) :
    Option Move × Board :=
  let cands := listThreatCandidatesSt b p
  cands.1.foldl (firstStepSt p maxDepth fun dd b2 => vctDFSSt dd b2 p)
    (none, cands.2)

/-- Candidate loop body of `findDefenseMoveAgainstOpponentForced` (the
probe of the solver is itself a mutating call). -/
def defBodySt (p opponent : Player) (probeDepth : ℕ)
    (bd : Board) (m : Move) : Option Move × Board :=
  if (getCell bd m.1 m.2).isSome then (none, bd)
  else
    let fb := if p = .black then isForbiddenMoveSt bd p m else (false, bd)
    if fb.1 then (none, fb.2)
    else
      let b1 := place fb.2 p m
      let still := findForcedWinFirstMoveSt b1 opponent probeDepth
      (if still.1.isNone then some m else none, unplace still.2 m)

def defStepSt (p opponent : Player) (probeDepth : ℕ)
    (acc : Option Move × Board) (m : Move) : Option Move × Board :=
  match acc.1 with
  | some _ => acc
  | none => defBodySt p opponent probeDepth acc.2 m

def findDefenseMoveSt (b : Board) (p : Player) (maxDepth : ℕ) :
    Option Move × Board :=
  let opponent := getOpponent p
  let probeDepth := max 2 (maxDepth - 1)
  let probe := findForcedWinFirstMoveSt b opponent probeDepth
  if probe.1.isNone then (none, probe.2)
  else
    let legal := getPossibleMoves probe.2 1
    let thr := findThreats probe.2 opponent true
    let otm := listOpenThreeMakersSt probe.2 opponent legal
    let wins := winningMovesForSt otm.2 opponent
    let cset := dedupUnion [thr, otm.1, wins.1]
    let candidates := if cset.isEmpty then centerTake wins.2 legal 32 else cset
    candidates.foldl (defStepSt p opponent probeDepth) (none, wins.2)

/-- Body of the immediate-win scan of `findBestMoveNN`. -/
def scanBodySt (q : Player) (bd : Board) (m : Move) : Option Move × Board :=
  if (getCell bd m.1 m.2).isSome then (none, bd)
  else
    let b1 := place bd q m
    let ok := checkWin b1 q m
    (if ok then some m else none, unplace b1 m)

def scanStepSt (q : Player) (acc : Option Move × Board) (m : Move) :
    Option Move × Board :=
  match acc.1 with
  | some _ => acc
  | none => scanBodySt q acc.2 m

/-- Body of the block-win scan of `findBestMoveNN` (the forbidden test
is itself a mutating call). -/
def blockBodySt (p : Player) (bd : Board) (m : Move) : Option Move × Board :=
  if (getCell bd m.1 m.2).isSome then (none, bd)
  else
    let opp := getOpponent p
    let b1 := place bd opp m
    let ok := checkWin b1 opp m
    let b2 := unplace b1 m
    if ok then
      let fb := if p = .black then isForbiddenMoveSt b2 p m else (false, b2)
      (if fb.1 then none else some m, fb.2)
    else (none, b2)

def blockStepSt (p : Player) (acc : Option Move × Board) (m : Move) :
    Option Move × Board :=
  match acc.1 with
  | some _ => acc
  | none => blockBodySt p acc.2 m

/-- The pre-search decision chain of `findBestMoveNN`, with every
mutating helper threaded. -/
def findBestMoveNNPreSt (b : Board) (p : Player) (vctDepth : ℕ) :
    Option Move × Board :=
  let vct := findVCTWinFirstMoveSt b p vctDepth
  match vct.1 with
  | some m => (some m, vct.2)
  | none =>
  let forced := findForcedWinFirstMoveSt vct.2 p 3
  match forced.1 with
  | some m => (some m, forced.2)
  | none =>
  let defense := findDefenseMoveSt forced.2 p 3
  match defense.1 with
  | some m => (some m, defense.2)
  | none =>
    let n := getBoardSize defense.2
    let stones := (allCoords n).countP fun m =>
      (getCell defense.2 m.1 m.2).isSome
    let rootRadius := if stones ≤ max 6 (n / 3) then 2 else 1
    let legal := getPossibleMoves defense.2 rootRadius
    let winScan := legal.foldl (scanStepSt p) (none, defense.2)
    match winScan.1 with
    | some m => (some m, winScan.2)
    | none => legal.foldl (blockStepSt p) (none, winScan.2)

/-- 2×2 stoneless board: the fallback centre cell. -/
def bE2 : Board := [[sE, sE], [sE, sE]]

/-! ## Proofs for C1: the early-stop trigger -/

lemma t2step_fst_le (acc : ℕ × ℕ × ℕ) (v : ℕ) : acc.1 ≤ (t2step acc v).1 := by
  unfold t2step
  split
  · exact le_trans (by assumption) (le_refl v)
  · split <;> exact le_refl _

lemma t2step_snd_inv (acc : ℕ × ℕ × ℕ) (v : ℕ) (h : acc.2.1 ≤ acc.1) :
    (t2step acc v).2.1 ≤ (t2step acc v).1 := by
  unfold t2step
  split
  · simpa using ‹acc.1 ≤ v›
  · split <;> simp <;> omega

lemma t2step_snd_mono (acc : ℕ × ℕ × ℕ) (v : ℕ) (h : acc.2.1 ≤ acc.1) :
    acc.2.1 ≤ (t2step acc v).2.1 := by
  unfold t2step
  split
  · simpa using h
  · split <;> simp <;> omega

lemma t2fold_snd_inv (l : List ℕ) :
    ∀ acc : ℕ × ℕ × ℕ, acc.2.1 ≤ acc.1 →
      (l.foldl t2step acc).2.1 ≤ (l.foldl t2step acc).1 ∧
      acc.2.1 ≤ (l.foldl t2step acc).2.1 := by
  induction l with
  | nil => intro acc h; exact ⟨h, le_refl _⟩
  | cons v l ih =>
    intro acc h
    have h1 := t2step_snd_inv acc v h
    have h2 := t2step_snd_mono acc v h
    have := ih (t2step acc v) h1
    exact ⟨this.1, le_trans h2 this.2⟩

lemma t2fold_total (l : List ℕ) :
    ∀ acc : ℕ × ℕ × ℕ, (l.foldl t2step acc).2.2 = acc.2.2 + l.sum := by
  induction l with
  | nil => intro acc; simp
  | cons v l ih =>
    intro acc
    rw [List.foldl_cons, ih]
    have : (t2step acc v).2.2 = acc.2.2 + v := by
      unfold t2step; split
      · rfl
      · split <;> rfl
    rw [this, List.sum_cons]; omega

lemma t2step_multiset (acc : ℕ × ℕ × ℕ) (v : ℕ) (s : Multiset ℕ) :
    acc.1 ::ₘ acc.2.1 ::ₘ v ::ₘ s =
      (t2step acc v).1 ::ₘ (t2step acc v).2.1 ::ₘ t2drop acc v ::ₘ s := by
  by_cases h1 : acc.1 ≤ v
  · simp only [t2step, t2drop, h1, if_pos]
    rw [Multiset.cons_swap acc.2.1 v, Multiset.cons_swap acc.1 v]
  · by_cases h2 : acc.2.1 < v
    · simp only [t2step, t2drop, h1, h2, if_neg, if_pos, ite_false, ite_true]
      rw [Multiset.cons_swap acc.2.1 v]
    · simp only [t2step, t2drop, h1, h2, if_neg, ite_false]

lemma t2drop_le (acc : ℕ × ℕ × ℕ) (v : ℕ) (h : acc.2.1 ≤ acc.1) :
    t2drop acc v ≤ (t2step acc v).2.1 := by
  unfold t2step t2drop
  by_cases h1 : acc.1 ≤ v
  · simp [h1, h]
  · by_cases h2 : acc.2.1 < v
    · simp [h1, h2]; omega
    · simp [h1, h2]; omega

/-- The fold keeps two members of the processed multiset that dominate
everything else. -/
lemma t2fold_top2 (l : List ℕ) :
    ∀ acc : ℕ × ℕ × ℕ, acc.2.1 ≤ acc.1 →
      ∃ rest : Multiset ℕ,
        (acc.1 ::ₘ acc.2.1 ::ₘ (l : Multiset ℕ)) =
          (l.foldl t2step acc).1 ::ₘ (l.foldl t2step acc).2.1 ::ₘ rest ∧
        (∀ x ∈ rest, x ≤ (l.foldl t2step acc).2.1) := by
  induction l with
  | nil =>
    intro acc h
    exact ⟨0, by simp, by simp⟩
  | cons v l ih =>
    intro acc h
    rw [List.foldl_cons]
    obtain ⟨rest, hre, hle⟩ := ih (t2step acc v) (t2step_snd_inv acc v h)
    refine ⟨t2drop acc v ::ₘ rest, ?_, ?_⟩
    · have hcast : ((v :: l : List ℕ) : Multiset ℕ) = v ::ₘ (l : Multiset ℕ) := by
        simp
      rw [hcast, t2step_multiset acc v (l : Multiset ℕ)]
      rw [Multiset.cons_swap (t2step acc v).2.1 (t2drop acc v)]
      rw [Multiset.cons_swap (t2step acc v).1 (t2drop acc v)]
      rw [hre]
      rw [Multiset.cons_swap (t2drop acc v) (l.foldl t2step (t2step acc v)).1]
      rw [Multiset.cons_swap (t2drop acc v) (l.foldl t2step (t2step acc v)).2.1]
    · intro x hx
      rcases Multiset.mem_cons.mp hx with hx | hx
      · subst hx
        exact le_trans (t2drop_le acc v h)
          (t2fold_snd_inv l _ (t2step_snd_inv acc v h)).2
      · exact hle x hx

lemma le_foldl_max (l : List ℕ) : ∀ a : ℕ, a ≤ l.foldl max a := by
  induction l with
  | nil => intro a; exact le_refl a
  | cons v l ih => intro a; exact le_trans (le_max_left a v) (ih (max a v))

lemma foldl_max_ub (l : List ℕ) : ∀ (a x : ℕ), x ∈ l → x ≤ l.foldl max a := by
  induction l with
  | nil => intro a x hx; cases hx
  | cons v l ih =>
    intro a x hx
    rcases List.mem_cons.mp hx with hx | hx
    · subst hx
      exact le_trans (le_max_right a x) (le_foldl_max l (max a x))
    · exact ih (max a v) x hx

lemma foldl_max_mem (l : List ℕ) :
    ∀ a : ℕ, l.foldl max a = a ∨ l.foldl max a ∈ l := by
  induction l with
  | nil => intro a; exact Or.inl rfl
  | cons v l ih =>
    intro a
    rcases ih (max a v) with h | h
    · rcases max_choice a v with hm | hm
      · exact Or.inl (by rw [List.foldl_cons, h, hm])
      · refine Or.inr ?_
        rw [List.foldl_cons, h, hm]
        exact List.mem_cons_self v l
    · exact Or.inr (List.mem_cons_of_mem v h)

/-- A member of `{0, 0} ∪ l` that bounds all the others is `foldl max 0 l`. -/
lemma max_ident (l : List ℕ) (m : ℕ) (rest : Multiset ℕ)
    (heq : (0 ::ₘ 0 ::ₘ (l : Multiset ℕ)) = m ::ₘ rest)
    (hub : ∀ x ∈ rest, x ≤ m) : m = l.foldl max 0 := by
  have hmem : m = 0 ∨ m ∈ l := by
    have : m ∈ (0 ::ₘ 0 ::ₘ (l : Multiset ℕ)) := by
      rw [heq]; exact Multiset.mem_cons_self m rest
    rcases Multiset.mem_cons.mp this with h | h
    · exact Or.inl h
    rcases Multiset.mem_cons.mp h with h | h
    · exact Or.inl h
    · exact Or.inr (by exact_mod_cast h)
  have hub' : ∀ x ∈ l, x ≤ m := by
    intro x hx
    have hx' : x ∈ (0 ::ₘ 0 ::ₘ (l : Multiset ℕ)) := by
      refine Multiset.mem_cons_of_mem (Multiset.mem_cons_of_mem ?_)
      exact_mod_cast hx
    rw [heq] at hx'
    rcases Multiset.mem_cons.mp hx' with h | h
    · exact le_of_eq h
    · exact hub x h
  have hM1 : ∀ x ∈ l, x ≤ l.foldl max 0 := fun x hx => foldl_max_ub l 0 x hx
  have hM2 : l.foldl max 0 = 0 ∨ l.foldl max 0 ∈ l := foldl_max_mem l 0
  refine le_antisymm ?_ ?_
  · rcases hmem with h | h
    · rw [h]; exact Nat.zero_le _
    · exact hM1 m h
  · rcases hM2 with h | h
    · rw [h]; exact Nat.zero_le _
    · exact hub' _ h

lemma bestVisits_mem {l : List ℕ} (h : l ≠ []) : bestVisits l ∈ l := by
  rcases foldl_max_mem l 0 with h0 | h0
  · cases l with
    | nil => exact absurd rfl h
    | cons v l =>
      have hv := foldl_max_ub (v :: l) 0 v (List.mem_cons_self v l)
      unfold bestVisits
      rw [h0] at hv ⊢
      have : v = 0 := Nat.le_zero.mp hv
      rw [← this]
      exact List.mem_cons_self v l
  · exact h0

/-- The early-stop fold computes the maximum and second maximum of the
children's visit counts. -/
lemma topTwo_eq (l : List ℕ) :
    (topTwoTotal l).1 = bestVisits l ∧
    (topTwoTotal l).2.1 = secondVisits l := by
  rcases eq_or_ne l [] with rfl | hne
  · constructor <;> rfl
  obtain ⟨rest, heq, hub⟩ := t2fold_top2 l (0, 0, 0) (le_refl 0)
  have hBA : (topTwoTotal l).2.1 ≤ (topTwoTotal l).1 :=
    (t2fold_snd_inv l (0, 0, 0) (le_refl 0)).1
  have hA : (topTwoTotal l).1 = bestVisits l := by
    refine max_ident l _ ((topTwoTotal l).2.1 ::ₘ rest) heq ?_
    intro x hx
    rcases Multiset.mem_cons.mp hx with h | h
    · exact le_of_eq h |>.trans hBA
    · exact (hub x h).trans hBA
  refine ⟨hA, ?_⟩
  have heqT : (0 ::ₘ 0 ::ₘ (l : Multiset ℕ)) =
      (topTwoTotal l).1 ::ₘ (topTwoTotal l).2.1 ::ₘ rest := heq
  have hubT : ∀ x ∈ rest, x ≤ (topTwoTotal l).2.1 := hub
  have hmem : bestVisits l ∈ l := bestVisits_mem hne
  have hperm : (l : Multiset ℕ) =
      bestVisits l ::ₘ ((l.erase (bestVisits l) : List ℕ) : Multiset ℕ) := by
    exact_mod_cast (Multiset.cons_erase
      (by exact_mod_cast hmem : bestVisits l ∈ (l : Multiset ℕ))).symm
  have h1 : (0 ::ₘ 0 ::ₘ (l : Multiset ℕ)) =
      (topTwoTotal l).1 ::ₘ 0 ::ₘ 0 ::ₘ
        ((l.erase (bestVisits l) : List ℕ) : Multiset ℕ) := by
    rw [hA, hperm]
    rw [Multiset.cons_swap 0 (bestVisits l), Multiset.cons_swap 0 (bestVisits l)]
  have h3 : (topTwoTotal l).1 ::ₘ 0 ::ₘ 0 ::ₘ
      ((l.erase (bestVisits l) : List ℕ) : Multiset ℕ) =
      (topTwoTotal l).1 ::ₘ (topTwoTotal l).2.1 ::ₘ rest := by
    rw [← h1]; exact heqT
  exact max_ident _ _ rest ((Multiset.cons_inj_right _).mp h3) hubT

/-- C1, amended: the PUCT early-stop fires precisely when the root has
more than one child, the **total** visit count over the root's children
is at least `EARLY_STOP_MIN_VISITS`, and the best child's count is at
least `EARLY_STOP_RATIO × max(1, second-best)`. -/
theorem earlyStopTrigger_iff (minv : ℕ) (ratioQ : ℚ) (l : List ℕ) :
    earlyStopTrigger minv ratioQ l = true ↔
      1 < l.length ∧ minv ≤ l.sum ∧
      ratioQ * max 1 (secondVisits l : ℚ) ≤ (bestVisits l : ℚ) := by
  by_cases hlen : 1 < l.length
  · have htot : (topTwoTotal l).2.2 = l.sum := by
      have := t2fold_total l (0, 0, 0)
      simpa [topTwoTotal] using this
    simp only [earlyStopTrigger, if_pos hlen, Bool.and_eq_true,
      decide_eq_true_eq, htot, (topTwo_eq l).1, (topTwo_eq l).2]
    simp [hlen]
  · simp only [earlyStopTrigger, if_neg hlen]
    simp [hlen]

/-- C1, counterexample: with the default thresholds (220, 2.2) and root
children at 200 and 50 visits, the code stops early (total 250 ≥ 220 and
200 ≥ 2.2·50) although the claim's condition fails (the best child has
only 200 < 220 visits). -/
theorem earlyStopTrigger_not_spec :
    earlyStopTrigger 220 (11 / 5) [200, 50] = true ∧
    specEarlyStop 220 (11 / 5) [200, 50] = false := by
  constructor
  · unfold earlyStopTrigger topTwoTotal
    simp only [List.foldl_cons, List.foldl_nil, t2step]
    norm_num
  · unfold specEarlyStop bestVisits secondVisits
    norm_num

/-! ## Proofs for C2: the arena gate's early stop -/

lemma tallyGame_sum (st : ArenaSt) (o : GRes)
    (h : st.candW + st.prodW + st.draws = st.played) :
    (tallyGame st o).candW + (tallyGame st o).prodW + (tallyGame st o).draws =
      (tallyGame st o).played ∧
    (tallyGame st o).played = st.played + 1 ∧
    st.candW ≤ (tallyGame st o).candW := by
  cases o <;> simp [tallyGame] <;> omega

/-- Loop invariant and stop conditions of the arena driver. -/
lemma arenaGo_spec (thr : ℚ) (g : ℕ) (os : List GRes) :
    ∀ st : ArenaSt, st.candW + st.prodW + st.draws = st.played →
      st.played ≤ g →
      ∀ st' stop, arenaGo thr g os st = (st', stop) →
        (st'.candW + st'.prodW + st'.draws = st'.played) ∧ st'.played ≤ g ∧
        (stop = some true → 1 ≤ st'.played ∧ thr ≤ (st'.candW : ℚ) / (g : ℚ)) ∧
        (stop = some false → 1 ≤ st'.played ∧
          ((st'.candW : ℚ) + ((g - st'.played : ℕ) : ℚ)) / (g : ℚ) < thr) := by
  induction os with
  | nil =>
    intro st hsum hle st' stop h
    simp only [arenaGo] at h
    injection h with h1 h2
    subst h1; subst h2
    exact ⟨hsum, hle, by simp, by simp⟩
  | cons o rest ih =>
    intro st hsum hle st' stop h
    simp only [arenaGo] at h
    by_cases hg : g ≤ st.played
    · rw [if_pos hg] at h
      injection h with h1 h2
      subst h1; subst h2
      exact ⟨hsum, hle, by simp, by simp⟩
    · rw [if_neg hg] at h
      obtain ⟨hsum1, hpl1, _⟩ := tallyGame_sum st o hsum
      have hle1 : (tallyGame st o).played ≤ g := by omega
      by_cases hsucc : thr ≤ ((tallyGame st o).candW : ℚ) / (g : ℚ)
      · rw [if_pos hsucc] at h
        injection h with h1 h2
        subst h1; subst h2
        refine ⟨hsum1, hle1, fun _ => ⟨by omega, hsucc⟩, by simp⟩
      · rw [if_neg hsucc] at h
        by_cases hfail :
            (((tallyGame st o).candW : ℚ) + ((g - (tallyGame st o).played : ℕ) : ℚ))
              / (g : ℚ) < thr
        · rw [if_pos hfail] at h
          injection h with h1 h2
          subst h1; subst h2
          refine ⟨hsum1, hle1, by simp, fun _ => ⟨by omega, hfail⟩⟩
        · rw [if_neg hfail] at h
          exact ih (tallyGame st o) hsum1 hle1 st' stop h

/-- C2: whenever the arena gate's early stop declares success, the
candidate's win rate over the games actually played is at least the
threshold; whenever it declares failure, even winning every remaining
game cannot reach the threshold, the win rate over the games played is
below the threshold, and the candidate is not promoted. -/
theorem arenaGate_early_stop_correct (thr : ℚ) (g : ℕ) (os : List GRes)
    (st : ArenaSt) (stop : Option Bool)
    (h : arenaGo thr g os ⟨0, 0, 0, 0⟩ = (st, stop)) :
    (stop = some true → 1 ≤ st.played ∧ st.played ≤ g ∧
      thr ≤ (st.candW : ℚ) / (st.played : ℚ)) ∧
    (stop = some false →
      ((st.candW : ℚ) + ((g - st.played : ℕ) : ℚ)) / (g : ℚ) < thr ∧
      (st.candW : ℚ) / (st.played : ℚ) < thr ∧
      ∀ pp : Bool, promotedDecision thr st pp = false) := by
  obtain ⟨hsum, hle, hsucc, hfail⟩ :=
    arenaGo_spec thr g os ⟨0, 0, 0, 0⟩ (by simp) (by simp) st stop h
  have hcw_le : st.candW ≤ st.played := by omega
  constructor
  · intro hs
    obtain ⟨hpl, hq⟩ := hsucc hs
    refine ⟨hpl, hle, ?_⟩
    have hg1 : 1 ≤ g := le_trans hpl hle
    have hplQ : (0 : ℚ) < (st.played : ℚ) := by exact_mod_cast hpl
    have hgQ : (0 : ℚ) < (g : ℚ) := by exact_mod_cast hg1
    have hmono : (st.candW : ℚ) / (g : ℚ) ≤ (st.candW : ℚ) / (st.played : ℚ) := by
      apply div_le_div_of_nonneg_left (by positivity) hplQ
      exact_mod_cast hle
    exact le_trans hq hmono
  · intro hs
    obtain ⟨hpl, hq⟩ := hfail hs
    have hg1 : 1 ≤ g := le_trans hpl hle
    have hplQ : (0 : ℚ) < (st.played : ℚ) := by exact_mod_cast hpl
    have hgQ : (0 : ℚ) < (g : ℚ) := by exact_mod_cast hg1
    have hsub : ((g - st.played : ℕ) : ℚ) = (g : ℚ) - (st.played : ℚ) :=
      Nat.cast_sub hle
    have hq' : (st.candW : ℚ) + ((g : ℚ) - (st.played : ℚ)) < thr * (g : ℚ) := by
      rw [hsub] at hq
      exact (div_lt_iff hgQ).mp hq
    have hkey : (st.candW : ℚ) < thr * (st.played : ℚ) := by
      have hfac : (0 : ℚ) ≤ ((g : ℚ) - (st.played : ℚ)) *
          ((st.played : ℚ) - (st.candW : ℚ)) := by
        apply mul_nonneg <;>
          simp only [sub_nonneg] <;> exact_mod_cast (by assumption)
      nlinarith [mul_lt_mul_of_pos_right hq' hplQ]
    have hrate : (st.candW : ℚ) / (st.played : ℚ) < thr :=
      (div_lt_iff hplQ).mpr (by linarith [hkey])
    refine ⟨hq, hrate, ?_⟩
    intro pp
    unfold promotedDecision
    rw [hsum]
    have hnot : ¬ thr ≤ (st.candW : ℚ) / (st.played : ℚ) := not_le.mpr hrate
    simp [show 0 < st.played from hpl, hnot]

/-- Witness for C2 at a concrete run: one scheduled game, candidate wins
it, threshold 3/5, match of one game — the gate stops with success. -/
theorem arenaGate_early_stop_witness :
    ((some true : Option Bool) = some true →
      1 ≤ (ArenaSt.mk 1 0 0 1).played ∧ (ArenaSt.mk 1 0 0 1).played ≤ 1 ∧
      (3 / 5 : ℚ) ≤ ((ArenaSt.mk 1 0 0 1).candW : ℚ) /
        ((ArenaSt.mk 1 0 0 1).played : ℚ)) ∧
    ((some true : Option Bool) = some false →
      (((ArenaSt.mk 1 0 0 1).candW : ℚ) +
        ((1 - (ArenaSt.mk 1 0 0 1).played : ℕ) : ℚ)) / ((1 : ℕ) : ℚ) < 3 / 5 ∧
      ((ArenaSt.mk 1 0 0 1).candW : ℚ) / ((ArenaSt.mk 1 0 0 1).played : ℚ) < 3 / 5 ∧
      ∀ pp : Bool, promotedDecision (3 / 5) (ArenaSt.mk 1 0 0 1) pp = false) :=
  arenaGate_early_stop_correct (3 / 5) 1 [GRes.candWin] (ArenaSt.mk 1 0 0 1)
    (some true) (by norm_num [arenaGo, tallyGame])

lemma mergePatch_cons (out : JVal) (k : String) (bv : JVal)
    (rest : List (String × JVal)) :
    mergePatch out ((k, bv) :: rest) =
      mergePatch (setKeyJ out k (patchVal out k bv)) rest := by
  cases bv <;> simp [mergePatch, patchVal]

lemma getKeyKvs_setKeyKvs_ne (kvs : List (String × JVal)) (k' k : String)
    (v : JVal) (h : k' ≠ k) :
    getKeyKvs (setKeyKvs kvs k' v) k = getKeyKvs kvs k := by
  induction kvs with
  | nil => simp [setKeyKvs, getKeyKvs, h]
  | cons e tl ih =>
    by_cases he : e.1 = k'
    · simp [setKeyKvs, getKeyKvs, he, h]
    · by_cases hek : e.1 = k
      · simp [setKeyKvs, getKeyKvs, he, hek, Ne.symm h]
      · simp [setKeyKvs, getKeyKvs, he, hek, ih]

lemma getKeyKvs_setKeyKvs_self (kvs : List (String × JVal)) (k : String)
    (v : JVal) :
    getKeyKvs (setKeyKvs kvs k v) k = some v := by
  induction kvs with
  | nil => simp [setKeyKvs, getKeyKvs]
  | cons e tl ih =>
    by_cases he : e.1 = k
    · simp [setKeyKvs, getKeyKvs, he]
    · simp [setKeyKvs, getKeyKvs, he, ih]

lemma getKeyKvs_eq_none_iff (kvs : List (String × JVal)) (k : String) :
    getKeyKvs kvs k = none ↔ k ∉ kvs.map Prod.fst := by
  induction kvs with
  | nil => simp [getKeyKvs]
  | cons e tl ih =>
    by_cases he : e.1 = k
    · simp [getKeyKvs, he]
    · simp [getKeyKvs, he, ih, Ne.symm he]

lemma getKeyKvs_mem : ∀ {kvs : List (String × JVal)} {k : String} {v : JVal},
    getKeyKvs kvs k = some v → (k, v) ∈ kvs := by
  intro kvs
  induction kvs with
  | nil => intro k v h; simp [getKeyKvs] at h
  | cons e tl ih =>
    intro k v h
    obtain ⟨e1, e2⟩ := e
    by_cases he : e1 = k
    · subst he
      simp only [getKeyKvs, beq_self_eq_true, if_true, Option.some.injEq] at h
      subst h
      exact List.mem_cons_self _ _
    · simp only [getKeyKvs, he] at h
      exact List.mem_cons_of_mem _ (ih (by simpa [he] using h))

lemma getKeyJ_setKeyJ_ne (out : JVal) (k' k : String) (w : JVal)
    (h : k' ≠ k) : getKeyJ (setKeyJ out k' w) k = getKeyJ out k := by
  cases out <;> simp [setKeyJ, getKeyJ]
  exact getKeyKvs_setKeyKvs_ne _ _ _ _ h

lemma getKeyJ_setKeyJ_obj_self (kvs : List (String × JVal)) (k : String)
    (w : JVal) : getKeyJ (setKeyJ (.jobj kvs) k w) k = some w := by
  simp [setKeyJ, getKeyJ, getKeyKvs_setKeyKvs_self]

/-- Keys the patch does not contain are untouched by the merge fold. -/
lemma mergePatch_getKey_notmem :
    ∀ (patch : List (String × JVal)) (out : JVal) (k : String),
      k ∉ patch.map Prod.fst →
      getKeyJ (mergePatch out patch) k = getKeyJ out k := by
  intro patch
  induction patch with
  | nil => intro out k _; simp [mergePatch]
  | cons e rest ih =>
    intro out k hk
    obtain ⟨k', bv⟩ := e
    have hne : k' ≠ k := by
      intro hkk; exact hk (by simp [hkk])
    have hk' : k ∉ rest.map Prod.fst := fun hm => hk (by simp [hm])
    rw [mergePatch_cons, ih _ _ hk', getKeyJ_setKeyJ_ne _ _ _ _ hne]

/-- A non-object accumulator passes through the merge fold unchanged. -/
lemma mergePatch_nonobj :
    ∀ (patch : List (String × JVal)) (v : JVal),
      (∀ kvs, v ≠ .jobj kvs) → mergePatch v patch = v := by
  intro patch
  induction patch with
  | nil => intro v _; simp [mergePatch]
  | cons e rest ih =>
    intro v hv
    obtain ⟨k, bv⟩ := e
    have hset : ∀ w, setKeyJ v k w = v := by
      intro w; cases v <;> first | rfl | exact absurd rfl (hv _)
    rw [mergePatch_cons, hset, ih v hv]

/-- The merged value stored at a patch key bound to a nested object. -/
lemma mergePatch_getKey_obj :
    ∀ (patch : List (String × JVal)) (okvs : List (String × JVal))
      (k : String) (inner : List (String × JVal)),
      (patch.map Prod.fst).Nodup →
      getKeyKvs patch k = some (.jobj inner) →
      getKeyJ (mergePatch (.jobj okvs) patch) k =
        some (mergePatch (baseOfJ ((getKeyKvs okvs k).getD .jnull)) inner) := by
  intro patch
  induction patch with
  | nil => intro okvs k inner _ hfind; simp [getKeyKvs] at hfind
  | cons e rest ih =>
    intro okvs k inner hnd hfind
    obtain ⟨k', bv⟩ := e
    by_cases hkk : k' = k
    · subst hkk
      have hbv : bv = .jobj inner := by
        simpa [getKeyKvs] using hfind
      subst hbv
      have hrest : k' ∉ rest.map Prod.fst := by
        have := hnd
        simp only [List.map_cons, List.nodup_cons] at this
        exact this.1
      rw [mergePatch_cons]
      rw [mergePatch_getKey_notmem rest _ _ hrest]
      simp only [patchVal]
      rw [getKeyJ_setKeyJ_obj_self]
      simp [getKeyJ]
    · have hfind' : getKeyKvs rest k = some (.jobj inner) := by
        simpa [getKeyKvs, hkk] using hfind
      have hnd' : (rest.map Prod.fst).Nodup := by
        simp only [List.map_cons, List.nodup_cons] at hnd
        exact hnd.2
      rw [mergePatch_cons]
      have hsets : setKeyJ (JVal.jobj okvs) k' (patchVal (JVal.jobj okvs) k' bv) =
          .jobj (setKeyKvs okvs k' (patchVal (JVal.jobj okvs) k' bv)) := rfl
      rw [hsets, ih _ k inner hnd' hfind',
        getKeyKvs_setKeyKvs_ne _ _ _ _ hkk]

lemma jvalUniq_jobj (kvs : List (String × JVal)) :
    jvalUniq (.jobj kvs) ↔
      (kvs.map Prod.fst).Nodup ∧ ∀ e ∈ kvs, jvalUniq e.2 := by
  rw [jvalUniq]
  constructor
  · rintro ⟨h1, h2⟩
    exact ⟨h1, fun e he => h2 ⟨e, he⟩ (List.mem_attach _ _)⟩
  · rintro ⟨h1, h2⟩
    exact ⟨h1, fun e _ => h2 e.val e.property⟩

/-- Spreading the base can only add properties: a nonempty path that
reads a value before the spread reads the same value after it.  (The
converse fails: spreading a non-empty string materialises its
index-character properties.) -/
lemma lookupPath_baseOf_some {a v : JVal} (k : String) (rest : List String)
    (h : lookupPath a (k :: rest) = some v) :
    lookupPath (baseOfJ a) (k :: rest) = some v := by
  cases a with
  | jobj kvs => exact h
  | jarr xs => exact h
  | jnull => simp [lookupPath, getKeyJ] at h
  | jbool b2 => simp [lookupPath, getKeyJ] at h
  | jnum n2 => simp [lookupPath, getKeyJ] at h
  | jstr s2 => simp [lookupPath, getKeyJ] at h

lemma lookupPath_cons_some {v w : JVal} (k : String) (rest : List String)
    (h : getKeyJ v k = some w) : lookupPath v (k :: rest) = lookupPath w rest := by
  simp [lookupPath, h]

lemma lookupPath_cons_none {v : JVal} (k : String) (rest : List String)
    (h : getKeyJ v k = none) : lookupPath v (k :: rest) = none := by
  simp [lookupPath, h]

/-- Frame property of the merge fold, previous-document side: a key
path the patch does not mention, and that reads a value before the
merge, reads the same value after it. -/
lemma mergePatch_untouched_some :
    ∀ (p : List String) (patch : List (String × JVal)) (out v : JVal),
      pathUntouched (.jobj patch) p = true → jvalUniq (.jobj patch) →
      lookupPath out p = some v →
      lookupPath (mergePatch out patch) p = some v := by
  intro p
  induction p with
  | nil => intro patch out v hunt _ _; simp [pathUntouched] at hunt
  | cons k rest ih =>
    intro patch out v hunt huniq hsome
    rcases hfind : getKeyKvs patch k with _ | bv
    · have hnot : k ∉ patch.map Prod.fst := (getKeyKvs_eq_none_iff patch k).mp hfind
      have hkey := mergePatch_getKey_notmem patch out k hnot
      rcases hout : getKeyJ out k with _ | w
      · rw [lookupPath_cons_none k rest hout] at hsome
        exact absurd hsome (by simp)
      · rw [lookupPath_cons_some k rest hout] at hsome
        rw [lookupPath_cons_some k rest (hkey.trans hout)]
        exact hsome
    · have hunt' : pathUntouched bv rest = true := by
        simpa [pathUntouched, hfind] using hunt
      obtain ⟨inner, rfl⟩ : ∃ inner, bv = .jobj inner := by
        cases bv with
        | jobj inner => exact ⟨inner, rfl⟩
        | jnull | jbool _ | jnum _ | jstr _ | jarr _ =>
          cases rest <;> simp [pathUntouched] at hunt'
      have hrest_ne : rest ≠ [] := by
        intro hre; rw [hre] at hunt'; simp [pathUntouched] at hunt'
      obtain ⟨hnd, hall⟩ := (jvalUniq_jobj patch).mp huniq
      have hmem : (k, JVal.jobj inner) ∈ patch := getKeyKvs_mem hfind
      have huniq_inner : jvalUniq (.jobj inner) := hall _ hmem
      cases out with
      | jobj okvs =>
        have hkey := mergePatch_getKey_obj patch okvs k inner hnd hfind
        rcases hok : getKeyKvs okvs k with _ | w
        · rw [lookupPath_cons_none k rest (by simpa [getKeyJ] using hok)] at hsome
          exact absurd hsome (by simp)
        · rw [lookupPath_cons_some k rest (by simpa [getKeyJ] using hok)] at hsome
          rw [hok] at hkey
          simp only [Option.getD_some] at hkey
          rw [lookupPath_cons_some k rest hkey]
          obtain ⟨k2, r2, rfl⟩ : ∃ k2 r2, rest = k2 :: r2 := by
            cases rest with
            | nil => exact absurd rfl hrest_ne
            | cons k2 r2 => exact ⟨k2, r2, rfl⟩
          exact ih inner _ v hunt' huniq_inner (lookupPath_baseOf_some k2 r2 hsome)
      | jarr xs =>
        rw [mergePatch_nonobj patch _ (by intro kvs h; cases h)]; exact hsome
      | jnull =>
        rw [mergePatch_nonobj patch _ (by intro kvs h; cases h)]; exact hsome
      | jbool b2 =>
        rw [mergePatch_nonobj patch _ (by intro kvs h; cases h)]; exact hsome
      | jnum n2 =>
        rw [mergePatch_nonobj patch _ (by intro kvs h; cases h)]; exact hsome
      | jstr s2 =>
        rw [mergePatch_nonobj patch _ (by intro kvs h; cases h)]; exact hsome

lemma mergePatch_nil (out : JVal) : mergePatch out [] = out := by
  simp [mergePatch]

/-- **C9** (amended): `updateStatus` performs a read-modify-write deep
merge — every key path of the previous status document that the
(timestamped) patch does not mention, and that reads a value through
the previous document's plain objects, reads that same value in the
written document; in particular a nested patch object never erases
sibling fields.  (Equality of the two documents at every unmentioned
path fails: a patch object merging onto a previous non-empty string
value spreads the string's index-character properties into the written
object, see the counterexample.) -/
theorem updateStatus_deep_merge (prev : JVal) (patch : List (String × JVal))
    (ts : String) (p : List String) (v : JVal)
    (huniq : jvalUniq (.jobj (topPatch ts patch)))
    (hunt : pathUntouched (.jobj (topPatch ts patch)) p = true)
    (hprev : lookupPath prev p = some v) :
    lookupPath (updateStatusDoc prev patch ts) p = some v := by
  unfold updateStatusDoc jsonMerge
  cases p with
  | nil => simp [pathUntouched] at hunt
  | cons k rest =>
    exact mergePatch_untouched_some (k :: rest) _ _ v hunt huniq
      (lookupPath_baseOf_some k rest hprev)

/-- **C9** counterexample to the unamended claim: merging the patch
`{k: {x: 1}}` into the previous document `{k: "ab"}` spreads the string
`"ab"` into its index-character properties, so the key path `k.0`,
which the patch never mentions, reads `"a"` in the written document
while reading nothing in the previous one — the written document is
not equal to the previous one at every unmentioned path. -/
theorem updateStatus_deep_merge_counterexample :
    pathUntouched (.jobj (topPatch "T" [("k", .jobj [("x", .jnum 1)])]))
        ["k", "0"] = true ∧
    jvalUniq (.jobj (topPatch "T" [("k", .jobj [("x", .jnum 1)])])) ∧
    lookupPath
      (updateStatusDoc (.jobj [("k", .jstr "ab")])
        [("k", .jobj [("x", .jnum 1)])] "T") ["k", "0"] = some (.jstr "a") ∧
    lookupPath (.jobj [("k", .jstr "ab")]) ["k", "0"] = none := by
  refine ⟨by rfl, ?_, ?_, by rfl⟩
  · have htp : topPatch "T" [("k", JVal.jobj [("x", JVal.jnum 1)])] =
        [("ts", JVal.jstr "T"), ("k", JVal.jobj [("x", JVal.jnum 1)])] := by
      simp [topPatch, getKeyKvs]
    rw [htp, jvalUniq_jobj]
    refine ⟨by simp, ?_⟩
    intro e he
    rcases List.mem_cons.mp he with he | he
    · rw [show e.2 = JVal.jstr "T" from by rw [he]]
      simp [jvalUniq]
    rcases List.mem_cons.mp he with he | he
    · rw [show e.2 = JVal.jobj [("x", JVal.jnum 1)] from by rw [he]]
      rw [jvalUniq_jobj]
      refine ⟨by simp, ?_⟩
      intro e2 he2
      rcases List.mem_cons.mp he2 with he2 | he2
      · rw [show e2.2 = JVal.jnum 1 from by rw [he2]]
        simp [jvalUniq]
      · cases he2
    · cases he
  · have h1 : updateStatusDoc (.jobj [("k", .jstr "ab")])
        [("k", .jobj [("x", .jnum 1)])] "T" =
        .jobj [("k", .jobj [("0", .jstr "a"), ("1", .jstr "b"),
                            ("x", .jnum 1)]),
               ("ts", .jstr "T")] := by
      show mergePatch (JVal.jobj [("k", JVal.jstr "ab")])
          [("ts", JVal.jstr "T"), ("k", JVal.jobj [("x", JVal.jnum 1)])] = _
      rw [mergePatch_cons, mergePatch_cons, mergePatch_nil]
      show setKeyJ _ "k"
          (mergePatch (JVal.jobj [("0", JVal.jstr "a"), ("1", JVal.jstr "b")])
            [("x", JVal.jnum 1)]) = _
      rw [mergePatch_cons, mergePatch_nil]
      rfl
    rw [h1]
    rfl

/-- Witness for C9 on a concrete document: patching
`{arena: {played: 6}}` into `{arena: {played: 5, candWins: 2}, phase: "x"}`
leaves the sibling path `arena.candWins` reading its prior value `2`. -/
theorem updateStatus_deep_merge_witness :
    lookupPath
      (updateStatusDoc
        (.jobj [("arena", .jobj [("played", .jnum 5), ("candWins", .jnum 2)]),
                ("phase", .jstr "x")])
        [("arena", .jobj [("played", .jnum 6)])] "T")
      ["arena", "candWins"] = some (.jnum 2) :=
  updateStatus_deep_merge _ _ _ _ _
    (by
      have htp : topPatch "T" [("arena", JVal.jobj [("played", JVal.jnum 6)])] =
          [("ts", JVal.jstr "T"), ("arena", JVal.jobj [("played", JVal.jnum 6)])] := by
        simp [topPatch, getKeyKvs]
      rw [htp, jvalUniq_jobj]
      refine ⟨by simp, ?_⟩
      intro e he
      rcases List.mem_cons.mp he with he | he
      · rw [show e.2 = JVal.jstr "T" from by rw [he]]
        simp [jvalUniq]
      rcases List.mem_cons.mp he with he | he
      · rw [show e.2 = JVal.jobj [("played", JVal.jnum 6)] from by rw [he]]
        rw [jvalUniq_jobj]
        refine ⟨by simp, ?_⟩
        intro e2 he2
        rcases List.mem_cons.mp he2 with he2 | he2
        · rw [show e2.2 = JVal.jnum 6 from by rw [he2]]
          simp [jvalUniq]
        · cases he2
      · cases he)
    (by rfl)
    (by rfl)

/-! ## Proofs for C4: the visit-count invariant of the search tree -/

lemma simStep_visits {t t' : MTree} (h : SimStep t t') :
    t'.visits = t.visits + 1 := by
  cases h <;> rfl

lemma balancedSub_node (v : ℕ) (cs : List MTree) :
    balancedSub (.node v cs) ↔
      ((cs ≠ [] → v = 1 + (cs.map MTree.visits).sum) ∧
       ∀ c ∈ cs, balancedSub c) := by
  rw [balancedSub]
  constructor
  · rintro ⟨h1, h2⟩
    exact ⟨h1, fun c hc => h2 ⟨c, hc⟩ (List.mem_attach _ _)⟩
  · rintro ⟨h1, h2⟩
    exact ⟨h1, fun c _ => h2 c.val c.property⟩

lemma simStep_balanced {t t' : MTree} (h : SimStep t t') :
    balancedSub t → balancedSub t' := by
  induction h with
  | leafTerm v =>
    intro _
    rw [balancedSub_node]
    exact ⟨fun h => absurd rfl h, fun c hc => absurd hc (List.not_mem_nil c)⟩
  | leafExpand k =>
    intro _
    rw [balancedSub_node]
    constructor
    · intro _
      simp [MTree.visits, List.map_replicate, List.sum_replicate]
    · intro c hc
      rw [List.eq_of_mem_replicate hc, balancedSub_node]
      exact ⟨fun h => absurd rfl h, fun c hc => absurd hc (List.not_mem_nil c)⟩
  | descend v pre post c c' hstep ih =>
    intro hb
    rw [balancedSub_node] at hb
    obtain ⟨h1, h2⟩ := hb
    rw [balancedSub_node]
    constructor
    · intro _
      have hold : v = 1 + ((pre ++ c :: post).map MTree.visits).sum :=
        h1 (by simp)
      have : ((pre ++ c' :: post).map MTree.visits).sum =
          ((pre ++ c :: post).map MTree.visits).sum + 1 := by
        simp only [List.map_append, List.map_cons, List.sum_append,
          List.sum_cons, simStep_visits hstep]
        omega
      omega
    · intro d hd
      rcases List.mem_append.mp hd with hd | hd
      · exact h2 d (List.mem_append.mpr (Or.inl hd))
      rcases List.mem_cons.mp hd with hd | hd
      · subst hd
        exact ih (h2 c (List.mem_append.mpr (Or.inr (List.mem_cons_self c post))))
      · exact h2 d (List.mem_append.mpr (Or.inr (List.mem_cons_of_mem c hd)))

lemma simStep_root {t t' : MTree} (h : SimStep t t')
    (hne : t.children ≠ []) (hb : rootBalanced t) :
    rootBalanced t' ∧ t'.children ≠ [] := by
  cases h with
  | leafTerm v => exact absurd rfl hne
  | leafExpand k => exact absurd rfl hne
  | descend v pre post c c' hstep =>
    obtain ⟨h1, h2⟩ := hb
    have hvis : v = ((pre ++ c :: post).map MTree.visits).sum := h1
    refine ⟨⟨?_, ?_⟩, by simp [MTree.children]⟩
    · show v + 1 = ((pre ++ c' :: post).map MTree.visits).sum
      simp only [List.map_append, List.map_cons, List.sum_append,
        List.sum_cons, simStep_visits hstep]
      simp only [List.map_append, List.map_cons, List.sum_append,
        List.sum_cons] at hvis
      omega
    · intro d hd
      simp only [MTree.children] at hd h2
      rcases List.mem_append.mp hd with hd | hd
      · exact h2 d (List.mem_append.mpr (Or.inl hd))
      rcases List.mem_cons.mp hd with hd | hd
      · subst hd
        exact simStep_balanced hstep
          (h2 c (List.mem_append.mpr (Or.inr (List.mem_cons_self c post))))
      · exact h2 d (List.mem_append.mpr (Or.inr (List.mem_cons_of_mem c hd)))

/-- C4, amended: after any run of the PUCT simulation loop in which no
transposition-table bootstrap fires and every batch evaluates distinct
leaves, every non-root non-leaf node satisfies
`visits = 1 + Σ children.visits`, while the root (whose own evaluation is
never counted in its visit counter) satisfies
`visits = Σ children.visits`. -/
theorem mcts_visit_invariant (k : ℕ) (t : MTree) (hk : 1 ≤ k)
    (h : Reach k t) :
    t.visits = (t.children.map MTree.visits).sum ∧
    ∀ c ∈ t.children, balancedSub c := by
  have hinit : rootBalanced (rootInit k) ∧ (rootInit k).children ≠ [] := by
    constructor
    · constructor
      · simp [rootInit, MTree.visits, MTree.children, List.map_replicate,
          List.sum_replicate]
      · intro c hc
        simp only [rootInit, MTree.children] at hc
        rw [List.eq_of_mem_replicate hc, balancedSub_node]
        exact ⟨fun h => absurd rfl h, fun c hc => absurd hc (List.not_mem_nil c)⟩
    · simp only [rootInit, MTree.children]
      intro hrep
      have := congrArg List.length hrep
      simp at this
      omega
  have : rootBalanced t ∧ t.children ≠ [] := by
    induction h with
    | refl => exact hinit
    | tail _ hstep ih => exact simStep_root hstep ih.2 ih.1
  exact this.1

/-- C4, counterexample: the claim extends the `1 + Σ` equation to the
root.  After one simulation from a freshly expanded single-child root,
the root is a non-leaf with `visits = 1` while `1 + Σ children.visits`
is `2`: the claimed invariant fails on a reachable search tree. -/
theorem mcts_claim_counterexample :
    Reach 1 (MTree.node 1 [MTree.node 1 []]) ∧
    ¬ balancedSub (MTree.node 1 [MTree.node 1 []]) := by
  constructor
  · refine Relation.ReflTransGen.single ?_
    show SimStep (.node 0 ([] ++ .node 0 [] :: []))
      (.node (0 + 1) ([] ++ .node 1 [] :: []))
    exact SimStep.descend 0 [] [] (.node 0 []) (.node 1 []) (SimStep.leafTerm 0)
  · rw [balancedSub_node]
    rintro ⟨h1, _⟩
    have := h1 (by simp)
    simp [MTree.visits] at this

/-- Witness for C4 at the freshly expanded root (zero simulations). -/
theorem mcts_visit_invariant_witness :
    (rootInit 1).visits =
      (((rootInit 1).children).map MTree.visits).sum ∧
    ∀ c ∈ (rootInit 1).children, balancedSub c :=
  mcts_visit_invariant 1 (rootInit 1) (le_refl 1) Relation.ReflTransGen.refl

/-! ## Board-cell lemmas -/

lemma getBoardSize_setCell (b : Board) (r c : ℕ) (v : Option Player) :
    getBoardSize (setCell b r c v) = getBoardSize b := by
  simp [getBoardSize, setCell]

lemma getBoardSize_place (b : Board) (p : Player) (m : Move) :
    getBoardSize (place b p m) = getBoardSize b :=
  getBoardSize_setCell b m.1 m.2 (some p)

lemma Wf_setCell {b : Board} (hwf : Wf b) (r c : ℕ) (v : Option Player) :
    Wf (setCell b r c v) := by
  by_cases hr : r < b.length
  · intro row hrow
    show row.length = (setCell b r c v).length
    have hlen : (setCell b r c v).length = b.length := by simp [setCell]
    rw [hlen]
    rcases List.mem_or_eq_of_mem_set hrow with h | h
    · exact hwf row h
    · subst h
      rw [List.length_set]
      rcases hb : b.get? r with _ | row0
      · exact absurd hr (not_lt.mpr (List.get?_eq_none.mp hb))
      · simpa using hwf row0 (List.get?_mem hb)
  · have heq : setCell b r c v = b := by
      unfold setCell
      exact List.set_eq_of_length_le (by omega)
    rw [heq]
    exact hwf

lemma Wf_place {b : Board} (hwf : Wf b) (p : Player) (m : Move) :
    Wf (place b p m) :=
  Wf_setCell hwf m.1 m.2 (some p)

lemma Wf_row_length {b : Board} (hwf : Wf b) {r : ℕ}
    (hr : r < getBoardSize b) :
    ((b.get? r).getD []).length = getBoardSize b := by
  rcases hb : b.get? r with _ | row
  · have := List.get?_eq_none.mp hb
    exact absurd hr (not_lt.mpr this)
  · simpa using hwf row (List.get?_mem hb)

lemma getCell_eq_none_of_oob {b : Board} {r c : ℕ}
    (h : getBoardSize b ≤ r) : getCell b r c = none := by
  unfold getCell
  rw [List.get?_eq_none.mpr h]

lemma setCell_setCell (b : Board) (r c : ℕ) (v w : Option Player) :
    setCell (setCell b r c v) r c w = setCell b r c w := by
  by_cases hr : r < b.length
  · rcases hb : b.get? r with _ | row
    · exact absurd hr (not_lt.mpr (List.get?_eq_none.mp hb))
    · show (b.set r _).set r _ = _
      rw [List.set_set]
      unfold setCell
      congr 1
      rw [List.get?_set, if_pos rfl, hb]
      show ((row.set c v).set c w) = row.set c w
      rw [List.set_set]
  · have h1 : setCell b r c v = b := by
      unfold setCell
      exact List.set_eq_of_length_le (by omega)
    rw [h1]

lemma setCell_none_self {b : Board} {r c : ℕ}
    (h : getCell b r c = none) : setCell b r c none = b := by
  by_cases hr : r < b.length
  · rcases hb : b.get? r with _ | row
    · exact absurd hr (not_lt.mpr (List.get?_eq_none.mp hb))
    · have hrow : row.set c none = row := by
        apply List.ext_get?
        intro j
        rw [List.get?_set]
        by_cases hcj : c = j
        · subst hcj
          rcases hc : row.get? c with _ | w
          · simp [hc]
          · have h' : (match row.get? c with
                | none => none
                | some cell => cell) = none := by
              have h2 := h
              unfold getCell at h2
              rw [hb] at h2
              exact h2
            rw [hc] at h'
            have hw : w = none := h'
            subst hw
            simp
        · rw [if_neg hcj]
      unfold setCell
      rw [hb]
      simp only [Option.getD_some]
      rw [hrow]
      apply List.ext_get?
      intro i
      rw [List.get?_set]
      by_cases hir : r = i
      · subst hir
        rw [if_pos rfl, hb]
        rfl
      · rw [if_neg hir]
  · unfold setCell
    exact List.set_eq_of_length_le (by omega)

lemma getCell_setCell_miss (b : Board) (r c : ℕ) (v : Option Player)
    (r' c' : ℕ) (h : r' ≠ r ∨ c' ≠ c) :
    getCell (setCell b r c v) r' c' = getCell b r' c' := by
  unfold getCell setCell
  rw [List.get?_set]
  by_cases hr : r = r'
  · subst hr
    rcases h with h | h
    · exact absurd rfl h
    rw [if_pos rfl]
    rcases hb : b.get? r with _ | row
    · rfl
    · show (match ((((some row).getD []).set c v).get? c') with
          | none => none
          | some cell => cell) =
        (match row.get? c' with
          | none => none
          | some cell => cell)
      simp only [Option.getD_some]
      rw [List.get?_set, if_neg (fun hc => h hc.symm)]
  · rw [if_neg hr]

lemma getCell_setCell_hit {b : Board} (hwf : Wf b) {r c : ℕ}
    (hr : r < getBoardSize b) (hc : c < getBoardSize b)
    (v : Option Player) :
    getCell (setCell b r c v) r c = v := by
  unfold getCell setCell
  rw [List.get?_set, if_pos rfl]
  rcases hb : b.get? r with _ | row
  · exact absurd hr (not_lt.mpr (List.get?_eq_none.mp hb))
  · have hlen : row.length = getBoardSize b := by
      simpa using hwf row (List.get?_mem hb)
    show (match ((((some row).getD []).set c v).get? c) with
        | none => none
        | some cell => cell) = v
    simp only [Option.getD_some]
    rw [List.get?_set, if_pos rfl]
    rcases hrow : row.get? c with _ | w
    · exact absurd hc
        (not_lt.mpr (hlen ▸ List.get?_eq_none.mp hrow))
    · rfl

lemma getCell_place {b : Board} (hwf : Wf b) (p : Player) {mr mc : ℕ}
    (hmr : mr < getBoardSize b) (hmc : mc < getBoardSize b) (r c : ℕ) :
    getCell (place b p (mr, mc)) r c =
      if r = mr ∧ c = mc then some p else getCell b r c := by
  by_cases h : r = mr ∧ c = mc
  · obtain ⟨rfl, rfl⟩ := h
    rw [if_pos ⟨rfl, rfl⟩]
    exact getCell_setCell_hit hwf hmr hmc (some p)
  · rw [if_neg h]
    apply getCell_setCell_miss
    by_cases hr : r = mr
    · exact Or.inr fun hc => h ⟨hr, hc⟩
    · exact Or.inl hr

/-- Undoing a placement on a previously empty cell restores the board:
the `board[r][c] = player; …; board[r][c] = null` discipline of the
tactical helpers. -/
lemma setCell_cancel {b : Board} {r c : ℕ}
    (h : getCell b r c = none) (v : Option Player) :
    setCell (setCell b r c v) r c none = b := by
  rw [setCell_setCell]
  exact setCell_none_self h

lemma unplace_place {b : Board} {p : Player} {m : Move}
    (h : getCell b m.1 m.2 = none) : unplace (place b p m) m = b :=
  setCell_cancel h (some p)

/-! ### `cellAt` lemmas -/

lemma cellAt_neg_oob {b : Board} {r c : ℤ}
    (h : r < 0 ∨ c < 0 ∨ (getBoardSize b : ℤ) ≤ r ∨ (getBoardSize b : ℤ) ≤ c) :
    cellAt b r c = .oob := by
  unfold cellAt
  rw [if_pos]
  tauto

lemma cellAt_inb {b : Board} {r c : ℤ} (hr0 : 0 ≤ r) (hc0 : 0 ≤ c)
    (hr : r < (getBoardSize b : ℤ)) (hc : c < (getBoardSize b : ℤ)) :
    cellAt b r c =
      match getCell b r.toNat c.toNat with
      | some p => .occ p
      | none => .emp := by
  unfold cellAt
  rw [if_neg]
  push_neg
  exact ⟨not_lt.mp (by omega), not_lt.mp (by omega), by omega, by omega⟩

lemma cellAt_place {b : Board} (hwf : Wf b) (p : Player) {mr mc : ℕ}
    (hmr : mr < getBoardSize b) (hmc : mc < getBoardSize b) (r c : ℤ) :
    cellAt (place b p (mr, mc)) r c =
      if r = (mr : ℤ) ∧ c = (mc : ℤ) then .occ p else cellAt b r c := by
  have hsz : getBoardSize (place b p (mr, mc)) = getBoardSize b :=
    getBoardSize_place b p (mr, mc)
  by_cases hin : 0 ≤ r ∧ 0 ≤ c ∧ r < (getBoardSize b : ℤ) ∧ c < (getBoardSize b : ℤ)
  · obtain ⟨h1, h2, h3, h4⟩ := hin
    have h3' : r < (getBoardSize (place b p (mr, mc)) : ℤ) := by
      rw [hsz]; exact h3
    have h4' : c < (getBoardSize (place b p (mr, mc)) : ℤ) := by
      rw [hsz]; exact h4
    have hL := cellAt_inb (b := place b p (mr, mc)) h1 h2 h3' h4'
    rw [hL, getCell_place hwf p hmr hmc]
    by_cases he : r = (mr : ℤ) ∧ c = (mc : ℤ)
    · obtain ⟨rfl, rfl⟩ := he
      rw [if_pos ⟨by omega, by omega⟩, if_pos ⟨rfl, rfl⟩]
    · have hne : ¬ (r.toNat = mr ∧ c.toNat = mc) := by
        intro ⟨ha, hb2⟩
        exact he ⟨by omega, by omega⟩
      rw [if_neg hne, if_neg he]
      exact (cellAt_inb h1 h2 h3 h4).symm
  · rw [not_and_or, not_and_or, not_and_or] at hin
    push_neg at hin
    have hoob : r < 0 ∨ c < 0 ∨ (getBoardSize b : ℤ) ≤ r ∨ (getBoardSize b : ℤ) ≤ c := hin
    have hne : ¬ (r = (mr : ℤ) ∧ c = (mc : ℤ)) := by
      rintro ⟨rfl, rfl⟩
      rcases hoob with h | h | h | h <;> omega
    have hoob2 : r < 0 ∨ c < 0 ∨ (getBoardSize (place b p (mr, mc)) : ℤ) ≤ r ∨
        (getBoardSize (place b p (mr, mc)) : ℤ) ≤ c := by
      rw [hsz]; exact hoob
    rw [if_neg hne, cellAt_neg_oob hoob2, cellAt_neg_oob hoob]

/-- Placing a stone of a different colour somewhere else (or anywhere,
since the cell placed on was empty) does not change which cells hold a
`p` stone. -/
lemma cellAt_occ_place_other {b : Board} (hwf : Wf b) {p q : Player}
    (hpq : q ≠ p) {mr mc : ℕ} (hmr : mr < getBoardSize b)
    (hmc : mc < getBoardSize b) (hemp : getCell b mr mc = none) (r c : ℤ) :
    (cellAt (place b q (mr, mc)) r c = .occ p) ↔ (cellAt b r c = .occ p) := by
  rw [cellAt_place hwf q hmr hmc]
  by_cases he : r = (mr : ℤ) ∧ c = (mc : ℤ)
  · obtain ⟨rfl, rfl⟩ := he
    rw [if_pos ⟨rfl, rfl⟩]
    constructor
    · intro h; cases h; exact absurd rfl hpq
    · intro h
      have : cellAt b (mr : ℤ) (mc : ℤ) = .emp := by
        rw [cellAt_inb (by omega) (by omega) (by omega) (by omega)]
        simp [hemp]
      rw [this] at h; cases h
  · rw [if_neg he]

/-! ## `checkWin` lemmas -/

lemma runLen_eq_of_agree {b1 b2 : Board} {p : Player}
    (h : ∀ r c : ℤ, (cellAt b1 r c = .occ p) ↔ (cellAt b2 r c = .occ p)) :
    ∀ (k : ℕ) (r c dr dc : ℤ),
      runLen b1 p r c dr dc k = runLen b2 p r c dr dc k := by
  intro k
  induction k with
  | zero => intro r c dr dc; rfl
  | succ k ih =>
    intro r c dr dc
    unfold runLen
    by_cases hc1 : cellAt b1 (r + dr) (c + dc) = .occ p
    · rw [if_pos hc1, if_pos ((h _ _).mp hc1), ih]
    · rw [if_neg hc1, if_neg (fun hc2 => hc1 ((h _ _).mpr hc2))]

lemma checkWin_eq_of_agree {b1 b2 : Board} {p : Player}
    (h : ∀ r c : ℤ, (cellAt b1 r c = .occ p) ↔ (cellAt b2 r c = .occ p))
    (m : Move) : checkWin b1 p m = checkWin b2 p m := by
  unfold checkWin
  simp only [runLen_eq_of_agree h]

/-- A stone of the other colour placed on an empty cell can neither
create nor destroy a five for `p`: the key soundness fact the solver's
"forced block" reasoning needs. -/
lemma fiveAfter_place_other {b : Board} (hwf : Wf b) {p q : Player}
    (hpq : q ≠ p) {e : Move} (he1 : e.1 < getBoardSize b)
    (he2 : e.2 < getBoardSize b) (hee : getCell b e.1 e.2 = none)
    {w : Move} (hw1 : w.1 < getBoardSize b) (hw2 : w.2 < getBoardSize b)
    (hwe : w ≠ e) :
    fiveAfter (place b q e) p w = fiveAfter b p w := by
  obtain ⟨er, ec⟩ := e
  obtain ⟨wr, wc⟩ := w
  apply checkWin_eq_of_agree
  intro r c
  have hwfq : Wf (place b q (er, ec)) := Wf_place hwf q (er, ec)
  have hszq : getBoardSize (place b q (er, ec)) = getBoardSize b :=
    getBoardSize_place b q (er, ec)
  rw [cellAt_place hwfq p (by rw [hszq]; exact hw1) (by rw [hszq]; exact hw2),
    cellAt_place hwf p hw1 hw2]
  by_cases hrc : r = (wr : ℤ) ∧ c = (wc : ℤ)
  · rw [if_pos hrc, if_pos hrc]
  · rw [if_neg hrc, if_neg hrc]
    exact cellAt_occ_place_other hwf hpq he1 he2 hee r c

lemma runLen_pos_first {b : Board} {p : Player} {r c dr dc : ℤ} {k : ℕ}
    (h : 1 ≤ runLen b p r c dr dc k) :
    cellAt b (r + dr) (c + dc) = .occ p := by
  cases k with
  | zero => cases h
  | succ k =>
    unfold runLen at h
    by_cases hc1 : cellAt b (r + dr) (c + dc) = .occ p
    · exact hc1
    · rw [if_neg hc1] at h; cases h

lemma mem_allCoords (n : ℕ) (x : Move) :
    x ∈ allCoords n ↔ x.1 < n ∧ x.2 < n := by
  obtain ⟨r, c⟩ := x
  simp [allCoords, List.mem_flatMap]

lemma hasStonesB_iff (b : Board) :
    hasStonesB b = true ↔
      ∃ s : Move, s.1 < getBoardSize b ∧ s.2 < getBoardSize b ∧
        (getCell b s.1 s.2).isSome := by
  unfold hasStonesB
  rw [List.any_eq_true]
  constructor
  · rintro ⟨s, hs, h⟩
    exact ⟨s, (mem_allCoords _ s).mp hs |>.1, (mem_allCoords _ s).mp hs |>.2, h⟩
  · rintro ⟨s, h1, h2, h3⟩
    exact ⟨s, (mem_allCoords _ s).mpr ⟨h1, h2⟩, h3⟩

lemma insertNew_mem (l : List Move) (m x : Move) :
    x ∈ insertNew l m ↔ x ∈ l ∨ x = m := by
  unfold insertNew
  by_cases h : m ∈ l
  · rw [if_pos h]
    constructor
    · exact Or.inl
    · rintro (hx | rfl)
      · exact hx
      · exact h
  · rw [if_neg h]
    simp

lemma foldl_insertNew_mem (adds : List Move) :
    ∀ (acc : List Move) (x : Move),
      x ∈ adds.foldl insertNew acc ↔ x ∈ acc ∨ x ∈ adds := by
  induction adds with
  | nil => intro acc x; simp
  | cons a adds ih =>
    intro acc x
    rw [List.foldl_cons, ih, insertNew_mem]
    constructor
    · rintro ((hx | rfl) | hx)
      · exact Or.inl hx
      · exact Or.inr (List.mem_cons_self _ _)
      · exact Or.inr (List.mem_cons_of_mem _ hx)
    · rintro (hx | hx)
      · exact Or.inl (Or.inl hx)
      rcases List.mem_cons.mp hx with rfl | hx
      · exact Or.inl (Or.inr rfl)
      · exact Or.inr hx

lemma stoneNbrs_mem (b : Board) (radius r c : ℕ) (x : Move) :
    x ∈ stoneNbrs b radius r c ↔
      x.1 < getBoardSize b ∧ x.2 < getBoardSize b ∧
      getCell b x.1 x.2 = none ∧
      ((x.1 : ℤ) - (r : ℤ)).natAbs ≤ radius ∧
      ((x.2 : ℤ) - (c : ℤ)).natAbs ≤ radius := by
  obtain ⟨xr, xc⟩ := x
  unfold stoneNbrs
  rw [List.mem_flatMap]
  constructor
  · rintro ⟨di, hdi, hx⟩
    rw [List.mem_filterMap] at hx
    obtain ⟨dj, hdj, hf⟩ := hx
    rw [List.mem_range] at hdi hdj
    by_cases hcond : 0 ≤ (r : ℤ) + ((di : ℤ) - radius) ∧
        (r : ℤ) + ((di : ℤ) - radius) < (getBoardSize b : ℤ) ∧
        0 ≤ (c : ℤ) + ((dj : ℤ) - radius) ∧
        (c : ℤ) + ((dj : ℤ) - radius) < (getBoardSize b : ℤ) ∧
        getCell b ((r : ℤ) + ((di : ℤ) - radius)).toNat
          ((c : ℤ) + ((dj : ℤ) - radius)).toNat = none
    · rw [if_pos hcond] at hf
      obtain ⟨h1, h2, h3, h4, h5⟩ := hcond
      injection hf with hf
      obtain ⟨hfr, hfc⟩ := Prod.mk.injEq .. ▸ hf
      refine ⟨by omega, by omega, ?_, by omega, by omega⟩
      rw [← hfr, ← hfc] at *
      exact h5
    · rw [if_neg hcond] at hf; cases hf
  · rintro ⟨h1, h2, h3, h4, h5⟩
    refine ⟨(xr + radius - r : ℕ), ?_, ?_⟩
    · rw [List.mem_range]; omega
    · rw [List.mem_filterMap]
      refine ⟨(xc + radius - c : ℕ), by rw [List.mem_range]; omega, ?_⟩
      have her : (r : ℤ) + (((xr + radius - r : ℕ) : ℤ) - radius) = xr := by
        push_cast; omega
      have hec : (c : ℤ) + (((xc + radius - c : ℕ) : ℤ) - radius) = xc := by
        push_cast; omega
      rw [her, hec]
      rw [if_pos ⟨by omega, by omega, by omega, by omega, by
        simpa using h3⟩]
      simp

/-- `getPossibleMoves` on a stone-bearing board: exactly the on-board
empty cells within Chebyshev distance `radius` of some stone. -/
lemma getPossibleMoves_mem_stones {b : Board} (hst : hasStonesB b = true)
    (radius : ℕ) (x : Move) :
    x ∈ getPossibleMoves b radius ↔
      x.1 < getBoardSize b ∧ x.2 < getBoardSize b ∧
      getCell b x.1 x.2 = none ∧
      ∃ s : Move, s.1 < getBoardSize b ∧ s.2 < getBoardSize b ∧
        (getCell b s.1 s.2).isSome ∧
        ((x.1 : ℤ) - (s.1 : ℤ)).natAbs ≤ radius ∧
        ((x.2 : ℤ) - (s.2 : ℤ)).natAbs ≤ radius := by
  have hfold : ∀ (coords : List Move) (acc : List Move),
      x ∈ coords.foldl
        (fun acc m =>
          if (getCell b m.1 m.2).isSome then
            (stoneNbrs b radius m.1 m.2).foldl insertNew acc
          else acc) acc ↔
      x ∈ acc ∨ ∃ s ∈ coords, (getCell b s.1 s.2).isSome = true ∧
        x ∈ stoneNbrs b radius s.1 s.2 := by
    intro coords
    induction coords with
    | nil => intro acc; simp
    | cons s coords ih =>
      intro acc
      rw [List.foldl_cons]
      by_cases hs : (getCell b s.1 s.2).isSome
      · rw [if_pos hs, ih, foldl_insertNew_mem]
        constructor
        · rintro ((hx | hx) | ⟨t, ht, h1, h2⟩)
          · exact Or.inl hx
          · exact Or.inr ⟨s, List.mem_cons_self _ _, hs, hx⟩
          · exact Or.inr ⟨t, List.mem_cons_of_mem _ ht, h1, h2⟩
        · rintro (hx | ⟨t, ht, h1, h2⟩)
          · exact Or.inl (Or.inl hx)
          rcases List.mem_cons.mp ht with rfl | ht
          · exact Or.inl (Or.inr h2)
          · exact Or.inr ⟨t, ht, h1, h2⟩
      · rw [if_neg hs, ih]
        constructor
        · rintro (hx | ⟨t, ht, h1, h2⟩)
          · exact Or.inl hx
          · exact Or.inr ⟨t, List.mem_cons_of_mem _ ht, h1, h2⟩
        · rintro (hx | ⟨t, ht, h1, h2⟩)
          · exact Or.inl hx
          rcases List.mem_cons.mp ht with rfl | ht
          · exact absurd h1 hs
          · exact Or.inr ⟨t, ht, h1, h2⟩
  unfold getPossibleMoves
  rw [if_pos (by exact hst)]
  rw [hfold, List.mem_nil_iff]
  constructor
  · rintro (h | ⟨s, hs, h1, h2⟩)
    · cases h
    · obtain ⟨hx1, hx2, hx3, hd1, hd2⟩ := (stoneNbrs_mem b radius s.1 s.2 x).mp h2
      obtain ⟨hs1, hs2⟩ := (mem_allCoords _ s).mp hs
      exact ⟨hx1, hx2, hx3, s, hs1, hs2, h1, hd1, hd2⟩
  · rintro ⟨hx1, hx2, hx3, s, hs1, hs2, h1, hd1, hd2⟩
    refine Or.inr ⟨s, (mem_allCoords _ s).mpr ⟨hs1, hs2⟩, h1, ?_⟩
    exact (stoneNbrs_mem b radius s.1 s.2 x).mpr ⟨hx1, hx2, hx3, hd1, hd2⟩

lemma getPossibleMoves_no_stones {b : Board} (hst : hasStonesB b = false)
    (radius : ℕ) :
    getPossibleMoves b radius = [(getBoardSize b / 2, getBoardSize b / 2)] := by
  unfold getPossibleMoves
  rw [if_neg (by rw [show ((allCoords (getBoardSize b)).any
    fun m => (getCell b m.1 m.2).isSome) = hasStonesB b from rfl, hst]; simp)]

/-- A legal move is on the board and targets an empty cell (both branches
of `getPossibleMoves`). -/
lemma mem_pm_bounds {b : Board} {radius : ℕ} {m : Move}
    (hm : m ∈ getPossibleMoves b radius) (hn : 1 ≤ getBoardSize b) :
    m.1 < getBoardSize b ∧ m.2 < getBoardSize b ∧
      getCell b m.1 m.2 = none := by
  cases hst : hasStonesB b
  · rw [getPossibleMoves_no_stones hst] at hm
    rcases List.mem_cons.mp hm with rfl | hm
    · refine ⟨by omega, by omega, ?_⟩
      rcases hc : getCell b (getBoardSize b / 2) (getBoardSize b / 2) with _ | q
      · rfl
      · have : hasStonesB b = true := (hasStonesB_iff b).mpr
          ⟨(getBoardSize b / 2, getBoardSize b / 2), by omega, by omega,
            by rw [hc]; rfl⟩
        rw [hst] at this; cases this
    · cases hm
  · obtain ⟨h1, h2, h3, _⟩ := (getPossibleMoves_mem_stones hst radius m).mp hm
    exact ⟨h1, h2, h3⟩

lemma getPossibleMoves_nodup (b : Board) (radius : ℕ) :
    (getPossibleMoves b radius).Nodup := by
  have hins : ∀ (l : List Move) (m : Move), l.Nodup → (insertNew l m).Nodup := by
    intro l m hl
    unfold insertNew
    by_cases h : m ∈ l
    · rw [if_pos h]; exact hl
    · rw [if_neg h]
      rw [List.nodup_append]
      exact ⟨hl, List.nodup_singleton m, by
        intro x hx hxm
        rcases List.mem_singleton.mp hxm with rfl
        exact h hx⟩
  have hfold : ∀ (adds acc : List Move), acc.Nodup →
      (adds.foldl insertNew acc).Nodup := by
    intro adds
    induction adds with
    | nil => intro acc h; exact h
    | cons a adds ih => intro acc h; exact ih _ (hins acc a h)
  have main : ∀ (coords : List Move) (acc : List Move), acc.Nodup →
      (coords.foldl
        (fun acc m =>
          if (getCell b m.1 m.2).isSome then
            (stoneNbrs b radius m.1 m.2).foldl insertNew acc
          else acc) acc).Nodup := by
    intro coords
    induction coords with
    | nil => intro acc h; exact h
    | cons s coords ih =>
      intro acc h
      rw [List.foldl_cons]
      by_cases hs : (getCell b s.1 s.2).isSome
      · rw [if_pos hs]; exact ih _ (hfold _ acc h)
      · rw [if_neg hs]; exact ih _ h
  cases hst : hasStonesB b
  · rw [getPossibleMoves_no_stones hst]
    exact List.nodup_singleton _
  · unfold getPossibleMoves
    rw [if_pos (show ((allCoords (getBoardSize b)).any
        fun m => (getCell b m.1 m.2).isSome) = true from hst)]
    exact main _ [] List.nodup_nil

lemma cellAt_occ_elim {b : Board} {r c : ℤ} {p : Player}
    (h : cellAt b r c = .occ p) :
    0 ≤ r ∧ r < (getBoardSize b : ℤ) ∧ 0 ≤ c ∧ c < (getBoardSize b : ℤ) ∧
      getCell b r.toNat c.toNat = some p := by
  by_cases hoob : r < 0 ∨ c < 0 ∨ (getBoardSize b : ℤ) ≤ r ∨
      (getBoardSize b : ℤ) ≤ c
  · rw [cellAt_neg_oob hoob] at h; cases h
  · push_neg at hoob
    obtain ⟨h1, h2, h3, h4⟩ := hoob
    rw [cellAt_inb (by omega) (by omega) (by omega) (by omega)] at h
    split at h
    · rename_i q hq
      injection h with h
      subst h
      exact ⟨by omega, by omega, by omega, by omega, hq⟩
    · cases h

lemma cellAt_emp_elim {b : Board} {r c : ℤ}
    (h : cellAt b r c = .emp) :
    0 ≤ r ∧ r < (getBoardSize b : ℤ) ∧ 0 ≤ c ∧ c < (getBoardSize b : ℤ) ∧
      getCell b r.toNat c.toNat = none := by
  by_cases hoob : r < 0 ∨ c < 0 ∨ (getBoardSize b : ℤ) ≤ r ∨
      (getBoardSize b : ℤ) ≤ c
  · rw [cellAt_neg_oob hoob] at h; cases h
  · push_neg at hoob
    obtain ⟨h1, h2, h3, h4⟩ := hoob
    rw [cellAt_inb (by omega) (by omega) (by omega) (by omega)] at h
    split at h
    · cases h
    · rename_i hq
      exact ⟨by omega, by omega, by omega, by omega, hq⟩

/-! ## The threat detector and solver candidate sets -/

lemma threatWindowGap_some {b : Board} {p : Player} {rs cs : ℕ} {dr dc : ℤ}
    {g : Move} (h : threatWindowGap b p rs cs dr dc = some g) :
    g.1 < getBoardSize b ∧ g.2 < getBoardSize b ∧
      getCell b g.1 g.2 = none := by
  simp only [threatWindowGap] at h
  split at h
  · obtain ⟨i, _, hi⟩ := List.exists_of_findSome?_eq_some h
    split at hi
    · rename_i hemp
      injection hi with hi
      obtain ⟨h1, h2, h3, h4, h5⟩ := cellAt_emp_elim hemp
      rw [← hi]
      exact ⟨by omega, by omega, h5⟩
    · cases hi
  · cases h

lemma mem_findThreats {b : Board} {p : Player} {o4 : Bool} {m : Move}
    (hm : m ∈ findThreats b p o4) :
    m.1 < getBoardSize b ∧ m.2 < getBoardSize b ∧
      getCell b m.1 m.2 = none := by
  unfold findThreats at hm
  rw [List.mem_flatMap] at hm
  obtain ⟨rc, _, hm⟩ := hm
  rw [List.mem_filterMap] at hm
  obtain ⟨d, _, hd⟩ := hm
  rcases hg : threatWindowGap b p rc.1 rc.2 d.1 d.2 with _ | gap
  · rw [hg] at hd; cases hd
  · rw [hg] at hd
    have hgap := threatWindowGap_some hg
    rcases o4 with _ | _
    · simp only [Bool.false_eq_true, if_false, ite_false, Option.some.injEq] at hd
      rw [← hd]; exact hgap
    · simp only [if_true, ite_true] at hd
      split at hd
      · injection hd with hd; rw [← hd]; exact hgap
      · cases hd

lemma dedupUnion_mem (ls : List (List Move)) (x : Move) :
    x ∈ dedupUnion ls ↔ ∃ l ∈ ls, x ∈ l := by
  unfold dedupUnion
  have : ∀ (ls : List (List Move)) (acc : List Move),
      x ∈ ls.foldl (fun acc l => l.foldl insertNew acc) acc ↔
        x ∈ acc ∨ ∃ l ∈ ls, x ∈ l := by
    intro ls
    induction ls with
    | nil => intro acc; simp
    | cons l ls ih =>
      intro acc
      rw [List.foldl_cons, ih, foldl_insertNew_mem]
      constructor
      · rintro ((h | h) | ⟨l2, hl2, h⟩)
        · exact Or.inl h
        · exact Or.inr ⟨l, List.mem_cons_self _ _, h⟩
        · exact Or.inr ⟨l2, List.mem_cons_of_mem _ hl2, h⟩
      · rintro (h | ⟨l2, hl2, h⟩)
        · exact Or.inl (Or.inl h)
        rcases List.mem_cons.mp hl2 with rfl | hl2
        · exact Or.inl (Or.inr h)
        · exact Or.inr ⟨l2, hl2, h⟩
  rw [this, List.mem_nil_iff]
  simp

lemma insertByKey_mem (key : Move → ℕ) (m x : Move) :
    ∀ l : List Move, x ∈ insertByKey key m l ↔ x ∈ l ∨ x = m := by
  intro l
  induction l with
  | nil => simp [insertByKey]
  | cons a l ih =>
    unfold insertByKey
    by_cases h : key a ≤ key m
    · rw [if_pos h]
      rw [List.mem_cons, ih, List.mem_cons]
      tauto
    · rw [if_neg h]
      simp only [List.mem_cons]
      tauto

lemma stableSortByKey_mem (key : Move → ℕ) (l : List Move) (x : Move) :
    x ∈ stableSortByKey key l ↔ x ∈ l := by
  unfold stableSortByKey
  have : ∀ (l : List Move) (acc : List Move),
      x ∈ l.foldl (fun acc m => insertByKey key m acc) acc ↔
        x ∈ acc ∨ x ∈ l := by
    intro l
    induction l with
    | nil => intro acc; simp
    | cons a l ih =>
      intro acc
      rw [List.foldl_cons, ih, insertByKey_mem]
      simp only [List.mem_cons]
      tauto
  rw [this, List.mem_nil_iff]
  simp

lemma centerTake_subset {b : Board} {legal : List Move} {k : ℕ} {m : Move}
    (hm : m ∈ centerTake b legal k) : m ∈ legal := by
  unfold centerTake at hm
  exact (stableSortByKey_mem _ _ _).mp (List.mem_of_mem_take hm)

/-- Every solver candidate lies on the board (boards of size ≥ 1). -/
lemma solverCandidates_bounds {b : Board} {p : Player} {fb : ℕ} {m : Move}
    (hn : 1 ≤ getBoardSize b) (hm : m ∈ solverCandidates b p fb) :
    m.1 < getBoardSize b ∧ m.2 < getBoardSize b := by
  simp only [solverCandidates] at hm
  split at hm
  · have := mem_pm_bounds (centerTake_subset hm) hn
    exact ⟨this.1, this.2.1⟩
  · rw [dedupUnion_mem] at hm
    obtain ⟨l, hl, hml⟩ := hm
    rcases List.mem_cons.mp hl with rfl | hl
    · have := mem_findThreats hml
      exact ⟨this.1, this.2.1⟩
    rcases List.mem_cons.mp hl with rfl | hl
    · unfold listOpenThreeMakers at hml
      have := mem_pm_bounds (List.mem_of_mem_filter hml) hn
      exact ⟨this.1, this.2.1⟩
    rcases List.mem_cons.mp hl with rfl | hl
    · unfold winningMovesFor at hml
      have := mem_pm_bounds (List.mem_of_mem_filter hml) hn
      exact ⟨this.1, this.2.1⟩
    · cases hl

lemma listThreatCandidates_bounds {b : Board} {p : Player} {m : Move}
    (hm : m ∈ listThreatCandidates b p) :
    m.1 < getBoardSize b ∧ m.2 < getBoardSize b := by
  unfold listThreatCandidates at hm
  have := List.of_mem_filter hm
  simp only [Bool.and_eq_true, decide_eq_true_eq] at this
  exact ⟨this.1.1, this.1.2⟩

/-! ## `winningMovesFor` -/

lemma mem_winningMovesFor {b : Board} {p : Player} {x : Move} :
    x ∈ winningMovesFor b p ↔
      x ∈ getPossibleMoves b 1 ∧ fiveAfter b p x = true := by
  unfold winningMovesFor
  rw [List.mem_filter]

lemma winningMovesFor_nodup (b : Board) (p : Player) :
    (winningMovesFor b p).Nodup :=
  List.Nodup.filter _ (getPossibleMoves_nodup b 1)

/-- Every five-completing empty on-board cell is adjacent to a stone and
therefore found by the radius-1 scan: `winningMovesFor` is complete. -/
lemma fiveAfter_mem_possible {b : Board} (hwf : Wf b) {p : Player} {x : Move}
    (hx1 : x.1 < getBoardSize b) (hx2 : x.2 < getBoardSize b)
    (hemp : getCell b x.1 x.2 = none) (hfive : fiveAfter b p x = true) :
    x ∈ getPossibleMoves b 1 := by
  unfold fiveAfter checkWin at hfive
  rw [List.any_eq_true] at hfive
  obtain ⟨d, hd, hcount⟩ := hfive
  rw [decide_eq_true_eq] at hcount
  have hprops : ∀ d ∈ winDirs,
      (d.1.1 ≠ 0 ∨ d.1.2 ≠ 0) ∧ (d.2.1 ≠ 0 ∨ d.2.2 ≠ 0) ∧
      d.1.1.natAbs ≤ 1 ∧ d.1.2.natAbs ≤ 1 ∧
      d.2.1.natAbs ≤ 1 ∧ d.2.2.natAbs ≤ 1 := by decide
  obtain ⟨hdz1, hdz2, ha1, ha2, ha3, ha4⟩ := hprops d hd
  have hone : 1 ≤ runLen (place b p x) p x.1 x.2 d.1.1 d.1.2 4 ∨
      1 ≤ runLen (place b p x) p x.1 x.2 d.2.1 d.2.2 4 := by omega
  have key : ∀ (dr dc : ℤ), (dr ≠ 0 ∨ dc ≠ 0) → dr.natAbs ≤ 1 → dc.natAbs ≤ 1 →
      cellAt (place b p x) ((x.1 : ℤ) + dr) ((x.2 : ℤ) + dc) = .occ p →
      x ∈ getPossibleMoves b 1 := by
    intro dr dc hz h1 h2 hocc
    obtain ⟨xr, xc⟩ := x
    rw [cellAt_place hwf p hx1 hx2] at hocc
    rw [if_neg (by rintro ⟨ha, hb⟩; rcases hz with hz | hz <;> omega)] at hocc
    obtain ⟨hb1, hb2, hb3, hb4, hb5⟩ := cellAt_occ_elim hocc
    have hst : hasStonesB b = true := (hasStonesB_iff b).mpr
      ⟨(((xr : ℤ) + dr).toNat, ((xc : ℤ) + dc).toNat), by omega, by omega,
        by rw [hb5]; rfl⟩
    rw [getPossibleMoves_mem_stones hst]
    refine ⟨hx1, hx2, hemp,
      (((xr : ℤ) + dr).toNat, ((xc : ℤ) + dc).toNat), by omega, by omega,
      by rw [hb5]; rfl, by omega, by omega⟩
  rcases hone with hone | hone
  · exact key d.1.1 d.1.2 hdz1 ha1 ha2 (runLen_pos_first hone)
  · exact key d.2.1 d.2.2 hdz2 ha3 ha4 (runLen_pos_first hone)

lemma winningMovesFor_complete {b : Board} (hwf : Wf b) {p : Player}
    {x : Move} (hx1 : x.1 < getBoardSize b) (hx2 : x.2 < getBoardSize b)
    (hemp : getCell b x.1 x.2 = none) (hfive : fiveAfter b p x = true) :
    x ∈ winningMovesFor b p :=
  mem_winningMovesFor.mpr ⟨fiveAfter_mem_possible hwf hx1 hx2 hemp hfive, hfive⟩

/-! ## Legality and the weakened forcing semantics (C5) -/

lemma getOpponent_ne (p : Player) : getOpponent p ≠ p := by
  cases p <;> decide

lemma isForbiddenMove_not_black {b : Board} {p : Player} (h : p ≠ .black)
    (m : Move) : isForbiddenMove b p m = false := by
  unfold isForbiddenMove
  rw [if_pos h]

/-- A five-completing move is never forbidden (the five override). -/
lemma isForbiddenMove_five {b : Board} {p : Player} {m : Move}
    (h : fiveAfter b p m = true) : isForbiddenMove b p m = false := by
  unfold isForbiddenMove
  by_cases hp : p ≠ .black
  · rw [if_pos hp]
  · rw [if_neg hp]
    by_cases hc : (getCell b m.1 m.2).isSome = true
    · rw [if_pos hc]
    · rw [if_neg hc, if_pos (show checkWin (place b p m) p m = true from h)]

/-- A candidate that passes the two guards of the DFS body is legal. -/
lemma legalFor_of_guards {b : Board} {p : Player} {m : Move}
    (hb1 : m.1 < getBoardSize b) (hb2 : m.2 < getBoardSize b)
    (hocc : ¬ (getCell b m.1 m.2).isSome = true)
    (hforb : ¬ ((decide (p = .black) && isForbiddenMove b p m) = true)) :
    legalFor b p m := by
  have hemp : getCell b m.1 m.2 = none := by
    rcases hgc : getCell b m.1 m.2 with _ | q
    · rfl
    · exact absurd (by rw [hgc]; rfl) hocc
  refine ⟨hb1, hb2, hemp, ?_⟩
  by_cases hp : p = .black
  · subst hp
    rw [Bool.and_eq_true, decide_eq_true_eq] at hforb
    push_neg at hforb
    exact Bool.eq_false_iff.mpr (hforb rfl)
  · exact isForbiddenMove_not_black hp m

lemma legalFor_of_winning {b : Board} (hn : 1 ≤ getBoardSize b) {p : Player}
    {w : Move} (hw : w ∈ winningMovesFor b p) : legalFor b p w := by
  obtain ⟨hpm, hfive⟩ := mem_winningMovesFor.mp hw
  obtain ⟨h1, h2, h3⟩ := mem_pm_bounds hpm hn
  exact ⟨h1, h2, h3, isForbiddenMove_five hfive⟩

/-- An available winning square forces within one own move. -/
lemma canForceW_of_winning {b : Board} (hn : 1 ≤ getBoardSize b) {p : Player}
    {w : Move} (hw : w ∈ winningMovesFor b p) (k : ℕ) :
    CanForceW (k + 1) b p :=
  ⟨w, legalFor_of_winning hn hw, Or.inl (mem_winningMovesFor.mp hw).2⟩

/-- A winning square of `p` survives any opponent move elsewhere. -/
lemma winning_survives {b : Board} (hwf : Wf b) (hn : 1 ≤ getBoardSize b)
    {p : Player} {w e : Move} (hw : w ∈ winningMovesFor b p)
    (he1 : e.1 < getBoardSize b) (he2 : e.2 < getBoardSize b)
    (hee : getCell b e.1 e.2 = none) (hne : w ≠ e) :
    w ∈ winningMovesFor (place b (getOpponent p) e) p := by
  obtain ⟨hpm, hfive⟩ := mem_winningMovesFor.mp hw
  obtain ⟨h1, h2, h3⟩ := mem_pm_bounds hpm hn
  have hsz := getBoardSize_place b (getOpponent p) e
  apply winningMovesFor_complete (Wf_place hwf (getOpponent p) e)
    (by rw [hsz]; exact h1) (by rw [hsz]; exact h2)
  · obtain ⟨er, ec⟩ := e
    rw [getCell_place hwf (getOpponent p) he1 he2 w.1 w.2,
      if_neg (by rintro ⟨ha, hb⟩; exact hne (Prod.ext_iff.mpr ⟨ha, hb⟩))]
    exact h3
  · rw [fiveAfter_place_other hwf (getOpponent_ne p) he1 he2 hee h1 h2 hne]
    exact hfive

/-- After a non-blocking legal reply `e`, `p` still forces at once. -/
lemma canForceW_reply {b : Board} (hwf : Wf b) (hn : 1 ≤ getBoardSize b)
    {p : Player} {w e : Move} (hw : w ∈ winningMovesFor b p)
    (he : legalFor b (getOpponent p) e) (hne : w ≠ e) (k : ℕ) :
    CanForceW (k + 1) (place b (getOpponent p) e) p :=
  canForceW_of_winning
    (by rw [getBoardSize_place]; exact hn)
    (winning_survives hwf hn hw he.1 he.2.1 he.2.2.1 hne) k

lemma canForceW_mono : ∀ {k k' : ℕ}, k ≤ k' → ∀ {b : Board} {p : Player},
    CanForceW k b p → CanForceW k' b p := by
  intro k
  induction k with
  | zero => intro k' _ b p h; exact False.elim h
  | succ k ih =>
    intro k' hk b p h
    obtain ⟨k'', rfl⟩ : ∃ k'', k' = k'' + 1 := ⟨k' - 1, by omega⟩
    obtain ⟨m, hm, hrest⟩ := h
    refine ⟨m, hm, ?_⟩
    rcases hrest with hfive | hall
    · exact Or.inl hfive
    · refine Or.inr fun e he => ?_
      rcases hall e he with hfe | hcf
      · exact Or.inl hfe
      · exact Or.inr (ih (by omega) hcf)

/-- In a nodup list of length ≥ 2 some element differs from `e`. -/
lemma exists_ne_of_two_le_length {l : List Move} (hl : l.Nodup)
    (h2 : 2 ≤ l.length) (e : Move) : ∃ w ∈ l, w ≠ e := by
  rcases l with _ | ⟨a, _ | ⟨b', l⟩⟩
  · simp at h2
  · simp at h2
  · by_cases hae : a = e
    · subst hae
      refine ⟨b', by simp, ?_⟩
      intro hb; subst hb
      exact (List.nodup_cons.mp hl).1 (List.mem_cons_self _ _)
    · exact ⟨a, by simp, hae⟩

/-- Soundness of the forcing DFS in the weakened semantics. -/
lemma dfs_sound : ∀ (d : ℕ) (b : Board) (p : Player), Wf b →
    1 ≤ getBoardSize b → forcedWinDFS d b p = true → CanForceW (d + 1) b p := by
  intro d
  induction d with
  | zero =>
    intro b p _ _ h
    exact absurd h (by simp [forcedWinDFS])
  | succ d ih =>
    intro b p hwf hn h
    unfold forcedWinDFS at h
    simp only [List.any_eq_true] at h
    obtain ⟨m, hmmem, hm⟩ := h
    have hbounds := solverCandidates_bounds hn hmmem
    by_cases hocc : (getCell b m.1 m.2).isSome = true
    · rw [if_pos hocc] at hm; exact absurd hm (by decide)
    rw [if_neg hocc] at hm
    by_cases hforb : (decide (p = .black) && isForbiddenMove b p m) = true
    · rw [if_pos hforb] at hm; exact absurd hm (by decide)
    rw [if_neg hforb] at hm
    have hleg : legalFor b p m :=
      legalFor_of_guards hbounds.1 hbounds.2 hocc hforb
    refine ⟨m, hleg, ?_⟩
    by_cases hfive : checkWin (place b p m) p m = true
    · exact Or.inl hfive
    rw [if_neg hfive] at hm
    refine Or.inr fun e he => ?_
    by_cases hef : fiveAfter (place b p m) (getOpponent p) e = true
    · exact Or.inl hef
    refine Or.inr ?_
    have hwf1 : Wf (place b p m) := Wf_place hwf p m
    have hn1 : 1 ≤ getBoardSize (place b p m) := by
      rw [getBoardSize_place]; exact hn
    by_cases hdbl : 2 ≤ (winningMovesFor (place b p m) p).length
    · obtain ⟨w, hw, hwe⟩ := exists_ne_of_two_le_length
        (winningMovesFor_nodup _ _) hdbl e
      exact canForceW_reply hwf1 hn1 hw he hwe d
    rw [if_neg hdbl] at hm
    rcases hwm : winningMovesFor (place b p m) p with _ | ⟨w, _ | ⟨w2, ws⟩⟩
    · rw [hwm] at hm
      have hm' : false = true := hm
      exact absurd hm' (by decide)
    · rw [hwm] at hm
      have hm' : forcedWinDFS d
          (place (place b p m) (getOpponent p) w) p = true := hm
      by_cases hew : e = w
      · subst hew
        exact ih _ p (Wf_place hwf1 (getOpponent p) e)
          (by rw [getBoardSize_place]; exact hn1) hm'
      · exact canForceW_reply hwf1 hn1
          (by rw [hwm]; exact List.mem_cons_self w [])
          he (fun hh => hew hh.symm) d
    · exfalso
      apply hdbl
      rw [hwm]
      simp only [List.length_cons]
      omega

/-- **C5** (amended).  On a well-formed nonempty board, any move returned
by `findForcedWinFirstMove` at depth `maxDepth` starts a continuation in
which the player forces a five within `maxDepth + 1` own moves against
any legal defense, in the weakened semantics `MoveForcesW` in which a
defensive reply that itself completes a five for the defender ends the
line (the solver does not check the defender's counter-fives). -/
theorem findForcedWin_sound {b : Board} {p : Player} {maxDepth : ℕ} {m : Move}
    (hwf : Wf b) (hn : 1 ≤ getBoardSize b)
    (h : findForcedWinFirstMove b p maxDepth = some m) :
    MoveForcesW (maxDepth + 1) b p m := by
  unfold findForcedWinFirstMove at h
  have hmem := List.mem_of_find?_eq_some h
  have hok := List.find?_some h
  have hbounds := solverCandidates_bounds hn hmem
  unfold ffwMoveOk at hok
  by_cases hocc : (getCell b m.1 m.2).isSome = true
  · rw [if_pos hocc] at hok; exact absurd hok (by decide)
  rw [if_neg hocc] at hok
  by_cases hforb : (decide (p = .black) && isForbiddenMove b p m) = true
  · rw [if_pos hforb] at hok; exact absurd hok (by decide)
  rw [if_neg hforb] at hok
  have hleg : legalFor b p m :=
    legalFor_of_guards hbounds.1 hbounds.2 hocc hforb
  refine ⟨hleg, ?_⟩
  by_cases hfive : checkWin (place b p m) p m = true
  · exact Or.inl hfive
  rw [if_neg hfive] at hok
  refine Or.inr fun e he => ?_
  by_cases hef : fiveAfter (place b p m) (getOpponent p) e = true
  · exact Or.inl hef
  refine Or.inr ?_
  have hwf1 : Wf (place b p m) := Wf_place hwf p m
  have hn1 : 1 ≤ getBoardSize (place b p m) := by
    rw [getBoardSize_place]; exact hn
  by_cases hdbl : 2 ≤ (winningMovesFor (place b p m) p).length
  · obtain ⟨w, hw, hwe⟩ := exists_ne_of_two_le_length
      (winningMovesFor_nodup _ _) hdbl e
    exact canForceW_reply hwf1 hn1 hw he hwe maxDepth
  rw [if_neg hdbl] at hok
  cases maxDepth with
  | zero => exact absurd (show false = true from hok) (by decide)
  | succ d =>
    rcases hwm : winningMovesFor (place b p m) p with _ | ⟨w, _ | ⟨w2, ws⟩⟩
    · rw [hwm] at hok
      exact absurd (show false = true from hok) (by decide)
    · rw [hwm] at hok
      have hok' : forcedWinDFS d
          (place (place b p m) (getOpponent p) w) p = true := hok
      by_cases hew : e = w
      · subst hew
        exact canForceW_mono (by omega)
          (dfs_sound d _ p (Wf_place hwf1 (getOpponent p) e)
            (by rw [getBoardSize_place]; exact hn1) hok')
      · exact canForceW_reply hwf1 hn1
          (by rw [hwm]; exact List.mem_cons_self w [])
          he (fun hh => hew hh.symm) (d + 1)
    · exfalso
      apply hdbl
      rw [hwm]
      simp only [List.length_cons]
      omega

set_option maxRecDepth 8000 in
/-- **C5** counterexample to the unamended claim: on `b6` the solver at
depth 1 returns the open-three extension `(1,4)`, but that move does not
force a five against every legal defense — White's legal reply `(3,4)`
completes a White five at once. -/
theorem forcedWin_counterexample :
    findForcedWinFirstMove b6 .black 1 = some (1, 4) ∧
    ¬ MoveForces 2 b6 .black (1, 4) := by
  refine ⟨by decide, ?_⟩
  rintro ⟨-, hfive | hall⟩
  · exact absurd hfive (by decide)
  · have h := hall (3, 4) (by decide)
    exact absurd h.1 (by decide)

/-- Witness: the amended C5 theorem applied on the concrete board `bW5`
where the solver returns the five-completing move `(0,4)`. -/
theorem findForcedWin_sound_witness :
    Wf bW5 ∧ 1 ≤ getBoardSize bW5 ∧
    findForcedWinFirstMove bW5 .black 0 = some (0, 4) ∧
    MoveForcesW 1 bW5 .black (0, 4) :=
  ⟨by decide, by decide, by decide,
   findForcedWin_sound (by decide) (by decide) (by decide)⟩

lemma segCells_get (b : Board) (r c dr dc s : ℤ) (len i : ℕ) (hi : i < len) :
    (segCells b r c dr dc s len)[i]? =
      some (cellAt b (r + (s + (i : ℤ)) * dr) (c + (s + (i : ℤ)) * dc)) := by
  unfold segCells
  rw [List.getElem?_map, List.getElem?_range hi]
  rfl

/-- A 6-cell window whose first or last cell is the (occupied) placed
stone fails the empty-ends test. -/
lemma openThreeWindowAt_stone_end {b : Board} {p : Player} {r c dr dc : ℤ}
    (hocc : cellAt b r c = .occ p) :
    openThreeWindowAt b p r c dr dc 0 = false ∧
    openThreeWindowAt b p r c dr dc (-5) = false := by
  constructor
  · have hg : (segCells b r c dr dc 0 6)[0]? = some (.occ p) := by
      rw [segCells_get b r c dr dc 0 6 0 (by omega)]
      norm_num
      rw [hocc]
    unfold openThreeWindowAt
    simp [hg]
  · have hg : (segCells b r c dr dc (-5) 6)[5]? = some (.occ p) := by
      rw [segCells_get b r c dr dc (-5) 6 5 (by omega)]
      norm_num
      rw [hocc]
    unfold openThreeWindowAt
    simp [hg]

/-- With the placed stone on the scanned cell, the source's `idxMove`
guard is redundant: a window putting the placed stone at an end fails
the empty-ends test anyway. -/
lemma hasOpenThree_unguarded {b : Board} {p : Player} {r c dr dc : ℤ}
    (hocc : cellAt b r c = .occ p) :
    hasOpenThreeInDirection b p r c dr dc =
      (List.range 6).any fun (k : ℕ) =>
        openThreeWindowAt b p r c dr dc ((k : ℤ) - 5) := by
  unfold hasOpenThreeInDirection
  rw [Bool.eq_iff_iff]
  simp only [List.any_eq_true, List.mem_range, Bool.and_eq_true,
    decide_eq_true_eq]
  constructor
  · rintro ⟨k, hk, _, hw⟩
    exact ⟨k, hk, hw⟩
  · rintro ⟨k, hk, hw⟩
    have hk0 : k ≠ 0 := by
      rintro rfl
      rw [show ((0 : ℕ) : ℤ) - 5 = -5 by norm_num,
        (openThreeWindowAt_stone_end hocc).2] at hw
      exact absurd hw (by decide)
    have hk5 : k ≠ 5 := by
      rintro rfl
      rw [show ((5 : ℕ) : ℤ) - 5 = 0 by norm_num,
        (openThreeWindowAt_stone_end hocc).1] at hw
      exact absurd hw (by decide)
    exact ⟨k, hk, by omega, hw⟩

/-- **C3**.  For a well-formed board and an empty on-board cell:
`isForbiddenMove` is identically false for White; for Black it is false
when the placement completes a five; and otherwise it is true exactly
when the placement creates claim-style open threes in at least two of
the four line directions or fours in at least two of the four line
directions. -/
theorem isForbiddenMove_characterization {b : Board} (hwf : Wf b) {m : Move}
    (h1 : m.1 < getBoardSize b) (h2 : m.2 < getBoardSize b)
    (hemp : getCell b m.1 m.2 = none) :
    isForbiddenMove b .white m = false ∧
    (fiveAfter b .black m = true → isForbiddenMove b .black m = false) ∧
    (fiveAfter b .black m = false →
      (isForbiddenMove b .black m = true ↔
        2 ≤ lineDirs.countP (fun d =>
          specOpenThreeDir (place b .black m) (m.1 : ℤ) (m.2 : ℤ) d.1 d.2) ∨
        2 ≤ lineDirs.countP (fun d =>
          hasFourInDirection (place b .black m) .black
            (m.1 : ℤ) (m.2 : ℤ) d.1 d.2))) := by
  obtain ⟨mr, mc⟩ := m
  refine ⟨isForbiddenMove_not_black (by decide) _, isForbiddenMove_five, ?_⟩
  intro hnf
  have hocc : cellAt (place b .black (mr, mc)) (mr : ℤ) (mc : ℤ) =
      .occ .black := by
    rw [cellAt_place hwf .black h1 h2, if_pos ⟨rfl, rfl⟩]
  have hfun : (fun d : ℤ × ℤ => hasOpenThreeInDirection
        (place b .black (mr, mc)) .black (mr : ℤ) (mc : ℤ) d.1 d.2) =
      fun d => specOpenThreeDir (place b .black (mr, mc))
        (mr : ℤ) (mc : ℤ) d.1 d.2 := by
    funext d
    exact hasOpenThree_unguarded hocc
  unfold isForbiddenMove
  rw [if_neg (by simp), if_neg (by rw [hemp]; simp),
    if_neg (by rw [show checkWin (place b .black (mr, mc)) .black (mr, mc) =
      fiveAfter b .black (mr, mc) from rfl, hnf]; simp)]
  unfold createsDoubleOpenThree createsDoubleFour
  rw [hfun, Bool.or_eq_true, decide_eq_true_eq, decide_eq_true_eq]

/-- Witness: the C3 characterization applied at the concrete 3-3 cell
`(4,4)` of `b9`. -/
theorem isForbiddenMove_characterization_witness :
    Wf b9 ∧ (4, 4).1 < getBoardSize b9 ∧ (4, 4).2 < getBoardSize b9 ∧
    getCell b9 4 4 = none ∧
    (isForbiddenMove b9 .white (4, 4) = false ∧
    (fiveAfter b9 .black (4, 4) = true →
      isForbiddenMove b9 .black (4, 4) = false) ∧
    (fiveAfter b9 .black (4, 4) = false →
      (isForbiddenMove b9 .black (4, 4) = true ↔
        2 ≤ lineDirs.countP (fun d =>
          specOpenThreeDir (place b9 .black (4, 4)) 4 4 d.1 d.2) ∨
        2 ≤ lineDirs.countP (fun d =>
          hasFourInDirection (place b9 .black (4, 4)) .black
            4 4 d.1 d.2)))) :=
  ⟨by decide, by decide, by decide, by decide,
   isForbiddenMove_characterization (by decide) (by decide) (by decide)
     (by decide)⟩

/-! ## Symmetry equivariance of move generation (C6) -/

lemma transformRC_bounds (t : TransformId) {n : ℕ} {m : Move}
    (h1 : m.1 < n) (h2 : m.2 < n) :
    (transformRC t n m).1 < n ∧ (transformRC t n m).2 < n := by
  obtain ⟨r, c⟩ := m
  fin_cases t <;> simp only [transformRC] <;> exact ⟨by omega, by omega⟩

lemma transformRC_invT (t : TransformId) {n : ℕ} {m : Move}
    (h1 : m.1 < n) (h2 : m.2 < n) :
    transformRC t n (transformRC (invT t) n m) = m := by
  obtain ⟨r, c⟩ := m
  fin_cases t <;> simp only [transformRC, invT] <;>
    exact Prod.ext_iff.mpr ⟨by omega, by omega⟩

lemma transformRC_invT' (t : TransformId) {n : ℕ} {m : Move}
    (h1 : m.1 < n) (h2 : m.2 < n) :
    transformRC (invT t) n (transformRC t n m) = m := by
  obtain ⟨r, c⟩ := m
  fin_cases t <;> simp only [transformRC, invT] <;>
    exact Prod.ext_iff.mpr ⟨by omega, by omega⟩

/-- Every transform preserves the Chebyshev-ball membership test of
`getPossibleMoves` (the coordinate differences are permuted and negated
only). -/
lemma cheb_transformRC (t : TransformId) {n : ℕ} {x s : Move}
    (hx1 : x.1 < n) (hx2 : x.2 < n) (hs1 : s.1 < n) (hs2 : s.2 < n)
    (radius : ℕ) :
    ((((transformRC t n x).1 : ℤ) - ((transformRC t n s).1 : ℤ)).natAbs ≤
        radius ∧
     (((transformRC t n x).2 : ℤ) - ((transformRC t n s).2 : ℤ)).natAbs ≤
        radius) ↔
    (((x.1 : ℤ) - (s.1 : ℤ)).natAbs ≤ radius ∧
     ((x.2 : ℤ) - (s.2 : ℤ)).natAbs ≤ radius) := by
  obtain ⟨xr, xc⟩ := x
  obtain ⟨sr, sc⟩ := s
  fin_cases t <;> simp only [transformRC] <;>
    (constructor <;> (rintro ⟨ha, hb⟩; constructor <;> omega))

lemma getBoardSize_transformBoard (b : Board) (t : TransformId) :
    getBoardSize (transformBoard b t) = getBoardSize b := by
  unfold transformBoard getBoardSize
  simp

lemma Wf_transformBoard (b : Board) (t : TransformId) :
    Wf (transformBoard b t) := by
  intro row hrow
  unfold transformBoard at hrow ⊢
  simp only [List.mem_map] at hrow
  obtain ⟨r, _, hr⟩ := hrow
  rw [← hr]
  simp

lemma getCell_transformBoard (b : Board) (t : TransformId) {r c : ℕ}
    (h1 : r < getBoardSize b) (h2 : c < getBoardSize b) :
    getCell (transformBoard b t) r c =
      getCell b (transformRC (invT t) (getBoardSize b) (r, c)).1
        (transformRC (invT t) (getBoardSize b) (r, c)).2 := by
  simp only [transformBoard, getCell, List.get?_map, List.get?_range h1,
    List.get?_range h2, Option.map_some']

lemma hasStonesB_transformBoard (b : Board) (t : TransformId) :
    hasStonesB (transformBoard b t) = hasStonesB b := by
  rw [Bool.eq_iff_iff, hasStonesB_iff, hasStonesB_iff]
  constructor
  · rintro ⟨s, h1, h2, h3⟩
    rw [getBoardSize_transformBoard] at h1 h2
    rw [getCell_transformBoard b t h1 h2] at h3
    exact ⟨transformRC (invT t) (getBoardSize b) (s.1, s.2),
      (transformRC_bounds (invT t) h1 h2).1,
      (transformRC_bounds (invT t) h1 h2).2, h3⟩
  · rintro ⟨s, h1, h2, h3⟩
    have hb := transformRC_bounds t h1 h2
    refine ⟨transformRC t (getBoardSize b) s, ?_, ?_, ?_⟩
    · rw [getBoardSize_transformBoard]; exact hb.1
    · rw [getBoardSize_transformBoard]; exact hb.2
    · rw [getCell_transformBoard b t hb.1 hb.2]
      rw [show ((transformRC t (getBoardSize b) s).1,
          (transformRC t (getBoardSize b) s).2) =
          transformRC t (getBoardSize b) s from rfl,
        transformRC_invT' t h1 h2]
      exact h3

/-- For odd `n` the centre cell is a fixed point of every transform. -/
lemma transformRC_center (t : TransformId) {n : ℕ} (hodd : n % 2 = 1) :
    transformRC t n (n / 2, n / 2) = (n / 2, n / 2) := by
  fin_cases t <;> simp only [transformRC] <;>
    exact Prod.ext_iff.mpr ⟨by omega, by omega⟩

/-- **C6** (amended).  For a well-formed board that has at least one
stone or odd size, move generation commutes with each of the eight
symmetry transforms: the legal-move set of the transformed board is the
transform image of the legal-move set; and on a stoneless board the
result is the single centre cell. -/
theorem getPossibleMoves_equivariant {b : Board} (hwf : Wf b)
    (t : TransformId) (radius : ℕ)
    (hst : hasStonesB b = true ∨ getBoardSize b % 2 = 1) :
    (∀ x, x ∈ getPossibleMoves (transformBoard b t) radius ↔
       x ∈ (getPossibleMoves b radius).map
         (transformRC t (getBoardSize b))) ∧
    (hasStonesB b = false →
      getPossibleMoves b radius =
        [(getBoardSize b / 2, getBoardSize b / 2)]) := by
  refine ⟨?_, fun h => getPossibleMoves_no_stones h radius⟩
  intro x
  rw [List.mem_map]
  cases hstones : hasStonesB b
  · have hodd : getBoardSize b % 2 = 1 := by
      rcases hst with h | h
      · rw [hstones] at h; cases h
      · exact h
    have hst' : hasStonesB (transformBoard b t) = false := by
      rw [hasStonesB_transformBoard, hstones]
    rw [getPossibleMoves_no_stones hst', getPossibleMoves_no_stones hstones,
      getBoardSize_transformBoard]
    constructor
    · intro hx
      rcases List.mem_singleton.mp hx with rfl
      exact ⟨(getBoardSize b / 2, getBoardSize b / 2), List.mem_singleton_self _,
        transformRC_center t hodd⟩
    · rintro ⟨y, hy, rfl⟩
      rcases List.mem_singleton.mp hy with rfl
      rw [transformRC_center t hodd]
      exact List.mem_singleton_self _
  · have hst' : hasStonesB (transformBoard b t) = true := by
      rw [hasStonesB_transformBoard, hstones]
    rw [getPossibleMoves_mem_stones hst' radius x]
    rw [getBoardSize_transformBoard]
    constructor
    · rintro ⟨hx1, hx2, hxe, s', hs1, hs2, hsome, hch1, hch2⟩
      rw [getCell_transformBoard b t hx1 hx2] at hxe
      rw [getCell_transformBoard b t hs1 hs2] at hsome
      have hxb := transformRC_bounds (invT t) hx1 hx2
      have hsb := transformRC_bounds (invT t) hs1 hs2
      refine ⟨transformRC (invT t) (getBoardSize b) (x.1, x.2), ?_, ?_⟩
      · rw [getPossibleMoves_mem_stones hstones radius]
        refine ⟨hxb.1, hxb.2, hxe,
          transformRC (invT t) (getBoardSize b) (s'.1, s'.2),
          hsb.1, hsb.2, hsome, ?_⟩
        exact (cheb_transformRC (invT t) hx1 hx2 hs1 hs2 radius).mpr
          ⟨hch1, hch2⟩
      · rw [show ((x.1 : ℕ), (x.2 : ℕ)) = x from rfl]
        exact transformRC_invT t hx1 hx2
    · rintro ⟨y, hy, rfl⟩
      rw [getPossibleMoves_mem_stones hstones radius] at hy
      obtain ⟨hy1, hy2, hye, s, hs1, hs2, hsome, hch1, hch2⟩ := hy
      have hyb := transformRC_bounds t hy1 hy2
      have hsb := transformRC_bounds t hs1 hs2
      refine ⟨hyb.1, hyb.2, ?_, transformRC t (getBoardSize b) s,
        hsb.1, hsb.2, ?_, ?_⟩
      · rw [getCell_transformBoard b t hyb.1 hyb.2,
          show ((transformRC t (getBoardSize b) y).1,
            (transformRC t (getBoardSize b) y).2) =
            transformRC t (getBoardSize b) y from rfl,
          transformRC_invT' t hy1 hy2]
        exact hye
      · rw [getCell_transformBoard b t hsb.1 hsb.2,
          show ((transformRC t (getBoardSize b) s).1,
            (transformRC t (getBoardSize b) s).2) =
            transformRC t (getBoardSize b) s from rfl,
          transformRC_invT' t hs1 hs2]
        exact hsome
      · exact (cheb_transformRC t hy1 hy2 hs1 hs2 radius).mpr
          ⟨hch1, hch2⟩

/-! ## The canonical symmetry key (C7) -/

lemma lexLt_nil_right : ∀ a : List Char, lexLt a [] = false
  | [] => rfl
  | _ :: _ => rfl

lemma lexLt_irrefl : ∀ a : List Char, lexLt a a = false
  | [] => rfl
  | a :: as => by
    unfold lexLt
    rw [if_neg (lt_irrefl a), if_neg (lt_irrefl a)]
    exact lexLt_irrefl as

lemma lexLt_trans : ∀ (a b c : List Char),
    lexLt a b = true → lexLt b c = true → lexLt a c = true := by
  intro a
  induction a with
  | nil =>
    intro b c hab hbc
    cases c with
    | nil =>
      exfalso
      cases b with
      | nil => exact absurd hbc (by simp [lexLt])
      | cons y ys => exact absurd hbc (by simp [lexLt])
    | cons z zs => simp [lexLt]
  | cons x xs ih =>
    intro b c hab hbc
    cases b with
    | nil => exact absurd hab (by simp [lexLt])
    | cons y ys =>
      cases c with
      | nil => exact absurd hbc (by simp [lexLt])
      | cons z zs =>
        unfold lexLt at hab hbc ⊢
        by_cases hxy : x < y
        · by_cases hyz : y < z
          · rw [if_pos (lt_trans hxy hyz)]
          · rw [if_neg hyz] at hbc
            by_cases hzy : z < y
            · rw [if_pos hzy] at hbc
              exact absurd hbc (by decide)
            · have hyz' : y = z := le_antisymm (not_lt.mp hzy) (not_lt.mp hyz)
              rw [if_pos (hyz' ▸ hxy)]
        · rw [if_neg hxy] at hab
          by_cases hyx : y < x
          · rw [if_pos hyx] at hab
            exact absurd hab (by decide)
          · rw [if_neg hyx] at hab
            have hxy' : x = y := le_antisymm (not_lt.mp hyx) (not_lt.mp hxy)
            subst hxy'
            by_cases hxz : x < z
            · rw [if_pos hxz]
            · rw [if_neg hxz] at hbc ⊢
              by_cases hzx : z < x
              · rw [if_pos hzx] at hbc
                exact absurd hbc (by decide)
              · rw [if_neg hzx] at hbc ⊢
                exact ih ys zs hab hbc

lemma lexLt_nlt_trans : ∀ (a b c : List Char),
    lexLt a b = false → lexLt b c = false → lexLt a c = false := by
  intro a
  induction a with
  | nil =>
    intro b c hab hbc
    cases b with
    | cons y ys => exact absurd hab (by simp [lexLt])
    | nil =>
      cases c with
      | nil => rfl
      | cons z zs => exact absurd hbc (by simp [lexLt])
  | cons x xs ih =>
    intro b c hab hbc
    cases c with
    | nil => exact lexLt_nil_right _
    | cons z zs =>
      cases b with
      | nil => exact absurd hbc (by simp [lexLt])
      | cons y ys =>
        unfold lexLt at hab hbc ⊢
        by_cases hxy : x < y
        · rw [if_pos hxy] at hab
          exact absurd hab (by decide)
        · rw [if_neg hxy] at hab
          by_cases hyz : y < z
          · rw [if_pos hyz] at hbc
            exact absurd hbc (by decide)
          · rw [if_neg hyz] at hbc
            have hnxz : ¬ x < z := by
              intro h
              exact absurd
                (lt_of_lt_of_le h (le_trans (not_lt.mp hyz) (not_lt.mp hxy)))
                (lt_irrefl x)
            rw [if_neg hnxz]
            by_cases hzx : z < x
            · rw [if_pos hzx]
            · rw [if_neg hzx]
              have hxley : x ≤ y := le_trans (not_lt.mp hzx) (not_lt.mp hyz)
              have hyx : y = x := le_antisymm (not_lt.mp hxy) hxley
              subst hyx
              rw [if_neg (lt_irrefl y)] at hab
              rw [if_neg hzx] at hbc
              exact ih ys zs hab hbc

lemma lexLt_antisymm : ∀ (a b : List Char),
    lexLt a b = false → lexLt b a = false → a = b := by
  intro a
  induction a with
  | nil =>
    intro b hab _
    cases b with
    | nil => rfl
    | cons y ys => exact absurd hab (by simp [lexLt])
  | cons x xs ih =>
    intro b hab hba
    cases b with
    | nil => exact absurd hba (by simp [lexLt])
    | cons y ys =>
      unfold lexLt at hab hba
      by_cases hxy : x < y
      · rw [if_pos hxy] at hab
        exact absurd hab (by decide)
      · rw [if_neg hxy] at hab
        by_cases hyx : y < x
        · rw [if_pos hyx] at hba
          exact absurd hba (by decide)
        · rw [if_neg hyx] at hab
          rw [if_neg hyx, if_neg hxy] at hba
          have hxy' : x = y := le_antisymm (not_lt.mp hyx) (not_lt.mp hxy)
          rw [hxy', ih ys hab hba]

lemma foldl_min_mem : ∀ (l : List (List Char)) (acc : List Char),
    l.foldl (fun best x => if lexLt x best then x else best) acc ∈ acc :: l := by
  intro l
  induction l with
  | nil => intro acc; exact List.mem_cons_self _ _
  | cons y l ih =>
    intro acc
    rw [List.foldl_cons]
    by_cases h : lexLt y acc = true
    · rw [if_pos h]
      exact List.mem_cons_of_mem _ (ih y)
    · rw [if_neg h]
      rcases List.mem_cons.mp (ih acc) with h' | h'
      · rw [h']
        exact List.mem_cons_self _ _
      · exact List.mem_cons_of_mem _ (List.mem_cons_of_mem _ h')

lemma foldl_min_lb : ∀ (l : List (List Char)) (acc : List Char) (x : List Char),
    x ∈ acc :: l →
    lexLt x (l.foldl (fun best y => if lexLt y best then y else best) acc)
      = false := by
  intro l
  induction l with
  | nil =>
    intro acc x hx
    rcases List.mem_cons.mp hx with rfl | hx
    · exact lexLt_irrefl x
    · exact absurd hx (List.not_mem_nil x)
  | cons y l ih =>
    intro acc x hx
    rw [List.foldl_cons]
    by_cases h : lexLt y acc = true
    · rw [if_pos h]
      rcases List.mem_cons.mp hx with hxe | hx'
      · rw [hxe]
        cases hxf : lexLt acc
            (l.foldl (fun best z => if lexLt z best then z else best) y)
        · rfl
        · exfalso
          have hyf := ih y y (List.mem_cons_self y l)
          have htr := lexLt_trans y acc _ h hxf
          rw [htr] at hyf
          exact absurd hyf (by decide)
      · rcases List.mem_cons.mp hx' with hxe | hx''
        · rw [hxe]
          exact ih y y (List.mem_cons_self _ _)
        · exact ih y x (List.mem_cons_of_mem _ hx'')
    · rw [if_neg h]
      have hfa := ih acc acc (List.mem_cons_self acc l)
      rcases List.mem_cons.mp hx with hxe | hx'
      · rw [hxe]
        exact hfa
      · rcases List.mem_cons.mp hx' with hxe | hx''
        · rw [hxe]
          have h' : lexLt y acc = false := by
            cases hb : lexLt y acc
            · rfl
            · exact absurd hb h
          exact lexLt_nlt_trans y acc _ h' hfa
        · exact ih acc x (List.mem_cons_of_mem _ hx'')

lemma minKeyFold_spec (l : List (List Char)) (hne : l ≠ []) :
    minKeyFold l ∈ l ∧ ∀ x ∈ l, lexLt x (minKeyFold l) = false := by
  cases l with
  | nil => exact absurd rfl hne
  | cons h rest =>
    unfold minKeyFold
    exact ⟨foldl_min_mem rest h, fun x hx => foldl_min_lb rest h x hx⟩

lemma minKeyFold_eq_of_same_mem {l l' : List (List Char)}
    (hne : l ≠ []) (hne' : l' ≠ [])
    (hsub : ∀ x ∈ l, x ∈ l') (hsub' : ∀ x ∈ l', x ∈ l) :
    minKeyFold l = minKeyFold l' := by
  obtain ⟨hm, hlb⟩ := minKeyFold_spec l hne
  obtain ⟨hm', hlb'⟩ := minKeyFold_spec l' hne'
  exact lexLt_antisymm _ _ (hlb' _ (hsub _ hm)) (hlb _ (hsub' _ hm'))

lemma invT_invT : ∀ s : TransformId, invT (invT s) = s := by decide

lemma getCell_row {b : Board} {r c : ℕ} {row : List (Option Player)}
    (hb : b[r]? = some row) :
    getCell b r c = (row[c]?).getD none := by
  have hb' : b.get? r = some row := by rw [List.get?_eq_getElem?]; exact hb
  rcases hc : row[c]? with _ | cell
  · have hc' : row.get? c = none := by rw [List.get?_eq_getElem?]; exact hc
    simp only [getCell, hb', hc', Option.getD_none]
  · have hc' : row.get? c = some cell := by rw [List.get?_eq_getElem?]; exact hc
    simp only [getCell, hb', hc', Option.getD_some]

/-- A well-formed board equals its cell table. -/
lemma board_eq_table {b : Board} (hwf : Wf b) :
    b = (List.range (getBoardSize b)).map fun r =>
      (List.range (getBoardSize b)).map fun c => getCell b r c := by
  apply List.ext_getElem?
  intro r
  rcases hb : b[r]? with _ | row
  · have hr : getBoardSize b ≤ r := by
      by_contra h
      push_neg at h
      rw [List.getElem?_eq_getElem h] at hb
      cases hb
    rw [eq_comm, List.getElem?_eq_none]
    simpa using hr
  · have hr : r < getBoardSize b := by
      by_contra h
      push_neg at h
      rw [List.getElem?_eq_none (by simpa using h)] at hb
      cases hb
    rw [List.getElem?_map, List.getElem?_range hr, Option.map_some']
    have hlen : row.length = getBoardSize b := hwf row (List.getElem?_mem hb)
    congr 1
    apply List.ext_getElem?
    intro c
    by_cases hc : c < getBoardSize b
    · rw [List.getElem?_map, List.getElem?_range hc, Option.map_some',
        List.getElem?_eq_getElem (by omega : c < row.length),
        getCell_row hb, List.getElem?_eq_getElem (by omega : c < row.length),
        Option.getD_some]
    · rw [List.getElem?_eq_none (by omega : row.length ≤ c), eq_comm,
        List.getElem?_eq_none]
      simp only [List.length_map, List.length_range]
      omega

lemma transformBoard_def (b : Board) (t : TransformId) :
    transformBoard b t = (List.range (getBoardSize b)).map fun r =>
      (List.range (getBoardSize b)).map fun c =>
        getCell b (transformRC (invT t) (getBoardSize b) (r, c)).1
          (transformRC (invT t) (getBoardSize b) (r, c)).2 := rfl

lemma transformBoard_zero {b : Board} (hwf : Wf b) :
    transformBoard b 0 = b :=
  (board_eq_table hwf).symm

/-- The eight transforms are closed under composition (stated for the
inverse maps, which is the form needed for `transformBoard`). -/
lemma transformRC_comp_exists (t s : TransformId) :
    ∃ u : TransformId, ∀ (n : ℕ) (x : Move), x.1 < n → x.2 < n →
      transformRC (invT s) n (transformRC (invT t) n x) =
        transformRC (invT u) n x := by
  fin_cases t <;> fin_cases s <;>
    ( first
      | (refine ⟨0, ?_⟩
         intro n x h1 h2
         obtain ⟨r, c⟩ := x
         simp only [transformRC, invT]
         all_goals exact Prod.ext_iff.mpr ⟨by omega, by omega⟩)
      | (refine ⟨1, ?_⟩
         intro n x h1 h2
         obtain ⟨r, c⟩ := x
         simp only [transformRC, invT]
         all_goals exact Prod.ext_iff.mpr ⟨by omega, by omega⟩)
      | (refine ⟨2, ?_⟩
         intro n x h1 h2
         obtain ⟨r, c⟩ := x
         simp only [transformRC, invT]
         all_goals exact Prod.ext_iff.mpr ⟨by omega, by omega⟩)
      | (refine ⟨3, ?_⟩
         intro n x h1 h2
         obtain ⟨r, c⟩ := x
         simp only [transformRC, invT]
         all_goals exact Prod.ext_iff.mpr ⟨by omega, by omega⟩)
      | (refine ⟨4, ?_⟩
         intro n x h1 h2
         obtain ⟨r, c⟩ := x
         simp only [transformRC, invT]
         all_goals exact Prod.ext_iff.mpr ⟨by omega, by omega⟩)
      | (refine ⟨5, ?_⟩
         intro n x h1 h2
         obtain ⟨r, c⟩ := x
         simp only [transformRC, invT]
         all_goals exact Prod.ext_iff.mpr ⟨by omega, by omega⟩)
      | (refine ⟨6, ?_⟩
         intro n x h1 h2
         obtain ⟨r, c⟩ := x
         simp only [transformRC, invT]
         all_goals exact Prod.ext_iff.mpr ⟨by omega, by omega⟩)
      | (refine ⟨7, ?_⟩
         intro n x h1 h2
         obtain ⟨r, c⟩ := x
         simp only [transformRC, invT]
         all_goals exact Prod.ext_iff.mpr ⟨by omega, by omega⟩) )

lemma transformBoard_comp {b : Board} (hwf : Wf b) (t s : TransformId) :
    ∃ u : TransformId,
      transformBoard (transformBoard b s) t = transformBoard b u := by
  obtain ⟨u, hu⟩ := transformRC_comp_exists t s
  refine ⟨u, ?_⟩
  rw [transformBoard_def (transformBoard b s) t, transformBoard_def b u,
    getBoardSize_transformBoard]
  apply List.map_congr_left
  intro r hr
  apply List.map_congr_left
  intro c hc
  rw [List.mem_range] at hr hc
  have hb := transformRC_bounds (invT t)
    (show ((r, c) : Move).1 < getBoardSize b from hr) hc
  rw [getCell_transformBoard b s hb.1 hb.2,
    show ((transformRC (invT t) (getBoardSize b) (r, c)).1,
      (transformRC (invT t) (getBoardSize b) (r, c)).2) =
      transformRC (invT t) (getBoardSize b) (r, c) from rfl,
    hu (getBoardSize b) (r, c) hr hc]

lemma transformBoard_inv {b : Board} (hwf : Wf b) (s : TransformId) :
    transformBoard (transformBoard b s) (invT s) = b := by
  rw [transformBoard_def (transformBoard b s) (invT s),
    getBoardSize_transformBoard, invT_invT s]
  conv_rhs => rw [board_eq_table hwf]
  apply List.map_congr_left
  intro r hr
  apply List.map_congr_left
  intro c hc
  rw [List.mem_range] at hr hc
  have hb := transformRC_bounds s
    (show ((r, c) : Move).1 < getBoardSize b from hr) hc
  rw [getCell_transformBoard b s hb.1 hb.2,
    show ((transformRC s (getBoardSize b) (r, c)).1,
      (transformRC s (getBoardSize b) (r, c)).2) =
      transformRC s (getBoardSize b) (r, c) from rfl,
    transformRC_invT' s (show ((r, c) : Move).1 < getBoardSize b from hr) hc]

/-- On well-formed boards the `t = 0` shortcut of the source changes
nothing. -/
lemma canonicalMin_eq {b : Board} (hwf : Wf b) :
    canonicalMin b = minKeyFold
      (allTransforms.map fun t => boardStrKey (transformBoard b t)) := by
  unfold canonicalMin
  congr 1
  apply List.map_congr_left
  intro t _
  by_cases ht : t = 0
  · subst ht
    rw [if_pos rfl, transformBoard_zero hwf]
  · rw [if_neg ht]

/-- **C7**.  On well-formed boards the canonical key is constant on each
symmetry orbit, and the minimised board string is itself the string of
an orbit member (one representative per orbit). -/
theorem canonicalKey_invariant {b : Board} (hwf : Wf b) (s : TransformId)
    (p : Player) :
    canonicalKey (transformBoard b s) p = canonicalKey b p ∧
    ∃ u : TransformId,
      canonicalMin b = boardStrKey (transformBoard b u) := by
  have hmapne : ∀ (f : TransformId → List Char), allTransforms.map f ≠ [] := by
    intro f h
    have hlen : (allTransforms.map f).length = 0 := by rw [h]; rfl
    rw [List.length_map] at hlen
    have h8 : allTransforms.length = 8 := rfl
    omega
  have hmin : canonicalMin (transformBoard b s) = canonicalMin b := by
    rw [canonicalMin_eq hwf, canonicalMin_eq (Wf_transformBoard b s)]
    apply minKeyFold_eq_of_same_mem (hmapne _) (hmapne _)
    · intro x hx
      rw [List.mem_map] at hx ⊢
      obtain ⟨t, _, rfl⟩ := hx
      obtain ⟨u, hu⟩ := transformBoard_comp hwf t s
      exact ⟨u, List.mem_finRange u, by rw [hu]⟩
    · intro x hx
      rw [List.mem_map] at hx ⊢
      obtain ⟨t, _, rfl⟩ := hx
      obtain ⟨u, hu⟩ := transformBoard_comp (Wf_transformBoard b s) t (invT s)
      rw [transformBoard_inv hwf s] at hu
      exact ⟨u, List.mem_finRange u, by rw [← hu]⟩
  constructor
  · unfold canonicalKey
    rw [hmin]
  · rw [canonicalMin_eq hwf]
    obtain ⟨t, _, ht⟩ :=
      List.mem_map.mp (minKeyFold_spec _ (hmapne
        fun t => boardStrKey (transformBoard b t))).1
    exact ⟨t, ht.symm⟩

/-- Witness: the C7 theorem applied to the concrete board `b9` under the
quarter rotation, for Black. -/
theorem canonicalKey_invariant_witness :
    Wf b9 ∧
    (canonicalKey (transformBoard b9 1) .black = canonicalKey b9 .black ∧
     ∃ u : TransformId,
       canonicalMin b9 = boardStrKey (transformBoard b9 u)) :=
  ⟨by decide, canonicalKey_invariant (by decide) 1 .black⟩

/-! ## Immediate wins are played before the search loop (C8) -/

lemma foldl_insertNew_append : ∀ (l acc : List Move),
    ∃ tl, l.foldl insertNew acc = acc ++ tl := by
  intro l
  induction l with
  | nil => intro acc; exact ⟨[], by simp⟩
  | cons x l ih =>
    intro acc
    rw [List.foldl_cons]
    simp only [insertNew]
    by_cases hx : x ∈ acc
    · rw [if_pos hx]
      exact ih acc
    · rw [if_neg hx]
      obtain ⟨tl, htl⟩ := ih (acc ++ [x])
      exact ⟨[x] ++ tl, by rw [htl, List.append_assoc]⟩

lemma dedupFold_append : ∀ (ls : List (List Move)) (acc : List Move),
    ∃ tl, ls.foldl (fun acc l => l.foldl insertNew acc) acc = acc ++ tl := by
  intro ls
  induction ls with
  | nil => intro acc; exact ⟨[], by simp⟩
  | cons l ls ih =>
    intro acc
    rw [List.foldl_cons]
    show ∃ tl, ls.foldl (fun acc l => l.foldl insertNew acc)
      (l.foldl insertNew acc) = acc ++ tl
    obtain ⟨t1, ht1⟩ := foldl_insertNew_append l acc
    obtain ⟨t2, ht2⟩ := ih (l.foldl insertNew acc)
    refine ⟨t1 ++ t2, ?_⟩
    rw [ht2, ht1, List.append_assoc]

/-- The `Set` union of `listThreatCandidates` starts with the first
winning move. -/
lemma dedupUnion_cons_head (w : Move) (rest : List Move)
    (more : List (List Move)) :
    ∃ tl, dedupUnion ((w :: rest) :: more) = w :: tl := by
  unfold dedupUnion
  rw [List.foldl_cons]
  show ∃ tl, more.foldl (fun acc l => l.foldl insertNew acc)
    ((w :: rest).foldl insertNew []) = w :: tl
  rw [List.foldl_cons, show insertNew [] w = [w] from rfl]
  obtain ⟨t1, ht1⟩ := foldl_insertNew_append rest [w]
  obtain ⟨t2, ht2⟩ := dedupFold_append more (rest.foldl insertNew [w])
  refine ⟨t1 ++ t2, ?_⟩
  rw [ht2, ht1]
  simp

lemma vctMoveOk_of_winning {b : Board} {p : Player} {m : Move} (d : ℕ)
    (hemp : getCell b m.1 m.2 = none) (hfive : fiveAfter b p m = true) :
    vctMoveOk b p d m = true := by
  unfold vctMoveOk
  rw [if_neg (by rw [hemp]; simp)]
  rw [if_neg (by rw [isForbiddenMove_five hfive]; simp)]
  rw [if_pos (show checkWin (place b p m) p m = true from hfive)]

/-- **C8**.  If some empty on-board cell completes a five for the side
to move on a well-formed board, `findBestMoveNN` returns a
five-completing move from its pre-search phase (here `findBestMoveNNPre`,
the decision chain before the PUCT loop), for every adapted VCT depth:
the NN-guided search loop is never entered. -/
theorem findBestMoveNN_immediate_win {b : Board} (hwf : Wf b) {p : Player}
    {w : Move} (hw1 : w.1 < getBoardSize b) (hw2 : w.2 < getBoardSize b)
    (hemp : getCell b w.1 w.2 = none) (hfive : fiveAfter b p w = true)
    (vctDepth : ℕ) :
    ∃ m, findBestMoveNNPre b p vctDepth = some m ∧
      fiveAfter b p m = true ∧ checkWin (place b p m) p m = true := by
  have hn : 1 ≤ getBoardSize b := by omega
  have hwin : w ∈ winningMovesFor b p :=
    winningMovesFor_complete hwf hw1 hw2 hemp hfive
  rcases hwm : winningMovesFor b p with _ | ⟨w1, rest⟩
  · rw [hwm] at hwin
    cases hwin
  · have hw1mem : w1 ∈ winningMovesFor b p := by
      rw [hwm]
      exact List.mem_cons_self _ _
    obtain ⟨hpm1, hfive1⟩ := mem_winningMovesFor.mp hw1mem
    obtain ⟨hb1, hb2, hbe⟩ := mem_pm_bounds hpm1 hn
    obtain ⟨tl, htl⟩ : ∃ tl, listThreatCandidates b p = w1 :: tl := by
      simp only [listThreatCandidates]
      rw [hwm]
      obtain ⟨tl0, htl0⟩ := dedupUnion_cons_head w1 rest
        [findThreats b p true, findThreats b p false,
         listOpenThreeMakers b p (getPossibleMoves b 1)]
      rw [htl0]
      exact ⟨_, List.filter_cons_of_pos (by simp [hb1, hb2, hbe])⟩
    have hok : vctMoveOk b p vctDepth w1 = true :=
      vctMoveOk_of_winning vctDepth hbe hfive1
    refine ⟨w1, ?_, hfive1, hfive1⟩
    have hvct : findVCTWinFirstMove b p vctDepth = some w1 := by
      unfold findVCTWinFirstMove
      rw [htl]
      exact List.find?_cons_of_pos _ hok
    unfold findBestMoveNNPre
    rw [hvct]

/-- Witness: the C8 theorem applied on `bW5`, where `(0,4)` completes a
Black five. -/
theorem findBestMoveNN_immediate_win_witness :
    Wf bW5 ∧ (0, 4).1 < getBoardSize bW5 ∧ (0, 4).2 < getBoardSize bW5 ∧
    getCell bW5 0 4 = none ∧ fiveAfter bW5 .black (0, 4) = true ∧
    ∃ m, findBestMoveNNPre bW5 .black 5 = some m ∧
      fiveAfter bW5 .black m = true ∧
      checkWin (place bW5 .black m) .black m = true :=
  ⟨by decide, by decide, by decide, by decide, by decide,
   findBestMoveNN_immediate_win (w := (0, 4)) (by decide) (by decide)
     (by decide) (by decide) (by decide) 5⟩

lemma optNone_of_not_isSome {o : Option Player} (h : ¬ o.isSome = true) :
    o = none := by
  rcases o with _ | q
  · rfl
  · exact absurd rfl h

lemma isForbiddenMoveSt_spec (b : Board) (p : Player) (m : Move) :
    isForbiddenMoveSt b p m = (isForbiddenMove b p m, b) := by
  unfold isForbiddenMoveSt isForbiddenMove
  by_cases hp : p ≠ .black
  · rw [if_pos hp, if_pos hp]
  rw [if_neg hp, if_neg hp]
  by_cases hocc : (getCell b m.1 m.2).isSome = true
  · rw [if_pos hocc, if_pos hocc]
  rw [if_neg hocc, if_neg hocc]
  have hemp : getCell b m.1 m.2 = none := optNone_of_not_isSome hocc
  by_cases hw : checkWin (place b p m) p m = true
  · rw [if_pos hw, if_pos hw, unplace_place hemp]
  · rw [if_neg hw, if_neg hw, unplace_place hemp]

lemma winFold_spec {b : Board} (p : Player) :
    ∀ (l : List Move), (∀ x ∈ l, getCell b x.1 x.2 = none) →
    ∀ (acc0 : List Move),
      l.foldl (winStepSt p) (acc0, b) =
        (acc0 ++ l.filter (fun x => fiveAfter b p x), b) := by
  intro l
  induction l with
  | nil => intro _ acc0; simp
  | cons m l ih =>
    intro hemp acc0
    have hemp' : getCell b m.1 m.2 = none := hemp m (List.mem_cons_self m l)
    have hrest : ∀ x ∈ l, getCell b x.1 x.2 = none :=
      fun x hx => hemp x (List.mem_cons_of_mem m hx)
    rw [List.foldl_cons]
    have hstep : winStepSt p (acc0, b) m =
        (if fiveAfter b p m then acc0 ++ [m] else acc0, b) := by
      show (if checkWin (place b p m) p m then acc0 ++ [m] else acc0,
        unplace (place b p m) m) = _
      rw [unplace_place hemp']
      rfl
    rw [hstep]
    cases h5 : fiveAfter b p m
    · rw [if_neg (by decide), ih hrest acc0,
        List.filter_cons_of_neg (by simp [h5])]
    · rw [if_pos rfl, ih hrest (acc0 ++ [m]),
        List.filter_cons_of_pos (by simp [h5])]
      simp

lemma winningMovesForSt_spec {b : Board} (hn : 1 ≤ getBoardSize b)
    (p : Player) :
    winningMovesForSt b p = (winningMovesFor b p, b) := by
  unfold winningMovesForSt winningMovesFor
  rw [winFold_spec p _ (fun x hx => (mem_pm_bounds hx hn).2.2) []]
  rw [List.nil_append]

lemma otmFold_spec {b : Board} (p : Player) :
    ∀ (l : List Move) (acc0 : List Move),
      l.foldl (otmStepSt p) (acc0, b) =
        (acc0 ++ l.filter (fun x => (getCell b x.1 x.2).isNone &&
          !(findThreats (place b p x) p true).isEmpty), b) := by
  intro l
  induction l with
  | nil => intro acc0; simp
  | cons m l ih =>
    intro acc0
    rw [List.foldl_cons]
    by_cases hocc : (getCell b m.1 m.2).isSome = true
    · have hstep : otmStepSt p (acc0, b) m = (acc0, b) := by
        unfold otmStepSt
        rw [if_pos hocc]
      rcases hgc : getCell b m.1 m.2 with _ | q
      · rw [hgc] at hocc
        exact absurd hocc (by decide)
      · rw [hstep, ih acc0, List.filter_cons_of_neg (by simp [hgc])]
    · have hemp : getCell b m.1 m.2 = none := optNone_of_not_isSome hocc
      have hstep : otmStepSt p (acc0, b) m =
          (if 0 < (findThreats (place b p m) p true).length then acc0 ++ [m]
           else acc0, b) := by
        unfold otmStepSt
        rw [if_neg hocc]
        show (if 0 < (findThreats (place b p m) p true).length then acc0 ++ [m]
          else acc0, unplace (place b p m) m) = _
        rw [unplace_place hemp]
      rw [hstep]
      rcases hthr : findThreats (place b p m) p true with _ | ⟨t, ts⟩
      · rw [if_neg (by simp), ih acc0,
          List.filter_cons_of_neg (by simp [hemp, hthr])]
      · rw [if_pos (by simp), ih (acc0 ++ [m]),
          List.filter_cons_of_pos (by simp [hemp, hthr])]
        simp

lemma listOpenThreeMakersSt_spec (b : Board) (p : Player)
    (candidates : List Move) :
    listOpenThreeMakersSt b p candidates =
      (listOpenThreeMakers b p candidates, b) := by
  unfold listOpenThreeMakersSt listOpenThreeMakers
  rw [otmFold_spec p candidates [], List.nil_append]

lemma solverCandidatesSt_spec {b : Board} (hn : 1 ≤ getBoardSize b)
    (p : Player) (fallbackN : ℕ) :
    solverCandidatesSt b p fallbackN = (solverCandidates b p fallbackN, b) := by
  unfold solverCandidatesSt solverCandidates
  simp only [listOpenThreeMakersSt_spec, winningMovesForSt_spec hn]

lemma listThreatCandidatesSt_spec {b : Board} (hn : 1 ≤ getBoardSize b)
    (p : Player) :
    listThreatCandidatesSt b p = (listThreatCandidates b p, b) := by
  unfold listThreatCandidatesSt listThreatCandidates
  simp only [winningMovesForSt_spec hn, listOpenThreeMakersSt_spec]

lemma fbIte_fst (b : Board) (p : Player) (m : Move) :
    (if p = .black then isForbiddenMoveSt b p m else (false, b)).1 =
      (p = .black && isForbiddenMove b p m) := by
  by_cases hp : p = .black
  · subst hp
    rw [if_pos rfl, isForbiddenMoveSt_spec]
    simp
  · rw [if_neg hp]
    simp [hp]

lemma fbIte_snd (b : Board) (p : Player) (m : Move) :
    (if p = .black then isForbiddenMoveSt b p m else (false, b)).2 = b := by
  by_cases hp : p = .black
  · subst hp
    rw [if_pos rfl, isForbiddenMoveSt_spec]
  · rw [if_neg hp]

lemma winning_cell_empty {bb : Board} (hnb : 1 ≤ getBoardSize bb) {p : Player}
    {w : Move} (hw : w ∈ winningMovesFor bb p) :
    getCell bb w.1 w.2 = none :=
  (mem_pm_bounds (mem_winningMovesFor.mp hw).1 hnb).2.2

lemma solverBodySt_eq {b : Board} (hn : 1 ≤ getBoardSize b) (p : Player)
    {next : Board → Bool × Board} {npure : Board → Bool}
    (hnext : ∀ b2, 1 ≤ getBoardSize b2 → next b2 = (npure b2, b2))
    (m : Move) :
    solverBodySt p next b m =
      ((if (getCell b m.1 m.2).isSome then false
        else if p = .black && isForbiddenMove b p m then false
        else if checkWin (place b p m) p m then true
        else if 2 ≤ (winningMovesFor (place b p m) p).length then true
        else match winningMovesFor (place b p m) p with
          | [w] => npure (place (place b p m) (getOpponent p) w)
          | _ => false), b) := by
  have hn1 : 1 ≤ getBoardSize (place b p m) := by
    rw [getBoardSize_place]; exact hn
  simp only [solverBodySt]
  by_cases hocc : (getCell b m.1 m.2).isSome = true
  · rw [if_pos hocc, if_pos hocc]
  have hemp : getCell b m.1 m.2 = none := optNone_of_not_isSome hocc
  rw [if_neg hocc, if_neg hocc, fbIte_fst, fbIte_snd]
  by_cases hforb : (p = .black && isForbiddenMove b p m) = true
  · rw [if_pos hforb, if_pos hforb]
  rw [if_neg hforb, if_neg hforb]
  by_cases hwin : checkWin (place b p m) p m = true
  · rw [if_pos hwin, if_pos hwin, unplace_place hemp]
  rw [if_neg hwin, if_neg hwin, winningMovesForSt_spec hn1 p]
  dsimp only
  by_cases hdbl : 2 ≤ (winningMovesFor (place b p m) p).length
  · rw [if_pos hdbl, if_pos hdbl, unplace_place hemp]
  rw [if_neg hdbl, if_neg hdbl]
  rcases hwm : winningMovesFor (place b p m) p with _ | ⟨w, _ | ⟨w2, ws⟩⟩
  · show (false, unplace (place b p m) m) = (false, b)
    rw [unplace_place hemp]
  · have hwmem : w ∈ winningMovesFor (place b p m) p := by
      rw [hwm]
      exact List.mem_cons_self w []
    have hwemp : getCell (place b p m) w.1 w.2 = none :=
      winning_cell_empty hn1 hwmem
    have hn2 : 1 ≤ getBoardSize (place (place b p m) (getOpponent p) w) := by
      rw [getBoardSize_place]; exact hn1
    show ((next (place (place b p m) (getOpponent p) w)).1,
      unplace (unplace (next (place (place b p m) (getOpponent p) w)).2 w) m)
      = (npure (place (place b p m) (getOpponent p) w), b)
    rw [hnext _ hn2]
    dsimp only
    rw [unplace_place hwemp, unplace_place hemp]
  · show (false, unplace (place b p m) m) = (false, b)
    rw [unplace_place hemp]

lemma solverStepSt_eq {b : Board} (hn : 1 ≤ getBoardSize b) (p : Player)
    {next : Board → Bool × Board} {npure : Board → Bool}
    (hnext : ∀ b2, 1 ≤ getBoardSize b2 → next b2 = (npure b2, b2))
    (r : Bool) (m : Move) :
    solverStepSt p next (r, b) m =
      (r || (if (getCell b m.1 m.2).isSome then false
        else if p = .black && isForbiddenMove b p m then false
        else if checkWin (place b p m) p m then true
        else if 2 ≤ (winningMovesFor (place b p m) p).length then true
        else match winningMovesFor (place b p m) p with
          | [w] => npure (place (place b p m) (getOpponent p) w)
          | _ => false), b) := by
  cases r with
  | true => rfl
  | false =>
    rw [Bool.false_or]
    show solverBodySt p next b m = _
    exact solverBodySt_eq hn p hnext m

lemma solverFold_spec {b : Board} (hn : 1 ≤ getBoardSize b) (p : Player)
    {next : Board → Bool × Board} {npure : Board → Bool}
    (hnext : ∀ b2, 1 ≤ getBoardSize b2 → next b2 = (npure b2, b2)) :
    ∀ (l : List Move) (r : Bool),
      l.foldl (solverStepSt p next) (r, b) =
        (r || l.any (fun m =>
          if (getCell b m.1 m.2).isSome then false
          else if p = .black && isForbiddenMove b p m then false
          else if checkWin (place b p m) p m then true
          else if 2 ≤ (winningMovesFor (place b p m) p).length then true
          else match winningMovesFor (place b p m) p with
            | [w] => npure (place (place b p m) (getOpponent p) w)
            | _ => false), b) := by
  intro l
  induction l with
  | nil => intro r; simp
  | cons m l ih =>
    intro r
    rw [List.foldl_cons, solverStepSt_eq hn p hnext r m, ih, List.any_cons,
      Bool.or_assoc]

lemma forcedWinDFSSt_spec : ∀ (d : ℕ) {b : Board}, 1 ≤ getBoardSize b →
    ∀ (p : Player), forcedWinDFSSt d b p = (forcedWinDFS d b p, b) := by
  intro d
  induction d with
  | zero => intro b hn p; rfl
  | succ d ih =>
    intro b hn p
    simp only [forcedWinDFSSt]
    rw [solverCandidatesSt_spec hn p 24]
    dsimp only
    rw [solverFold_spec hn p (fun b2 h2 => ih h2 p) _ false, Bool.false_or]
    rfl

lemma vctDFSSt_spec : ∀ (d : ℕ) {b : Board}, 1 ≤ getBoardSize b →
    ∀ (p : Player), vctDFSSt d b p = (vctDFS d b p, b) := by
  intro d
  induction d with
  | zero => intro b hn p; rfl
  | succ d ih =>
    intro b hn p
    simp only [vctDFSSt]
    rw [listThreatCandidatesSt_spec hn p]
    dsimp only
    rw [solverFold_spec hn p (fun b2 h2 => ih h2 p) _ false, Bool.false_or]
    rfl

lemma optMatch_pair {o : Option Move} {b : Board} {y : Option Move} :
    (match o with
      | some m => (some m, b)
      | none => (y, b)) =
    ((match o with
      | some m => some m
      | none => y), b) := by
  rcases o with _ | m
  · rfl
  · rfl

/-- The `found`-style loops keep the first hit and stop mutating: a fold
whose step keeps `some` results and evaluates a pure test on `none`
computes `find?` and returns the board unchanged. -/
lemma optionFold_spec {b : Board}
    {step : Option Move × Board → Move → Option Move × Board}
    {pred : Move → Bool}
    (hkeep : ∀ (x m : Move), step (some x, b) m = (some x, b))
    (hnone : ∀ m : Move, step (none, b) m =
      ((if pred m then some m else none), b)) :
    ∀ (l : List Move) (o : Option Move),
      l.foldl step (o, b) =
        ((match o with | some x => some x | none => l.find? pred), b) := by
  intro l
  induction l with
  | nil =>
    intro o
    rcases o with _ | x
    · rfl
    · rfl
  | cons m l ih =>
    intro o
    rcases o with _ | x
    · rw [List.foldl_cons, hnone m]
      cases hpm : pred m
      · rw [if_neg Bool.false_ne_true, ih none,
          List.find?_cons_of_neg l (by simp [hpm])]
      · rw [if_pos rfl, ih (some m), List.find?_cons_of_pos _ hpm]
    · rw [List.foldl_cons, hkeep x m, ih (some x)]

lemma firstBodySt_eq {b : Board} (hn : 1 ≤ getBoardSize b) (p : Player)
    (maxDepth : ℕ) {next : ℕ → Board → Bool × Board}
    {npure : ℕ → Board → Bool}
    (hnext : ∀ dd b2, 1 ≤ getBoardSize b2 → next dd b2 = (npure dd b2, b2))
    (m : Move) :
    firstBodySt p maxDepth next b m =
      ((if (if (getCell b m.1 m.2).isSome then false
        else if p = .black && isForbiddenMove b p m then false
        else if checkWin (place b p m) p m then true
        else if 2 ≤ (winningMovesFor (place b p m) p).length then true
        else match maxDepth, winningMovesFor (place b p m) p with
          | dd + 1, [w] => npure dd (place (place b p m) (getOpponent p) w)
          | _, _ => false) then some m else none), b) := by
  have hn1 : 1 ≤ getBoardSize (place b p m) := by
    rw [getBoardSize_place]; exact hn
  simp only [firstBodySt]
  by_cases hocc : (getCell b m.1 m.2).isSome = true
  · rw [if_pos hocc, if_pos hocc, if_neg Bool.false_ne_true]
  have hemp : getCell b m.1 m.2 = none := optNone_of_not_isSome hocc
  rw [if_neg hocc, if_neg hocc, fbIte_fst, fbIte_snd]
  by_cases hforb : (p = .black && isForbiddenMove b p m) = true
  · rw [if_pos hforb, if_pos hforb, if_neg Bool.false_ne_true]
  rw [if_neg hforb, if_neg hforb]
  by_cases hwin : checkWin (place b p m) p m = true
  · rw [if_pos hwin, if_pos hwin, if_pos rfl, unplace_place hemp]
  rw [if_neg hwin, if_neg hwin, winningMovesForSt_spec hn1 p]
  dsimp only
  by_cases hdbl : 2 ≤ (winningMovesFor (place b p m) p).length
  · rw [if_pos hdbl, if_pos hdbl, if_pos rfl, unplace_place hemp]
  rw [if_neg hdbl, if_neg hdbl]
  cases maxDepth with
  | zero =>
    show (none, unplace (place b p m) m) =
      ((if false then some m else none), b)
    rw [if_neg Bool.false_ne_true, unplace_place hemp]
  | succ dd =>
    rcases hwm : winningMovesFor (place b p m) p with _ | ⟨w, _ | ⟨w2, ws⟩⟩
    · show (none, unplace (place b p m) m) =
        ((if false then some m else none), b)
      rw [if_neg Bool.false_ne_true, unplace_place hemp]
    · have hwmem : w ∈ winningMovesFor (place b p m) p := by
        rw [hwm]
        exact List.mem_cons_self w []
      have hwemp : getCell (place b p m) w.1 w.2 = none :=
        winning_cell_empty hn1 hwmem
      have hn2 : 1 ≤ getBoardSize (place (place b p m) (getOpponent p) w) := by
        rw [getBoardSize_place]; exact hn1
      show ((if (next dd (place (place b p m) (getOpponent p) w)).1 then some m
          else none),
        unplace (unplace (next dd (place (place b p m) (getOpponent p) w)).2 w)
          m) =
        ((if npure dd (place (place b p m) (getOpponent p) w) then some m
          else none), b)
      rw [hnext dd _ hn2]
      dsimp only
      rw [unplace_place hwemp, unplace_place hemp]
    · show (none, unplace (place b p m) m) =
        ((if false then some m else none), b)
      rw [if_neg Bool.false_ne_true, unplace_place hemp]

lemma findForcedWinFirstMoveSt_spec {b : Board} (hn : 1 ≤ getBoardSize b)
    (p : Player) (maxDepth : ℕ) :
    findForcedWinFirstMoveSt b p maxDepth =
      (findForcedWinFirstMove b p maxDepth, b) := by
  simp only [findForcedWinFirstMoveSt]
  rw [solverCandidatesSt_spec hn p 32]
  dsimp only
  have hkeep : ∀ (x m : Move),
      firstStepSt p maxDepth (fun dd b2 => forcedWinDFSSt dd b2 p)
        (some x, b) m = (some x, b) := fun x m => rfl
  have hnone : ∀ m : Move,
      firstStepSt p maxDepth (fun dd b2 => forcedWinDFSSt dd b2 p)
        (none, b) m =
      ((if ffwMoveOk b p maxDepth m then some m else none), b) := by
    intro m
    show firstBodySt p maxDepth (fun dd b2 => forcedWinDFSSt dd b2 p) b m = _
    rw [firstBodySt_eq hn p maxDepth
      (fun dd b2 h2 => forcedWinDFSSt_spec dd h2 p) m]
    rfl
  rw [optionFold_spec hkeep hnone _ none]
  rfl

lemma findVCTWinFirstMoveSt_spec {b : Board} (hn : 1 ≤ getBoardSize b)
    (p : Player) (maxDepth : ℕ) :
    findVCTWinFirstMoveSt b p maxDepth =
      (findVCTWinFirstMove b p maxDepth, b) := by
  simp only [findVCTWinFirstMoveSt]
  rw [listThreatCandidatesSt_spec hn p]
  dsimp only
  have hkeep : ∀ (x m : Move),
      firstStepSt p maxDepth (fun dd b2 => vctDFSSt dd b2 p)
        (some x, b) m = (some x, b) := fun x m => rfl
  have hnone : ∀ m : Move,
      firstStepSt p maxDepth (fun dd b2 => vctDFSSt dd b2 p) (none, b) m =
      ((if vctMoveOk b p maxDepth m then some m else none), b) := by
    intro m
    show firstBodySt p maxDepth (fun dd b2 => vctDFSSt dd b2 p) b m = _
    rw [firstBodySt_eq hn p maxDepth
      (fun dd b2 h2 => vctDFSSt_spec dd h2 p) m]
    rfl
  rw [optionFold_spec hkeep hnone _ none]
  rfl

lemma defBodySt_eq {b : Board} (hn : 1 ≤ getBoardSize b) (p opponent : Player)
    (probeDepth : ℕ) (m : Move) :
    defBodySt p opponent probeDepth b m =
      ((if (if (getCell b m.1 m.2).isSome then false
        else if p = .black && isForbiddenMove b p m then false
        else (findForcedWinFirstMove (place b p m) opponent
          probeDepth).isNone) then some m else none), b) := by
  simp only [defBodySt]
  by_cases hocc : (getCell b m.1 m.2).isSome = true
  · rw [if_pos hocc, if_pos hocc, if_neg Bool.false_ne_true]
  have hemp : getCell b m.1 m.2 = none := optNone_of_not_isSome hocc
  have hn1 : 1 ≤ getBoardSize (place b p m) := by
    rw [getBoardSize_place]; exact hn
  rw [if_neg hocc, if_neg hocc, fbIte_fst, fbIte_snd]
  by_cases hforb : (p = .black && isForbiddenMove b p m) = true
  · rw [if_pos hforb, if_pos hforb, if_neg Bool.false_ne_true]
  rw [if_neg hforb, if_neg hforb,
    findForcedWinFirstMoveSt_spec hn1 opponent probeDepth]
  dsimp only
  rw [unplace_place hemp]

lemma findDefenseMoveSt_spec {b : Board} (hn : 1 ≤ getBoardSize b)
    (p : Player) (maxDepth : ℕ) :
    findDefenseMoveSt b p maxDepth =
      (findDefenseMoveAgainstOpponentForced b p maxDepth, b) := by
  simp only [findDefenseMoveSt, findDefenseMoveAgainstOpponentForced]
  rw [findForcedWinFirstMoveSt_spec hn (getOpponent p) (max 2 (maxDepth - 1))]
  dsimp only
  by_cases hpr : (findForcedWinFirstMove b (getOpponent p)
      (max 2 (maxDepth - 1))).isNone = true
  · rw [if_pos hpr, if_pos hpr]
  rw [if_neg hpr, if_neg hpr,
    listOpenThreeMakersSt_spec b (getOpponent p) (getPossibleMoves b 1)]
  dsimp only
  rw [winningMovesForSt_spec hn (getOpponent p)]
  dsimp only
  have hkeep : ∀ (x m : Move),
      defStepSt p (getOpponent p) (max 2 (maxDepth - 1)) (some x, b) m =
        (some x, b) := fun x m => rfl
  have hnone : ∀ m : Move,
      defStepSt p (getOpponent p) (max 2 (maxDepth - 1)) (none, b) m =
      ((if (if (getCell b m.1 m.2).isSome then false
        else if p = .black && isForbiddenMove b p m then false
        else (findForcedWinFirstMove (place b p m) (getOpponent p)
          (max 2 (maxDepth - 1))).isNone) then some m else none), b) := by
    intro m
    show defBodySt p (getOpponent p) (max 2 (maxDepth - 1)) b m = _
    exact defBodySt_eq hn p (getOpponent p) (max 2 (maxDepth - 1)) m
  rw [optionFold_spec hkeep hnone _ none]

lemma scanBodySt_eq {b : Board} (q : Player) (m : Move) :
    scanBodySt q b m =
      ((if (getCell b m.1 m.2).isNone && fiveAfter b q m then some m
        else none), b) := by
  simp only [scanBodySt]
  by_cases hocc : (getCell b m.1 m.2).isSome = true
  · rw [if_pos hocc]
    rcases hgc : getCell b m.1 m.2 with _ | x
    · rw [hgc] at hocc
      exact absurd hocc (by decide)
    · rw [if_neg (by simp)]
  · have hemp : getCell b m.1 m.2 = none := optNone_of_not_isSome hocc
    rw [if_neg hocc]
    show ((if fiveAfter b q m then some m else none),
      unplace (place b q m) m) = _
    rw [unplace_place hemp]
    cases h5 : fiveAfter b q m
    · rw [if_neg Bool.false_ne_true, if_neg (by simp)]
    · rw [if_pos rfl, if_pos (by simp [hemp])]

lemma blockBodySt_eq {b : Board} (p : Player) (m : Move) :
    blockBodySt p b m =
      ((if (getCell b m.1 m.2).isNone && fiveAfter b (getOpponent p) m &&
          !(decide (p = .black) && isForbiddenMove b p m) then some m
        else none), b) := by
  simp only [blockBodySt]
  by_cases hocc : (getCell b m.1 m.2).isSome = true
  · rw [if_pos hocc]
    rcases hgc : getCell b m.1 m.2 with _ | x
    · rw [hgc] at hocc
      exact absurd hocc (by decide)
    · rw [if_neg (by simp)]
  · have hemp : getCell b m.1 m.2 = none := optNone_of_not_isSome hocc
    rw [if_neg hocc,
      show unplace (place b (getOpponent p) m) m = b from unplace_place hemp,
      fbIte_fst, fbIte_snd]
    show (if fiveAfter b (getOpponent p) m then
        ((if (p = .black && isForbiddenMove b p m : Bool) then none
          else some m), b)
      else (none, b)) = _
    cases h5 : fiveAfter b (getOpponent p) m
    · rw [if_neg Bool.false_ne_true, if_neg (by simp)]
    · rw [if_pos rfl]
      cases hf : (p = .black && isForbiddenMove b p m : Bool)
      · rw [if_neg Bool.false_ne_true, if_pos (by simp [hemp])]
      · rw [if_pos rfl, if_neg (by simp [hemp])]

lemma findBestMoveNNPreSt_spec {b : Board} (hn : 1 ≤ getBoardSize b)
    (p : Player) (vctDepth : ℕ) :
    findBestMoveNNPreSt b p vctDepth =
      (findBestMoveNNPre b p vctDepth, b) := by
  have hkeepW : ∀ (x m : Move), scanStepSt p (some x, b) m = (some x, b) :=
    fun x m => rfl
  have hnoneW : ∀ m : Move, scanStepSt p (none, b) m =
      ((if (getCell b m.1 m.2).isNone && fiveAfter b p m then some m
        else none), b) := by
    intro m
    show scanBodySt p b m = _
    exact scanBodySt_eq p m
  have hkeepB : ∀ (x m : Move), blockStepSt p (some x, b) m = (some x, b) :=
    fun x m => rfl
  have hnoneB : ∀ m : Move, blockStepSt p (none, b) m =
      ((if (getCell b m.1 m.2).isNone && fiveAfter b (getOpponent p) m &&
          !(decide (p = .black) && isForbiddenMove b p m) then some m
        else none), b) := by
    intro m
    show blockBodySt p b m = _
    exact blockBodySt_eq p m
  simp only [findBestMoveNNPreSt, findBestMoveNNPre]
  rw [findVCTWinFirstMoveSt_spec hn p vctDepth]
  dsimp only
  rw [findForcedWinFirstMoveSt_spec hn p 3]
  dsimp only
  rw [findDefenseMoveSt_spec hn p 3]
  dsimp only
  rw [optionFold_spec hkeepW hnoneW _ none]
  dsimp only
  rw [optionFold_spec hkeepB hnoneB _ none]
  rw [optMatch_pair, optMatch_pair, optMatch_pair, optMatch_pair]

/-- **C10**.  On a nonempty board, every mutating tactical helper of
`findBestMoveNN` — `winningMovesFor`, `isForbiddenMove`,
`listOpenThreeMakers`, the VCF solver (`forcedWinDFS`,
`findForcedWinFirstMove`), the VCT solver, the defensive solver, and the
whole pre-search decision chain — returns the caller's board exactly as
it was on entry (every temporarily placed stone is removed again), and
computes the same result as the pure renderings used elsewhere in this
development; the PUCT loop itself reads only per-simulation clones, so
`findBestMoveNN` never mutates the caller's board. -/
theorem tactical_helpers_preserve_board {b : Board} (hn : 1 ≤ getBoardSize b)
    (p : Player) (m : Move) (cands : List Move) (d : ℕ) :
    ((winningMovesForSt b p).2 = b ∧
     (isForbiddenMoveSt b p m).2 = b ∧
     (listOpenThreeMakersSt b p cands).2 = b ∧
     (forcedWinDFSSt d b p).2 = b ∧
     (findForcedWinFirstMoveSt b p d).2 = b ∧
     (vctDFSSt d b p).2 = b ∧
     (findVCTWinFirstMoveSt b p d).2 = b ∧
     (findDefenseMoveSt b p d).2 = b ∧
     (findBestMoveNNPreSt b p d).2 = b) ∧
    ((winningMovesForSt b p).1 = winningMovesFor b p ∧
     (isForbiddenMoveSt b p m).1 = isForbiddenMove b p m ∧
     (listOpenThreeMakersSt b p cands).1 = listOpenThreeMakers b p cands ∧
     (forcedWinDFSSt d b p).1 = forcedWinDFS d b p ∧
     (findForcedWinFirstMoveSt b p d).1 = findForcedWinFirstMove b p d ∧
     (vctDFSSt d b p).1 = vctDFS d b p ∧
     (findVCTWinFirstMoveSt b p d).1 = findVCTWinFirstMove b p d ∧
     (findDefenseMoveSt b p d).1 =
       findDefenseMoveAgainstOpponentForced b p d ∧
     (findBestMoveNNPreSt b p d).1 = findBestMoveNNPre b p d) := by
  rw [winningMovesForSt_spec hn p, isForbiddenMoveSt_spec b p m,
    listOpenThreeMakersSt_spec b p cands, forcedWinDFSSt_spec d hn p,
    findForcedWinFirstMoveSt_spec hn p d, vctDFSSt_spec d hn p,
    findVCTWinFirstMoveSt_spec hn p d, findDefenseMoveSt_spec hn p d,
    findBestMoveNNPreSt_spec hn p d]
  exact ⟨⟨rfl, rfl, rfl, rfl, rfl, rfl, rfl, rfl, rfl⟩,
    rfl, rfl, rfl, rfl, rfl, rfl, rfl, rfl, rfl⟩

/-- Witness: board preservation and result agreement of every helper on
the concrete board `bW5`. -/
theorem tactical_helpers_preserve_board_witness :
    1 ≤ getBoardSize bW5 ∧
    (((winningMovesForSt bW5 .black).2 = bW5 ∧
      (isForbiddenMoveSt bW5 .black (0, 4)).2 = bW5 ∧
      (listOpenThreeMakersSt bW5 .black [(0, 0)]).2 = bW5 ∧
      (forcedWinDFSSt 1 bW5 .black).2 = bW5 ∧
      (findForcedWinFirstMoveSt bW5 .black 1).2 = bW5 ∧
      (vctDFSSt 1 bW5 .black).2 = bW5 ∧
      (findVCTWinFirstMoveSt bW5 .black 1).2 = bW5 ∧
      (findDefenseMoveSt bW5 .black 1).2 = bW5 ∧
      (findBestMoveNNPreSt bW5 .black 1).2 = bW5) ∧
     ((winningMovesForSt bW5 .black).1 = winningMovesFor bW5 .black ∧
      (isForbiddenMoveSt bW5 .black (0, 4)).1 =
        isForbiddenMove bW5 .black (0, 4) ∧
      (listOpenThreeMakersSt bW5 .black [(0, 0)]).1 =
        listOpenThreeMakers bW5 .black [(0, 0)] ∧
      (forcedWinDFSSt 1 bW5 .black).1 = forcedWinDFS 1 bW5 .black ∧
      (findForcedWinFirstMoveSt bW5 .black 1).1 =
        findForcedWinFirstMove bW5 .black 1 ∧
      (vctDFSSt 1 bW5 .black).1 = vctDFS 1 bW5 .black ∧
      (findVCTWinFirstMoveSt bW5 .black 1).1 =
        findVCTWinFirstMove bW5 .black 1 ∧
      (findDefenseMoveSt bW5 .black 1).1 =
        findDefenseMoveAgainstOpponentForced bW5 .black 1 ∧
      (findBestMoveNNPreSt bW5 .black 1).1 =
        findBestMoveNNPre bW5 .black 1)) :=
  ⟨by decide,
   tactical_helpers_preserve_board (by decide) .black (0, 4) [(0, 0)] 1⟩

/-- **C6** counterexample to the unamended claim: on the stoneless 2×2
board the centre fallback cell `(1,1)` is not fixed by the quarter
rotation, so the legal-move set of the rotated board is not the
transform image of the legal-move set. -/
theorem getPossibleMoves_equivariant_counterexample :
    ¬ ((1, 1) ∈ getPossibleMoves (transformBoard bE2 1) 1 ↔
       (1, 1) ∈ (getPossibleMoves bE2 1).map
         (transformRC 1 (getBoardSize bE2))) := by
  decide

/-- Witness: the amended C6 theorem applied to `b6` (which has stones)
under the quarter rotation. -/
theorem getPossibleMoves_equivariant_witness :
    Wf b6 ∧ (hasStonesB b6 = true ∨ getBoardSize b6 % 2 = 1) ∧
    ((∀ x, x ∈ getPossibleMoves (transformBoard b6 1) 2 ↔
       x ∈ (getPossibleMoves b6 2).map (transformRC 1 (getBoardSize b6))) ∧
    (hasStonesB b6 = false →
      getPossibleMoves b6 2 = [(getBoardSize b6 / 2, getBoardSize b6 / 2)])) :=
  ⟨by decide, Or.inl (by decide),
   getPossibleMoves_equivariant (by decide) 1 2 (Or.inl (by decide))⟩

end Gomoku
